import Mathlib

/-!
# A verification development for the CDCL solver (`solver.cpp`, `assignments.h`)

The C++ classes are embedded as Lean structures and functions:

* a `Literal` is a variable id and a polarity, a `Clause` the vector of its literals;
* the `Assignments` store is the `unordered_map<int, Assignment>` (a keyed list without
  repeated keys), the current decision level and the trail;
* the trail is kept with the most recent entry first: `push_back` is `::`, `back()` is the
  head and the reverse iteration `rbegin() .. rend()` is the list order;
* loops that the C++ leaves unbounded take a `fuel` argument that bounds the number of
  iterations; `Run.outOfFuel` is the outcome of a run that needs more;
* `std::out_of_range` thrown by `unordered_map::at` is the outcome `Run.thrown`.
-/

namespace SATSolver

/-! ## Data model -/

/-- Literal of `literal.h`: `getVariable()` and `isNegated()`. -/
structure Literal where
  getVariable : Int
  isNegated : Bool
deriving DecidableEq

/-- Clause of `clause.h`: the vector of its literals; `length()` is the number of literals. -/
abbrev Clause := List Literal

/-- Modelled from the spec: `formula.h` is not part of the sources. A formula is the ordered
sequence of its clauses together with the set of variables, listed in the (unspecified)
iteration order of `getVariables()`. -/
structure Formula where
  clauses : List Clause
  getVariables : List Int
deriving DecidableEq

/-- Modelled from the spec: `Formula::addClause` appends the clause; the variable set does
not grow when learned clauses are added. -/
def Formula.addClause (formula : Formula) (clause : Clause) : Formula :=
  { formula with clauses := formula.clauses ++ [clause] }

/-- Assignment record of `assignment.h`, built as
`Assignment(value, antecedent, decision_level)`. -/
structure Assignment where
  getValue : Bool
  getAntecedent : Clause
  getDecisionLevel : Int
deriving DecidableEq

/-- The class `Assignments`: the map from variables to records, the decision level and the
trail (most recent entry first). -/
structure Assignments where
  store : AList (fun _ : Int => Assignment)
  decision_level : Int
  trail : List Int

/-- Outcome of a run: a result, an exception of `unordered_map::at`, or not enough fuel. -/
inductive Run (α : Type) where
  | done (result : α)
  | thrown
  | outOfFuel
deriving DecidableEq

inductive ClauseStatus where
  | SATISFIED
  | UNIT
  | UNSATISFIED
  | UNRESOLVED
deriving DecidableEq

inductive UnitPropagationStatus where
  | UNIT_CONFLICT
  | UNIT_UNRESOLVED
deriving DecidableEq

/-! ## `assignments.h` -/

namespace Assignments

/-- The constructor `Assignments()`: empty map, level 0, empty trail. -/
def empty : Assignments := ⟨∅, 0, []⟩

/-- The expression `find(var)`: `none` stands for `end()`. -/
def find (assignments : Assignments) (var : Int) : Option Assignment :=
  assignments.store.lookup var

/-- The inherited `size()` of the map. -/
def size (assignments : Assignments) : Nat := assignments.store.keys.length

def value (assignments : Assignments) (literal : Literal) : Bool :=
  match assignments.find literal.getVariable with
  | none => false
  | some record => if literal.isNegated then !record.getValue else record.getValue

def assign (assignments : Assignments) (var : Int) (value : Bool) (antecedent : Clause) :
    Assignments :=
  { store := assignments.store.insert var
      ⟨value, antecedent, assignments.decision_level⟩
    decision_level := assignments.decision_level
    trail := var :: assignments.trail }

def unassign (assignments : Assignments) (var : Int) : Assignments :=
  { assignments with store := assignments.store.erase var }

def increaseDecisionLevel (assignments : Assignments) : Assignments :=
  { assignments with decision_level := assignments.decision_level + 1 }

def getDecisionLevel (assignments : Assignments) : Int := assignments.decision_level

def setDecisionLevel (assignments : Assignments) (level : Int) : Assignments :=
  { assignments with decision_level := level }

def getTrail (assignments : Assignments) : List Int := assignments.trail

def popTrail (assignments : Assignments) : Assignments :=
  { assignments with trail := assignments.trail.tail }

def satisfy (assignments : Assignments) (formula : Formula) : Bool :=
  formula.clauses.all fun clause =>
    clause.any fun literal =>
      (assignments.find literal.getVariable).isSome && assignments.value literal

end Assignments

/-! ## `solver.cpp` -/

/-- The `for` loop of `checkClauseStatus`: `Sum.inl` is the early `return SATISFIED`,
`Sum.inr` carries `unassigned_count` and `false_count` at the end of the loop; both come
with the current `unit_literal`. -/
def checkLoop (assignments : Assignments) :
    List Literal → Int → Int → Literal → Literal ⊕ (Int × Int × Literal)
  | [], unassigned_count, false_count, unit_literal =>
      Sum.inr (unassigned_count, false_count, unit_literal)
  | literal :: rest, unassigned_count, false_count, unit_literal =>
      if assignments.find literal.getVariable = none then
        checkLoop assignments rest (unassigned_count + 1) false_count literal
      else if assignments.value literal then
        Sum.inl unit_literal
      else
        checkLoop assignments rest unassigned_count (false_count + 1) unit_literal

/-- The function `checkClauseStatus`; the reference parameter `unit_literal` is an argument
and its final value the second component of the result. -/
def checkClauseStatus (clause : Clause) (assignments : Assignments) (unit_literal : Literal) :
    ClauseStatus × Literal :=
  match checkLoop assignments clause 0 0 unit_literal with
  | Sum.inl unit_literal => (ClauseStatus.SATISFIED, unit_literal)
  | Sum.inr (unassigned_count, false_count, unit_literal) =>
      if false_count = (clause.length : Int) then
        (ClauseStatus.UNSATISFIED, unit_literal)
      else if unassigned_count = 1 ∧ false_count = (clause.length : Int) - 1 then
        (ClauseStatus.UNIT, unit_literal)
      else
        (ClauseStatus.UNRESOLVED, unit_literal)

/-- Outcome of one `for (Clause& clause : formula)` pass of `unitPropagate`. -/
inductive Pass where
  | conflict (assignments : Assignments) (clause : Clause)
  | scanned (assignments : Assignments) (changed : Bool)

/-- One pass over the clauses in `unitPropagate`. The literal `dflt` is the value of the
default-constructed `Literal unit_literal;` (the constructor is in `literal.h`, which is not
part of the sources, so it is a parameter). -/
def propagatePass (dflt : Literal) : Assignments → List Clause → Bool → Pass
  | assignments, [], changed => Pass.scanned assignments changed
  | assignments, clause :: rest, changed =>
      match checkClauseStatus clause assignments dflt with
      | (ClauseStatus.UNIT, unit_literal) =>
          if assignments.find unit_literal.getVariable = none then
            propagatePass dflt
              (assignments.assign unit_literal.getVariable (!unit_literal.isNegated) clause)
              rest true
          else
            propagatePass dflt assignments rest changed
      | (ClauseStatus.UNSATISFIED, _) => Pass.conflict assignments clause
      | _ => propagatePass dflt assignments rest changed

/-- The function `unitPropagate`: the `while (changed)` loop, one pass per unit of fuel. The
result carries the store the call leaves behind. -/
def unitPropagate (dflt : Literal) :
    Nat → Assignments → Formula → Run (UnitPropagationStatus × Clause × Assignments)
  | 0, _, _ => Run.outOfFuel
  | fuel + 1, assignments, formula =>
      match propagatePass dflt assignments formula.clauses false with
      | Pass.conflict assignments clause =>
          Run.done (UnitPropagationStatus.UNIT_CONFLICT, clause, assignments)
      | Pass.scanned assignments changed =>
          if changed then unitPropagate dflt fuel assignments formula
          else Run.done (UnitPropagationStatus.UNIT_UNRESOLVED, [], assignments)

def addClause (formula : Formula) (clause : Clause) : Formula :=
  formula.addClause clause

def allAssigned (formula : Formula) (assignments : Assignments) : Bool :=
  formula.getVariables.length == assignments.size

def pickVariable (formula : Formula) (assignments : Assignments) : Int × Bool :=
  match formula.getVariables.find? (fun var => assignments.find var = none) with
  | some var => (var, true)
  | none => (-1, false)

/-- The `while (!trail.empty())` loop of `backtrack` on the trail and the map. -/
def backtrackLoop (level : Int) :
    List Int → AList (fun _ : Int => Assignment) →
      Run (List Int × AList (fun _ : Int => Assignment))
  | [], store => Run.done ([], store)
  | var_to_unassign :: rest, store =>
      match store.lookup var_to_unassign with
      | none => Run.thrown
      | some record =>
          if record.getDecisionLevel ≤ level then Run.done (var_to_unassign :: rest, store)
          else backtrackLoop level rest (store.erase var_to_unassign)

def backtrack (assignments : Assignments) (level : Int) : Run Assignments :=
  match backtrackLoop level assignments.trail assignments.store with
  | Run.done (trail, store) => Run.done ⟨store, level, trail⟩
  | Run.thrown => Run.thrown
  | Run.outOfFuel => Run.outOfFuel

/-- Modelled from the spec: `operator<` of `literal.h` is not part of the sources; literals
are totally ordered, here by variable and then polarity. -/
def Literal.lt (a b : Literal) : Bool :=
  decide (a.getVariable < b.getVariable) ||
    (decide (a.getVariable = b.getVariable) && (!a.isNegated && b.isNegated))

/-- The call `std::set<Literal>::insert`: the set is the sorted list of its elements. -/
def setInsert (lit : Literal) : List Literal → List Literal
  | [] => [lit]
  | x :: rest =>
      if Literal.lt lit x then lit :: x :: rest
      else if Literal.lt x lit then x :: setInsert lit rest
      else x :: rest

def resolve (clause1 clause2 : Clause) (var : Int) : Clause :=
  let result_literals : List Literal :=
    clause1.foldl (fun acc lit => if lit.getVariable ≠ var then setInsert lit acc else acc) []
  clause2.foldl (fun acc lit => if lit.getVariable ≠ var then setInsert lit acc else acc)
    result_literals

/-- The counting loop of `conflict_analysis`: the number of literals of the clause whose
variable is assigned at the current level; `at` throws on an unassigned variable. -/
def countAtCurrentLevel (assignments : Assignments) : List Literal → Int → Run Int
  | [], literals_at_current_level => Run.done literals_at_current_level
  | lit :: rest, literals_at_current_level =>
      match assignments.find lit.getVariable with
      | none => Run.thrown
      | some record =>
          if record.getDecisionLevel = assignments.getDecisionLevel then
            countAtCurrentLevel assignments rest (literals_at_current_level + 1)
          else countAtCurrentLevel assignments rest literals_at_current_level

/-- The set `seen_variables` of a clause. -/
def seenVariables (clause : Clause) : List Int := clause.map Literal.getVariable

/-- The reverse walk along the trail in `conflict_analysis`, starting from
`var_to_resolve = -1`. -/
def findVarToResolve (assignments : Assignments) (seen_variables : List Int) :
    List Int → Run Int
  | [] => Run.done (-1)
  | var :: rest =>
      if var ∈ seen_variables then
        match assignments.find var with
        | none => Run.thrown
        | some record =>
            if record.getAntecedent.length > 0 then Run.done var
            else findVarToResolve assignments seen_variables rest
      else findVarToResolve assignments seen_variables rest

/-- The `while (true)` loop of `conflict_analysis`, one resolution per unit of fuel. -/
def analysisLoop : Nat → Clause → Assignments → Run Clause
  | 0, _, _ => Run.outOfFuel
  | fuel + 1, current_clause, assignments =>
      match countAtCurrentLevel assignments current_clause 0 with
      | Run.thrown => Run.thrown
      | Run.outOfFuel => Run.outOfFuel
      | Run.done literals_at_current_level =>
          if literals_at_current_level ≤ 1 then Run.done current_clause
          else
            match findVarToResolve assignments (seenVariables current_clause)
                assignments.getTrail with
            | Run.thrown => Run.thrown
            | Run.outOfFuel => Run.outOfFuel
            | Run.done var_to_resolve =>
                match assignments.find var_to_resolve with
                | none => Run.thrown
                | some record =>
                    analysisLoop fuel
                      (resolve current_clause record.getAntecedent var_to_resolve) assignments

/-- The set `levels` of `conflict_analysis`, as the list of its elements. -/
def collectLevels (assignments : Assignments) (clause : Clause) : List Int :=
  clause.filterMap fun lit =>
    match assignments.find lit.getVariable with
    | none => none
    | some record =>
        if record.getDecisionLevel < assignments.getDecisionLevel then
          some record.getDecisionLevel
        else none

/-- The value `levels.empty() ? 0 : *levels.rbegin()`: the largest element of the set. -/
def backtrackLevel (levels : List Int) : Int :=
  match levels with
  | [] => 0
  | level :: rest => rest.foldl max level

def conflict_analysis (fuel : Nat) (conflicting_clause : Clause) (assignments : Assignments) :
    Run (Int × Clause) :=
  if assignments.getDecisionLevel = 0 then Run.done (-1, [])
  else
    match analysisLoop fuel conflicting_clause assignments with
    | Run.thrown => Run.thrown
    | Run.outOfFuel => Run.outOfFuel
    | Run.done current_clause =>
        Run.done (backtrackLevel (collectLevels assignments current_clause), current_clause)

/-- The exits of `CDCLSolve`. -/
inductive Exit where
  | unsatInitial
  | unsatConflict
  | sat
deriving DecidableEq

/-- The inner `while (true)` loop of `CDCLSolve`: `none` is the `return Assignments()` of a
conflict at level 0, `some` the store and formula at the `break`. -/
def conflictLoop (dflt : Literal) :
    Nat → Assignments → Formula → Run (Option (Assignments × Formula))
  | 0, _, _ => Run.outOfFuel
  | fuel + 1, assignments, formula =>
      match unitPropagate dflt (fuel + 1) assignments formula with
      | Run.thrown => Run.thrown
      | Run.outOfFuel => Run.outOfFuel
      | Run.done (status, conflicting_clause, assignments) =>
          if status ≠ UnitPropagationStatus.UNIT_CONFLICT then
            Run.done (some (assignments, formula))
          else if assignments.getDecisionLevel = 0 then Run.done none
          else
            match conflict_analysis (fuel + 1) conflicting_clause assignments with
            | Run.thrown => Run.thrown
            | Run.outOfFuel => Run.outOfFuel
            | Run.done (backtrack_level, learned_clause) =>
                match backtrack assignments backtrack_level with
                | Run.thrown => Run.thrown
                | Run.outOfFuel => Run.outOfFuel
                | Run.done assignments =>
                    let formula := addClause formula learned_clause
                    let unit_literal := (checkClauseStatus learned_clause assignments dflt).2
                    conflictLoop dflt fuel
                      (assignments.assign unit_literal.getVariable (!unit_literal.isNegated)
                        learned_clause)
                      formula

/-- The outer `while (!allAssigned(formula, assignments))` loop of `CDCLSolve`. -/
def decideLoop (dflt : Literal) :
    Nat → Assignments → Formula → Run (Exit × Assignments)
  | 0, _, _ => Run.outOfFuel
  | fuel + 1, assignments, formula =>
      if allAssigned formula assignments then Run.done (Exit.sat, assignments)
      else
        let assignments := assignments.increaseDecisionLevel
        let decision := pickVariable formula assignments
        let assignments := assignments.assign decision.1 decision.2 []
        match conflictLoop dflt fuel assignments formula with
        | Run.thrown => Run.thrown
        | Run.outOfFuel => Run.outOfFuel
        | Run.done none => Run.done (Exit.unsatConflict, Assignments.empty)
        | Run.done (some (assignments, formula)) => decideLoop dflt fuel assignments formula

/-- The function `CDCLSolve` with the exit it leaves through. -/
def CDCLRun (dflt : Literal) (fuel : Nat) (formula : Formula) : Run (Exit × Assignments) :=
  match unitPropagate dflt fuel Assignments.empty formula with
  | Run.thrown => Run.thrown
  | Run.outOfFuel => Run.outOfFuel
  | Run.done (status, _, assignments) =>
      if status = UnitPropagationStatus.UNIT_CONFLICT then
        Run.done (Exit.unsatInitial, Assignments.empty)
      else decideLoop dflt fuel assignments formula

/-- The function `CDCLSolve`: the store it returns. -/
def CDCLSolve (dflt : Literal) (fuel : Nat) (formula : Formula) : Run Assignments :=
  match CDCLRun dflt fuel formula with
  | Run.thrown => Run.thrown
  | Run.outOfFuel => Run.outOfFuel
  | Run.done (_, assignments) => Run.done assignments

/-! ## Notions used in the statements -/

/-- Number of literals of a clause whose variable is unassigned. -/
def unassignedCount (a : Assignments) (c : Clause) : Nat :=
  (c.filter fun l => decide (a.find l.getVariable = none)).length

/-- Number of literals of a clause whose variable is assigned. -/
def assignedCount (a : Assignments) (c : Clause) : Nat :=
  (c.filter fun l => !decide (a.find l.getVariable = none)).length

/-- The last literal of the clause with an unassigned variable, `u` if there is none. -/
def lastUnassigned (a : Assignments) : Clause → Literal → Literal
  | [], u => u
  | l :: c, u =>
      if a.find l.getVariable = none then lastUnassigned a c l else lastUnassigned a c u

/-- Truth value of a literal under a total Boolean assignment of the variables. -/
def Literal.eval (M : Int → Bool) (l : Literal) : Bool :=
  if l.isNegated then !M l.getVariable else M l.getVariable

/-- A total assignment satisfies a clause: some literal of the clause is true. -/
def Clause.holds (M : Int → Bool) (c : Clause) : Prop := ∃ l ∈ c, l.eval M = true

/-- A total assignment satisfies every clause of the list. -/
def models (M : Int → Bool) (clauses : List Clause) : Prop := ∀ c ∈ clauses, Clause.holds M c

/-- Some total Boolean assignment satisfies every clause of the formula. -/
def Formula.satisfiable (f : Formula) : Prop := ∃ M : Int → Bool, models M f.clauses

/-- Modelled from the spec: the data model of a formula (`formula.h` is not part of the
sources). The variable set lists each variable once, it is the set of the variables that
occur in the clauses, and variables are positive integers. -/
def Formula.wellFormed (f : Formula) : Prop :=
  f.getVariables.Nodup ∧
    (∀ v ∈ f.getVariables, ∃ c ∈ f.clauses, ∃ l ∈ c, l.getVariable = v) ∧
    (∀ c ∈ f.clauses, ∀ l ∈ c, l.getVariable ∈ f.getVariables) ∧
    ∀ v ∈ f.getVariables, 0 < v

/-- No variable appears twice within one clause. -/
def Clause.noRepeat (c : Clause) : Prop := (c.map Literal.getVariable).Nodup

/-- Every literal of the clause is assigned and false under the store. -/
def falsified (a : Assignments) (c : Clause) : Prop :=
  ∀ l ∈ c, a.find l.getVariable ≠ none ∧ a.value l = false

/-- Decision level of the record of a variable, if it is assigned. -/
def Assignments.levelOf (a : Assignments) (v : Int) : Option Int :=
  (a.find v).map Assignment.getDecisionLevel

/-- Number of literals of the clause whose variable is assigned at level `d`. -/
def countAtLevel (a : Assignments) (d : Int) (c : Clause) : Nat :=
  (c.filter fun l => decide (a.levelOf l.getVariable = some d)).length

/-- A property of every trail entry `v` together with the list `t` of the entries assigned
before it (the trail has its most recent entry first). -/
def onTrail (P : Int → List Int → Prop) : List Int → Prop
  | [] => True
  | v :: t => P v t ∧ onTrail P t

/-- Invariant T1: the trail lists exactly the keys of the store, each once. -/
def T1 (a : Assignments) : Prop := a.trail.Perm a.store.keys

/-- The entry `v` has a level at least the level of every entry assigned before it. -/
def T2At (a : Assignments) (v : Int) (t : List Int) : Prop :=
  ∀ u ∈ t, ∀ lu ∈ a.levelOf u, ∀ lv ∈ a.levelOf v, lu ≤ lv

/-- Invariant T2: decision levels along the trail are non-decreasing. -/
def T2 (a : Assignments) : Prop := onTrail (T2At a) a.trail

/-- An entry `v` of a level above 0 has an empty antecedent iff no entry assigned before it
has its level. -/
def T3At (a : Assignments) (v : Int) (t : List Int) : Prop :=
  ∀ r ∈ a.find v, 0 < r.getDecisionLevel →
    (r.getAntecedent = [] ↔ ∀ u ∈ t, a.levelOf u ≠ some r.getDecisionLevel)

/-- Invariant T3: at each level above 0 the first trail entry has an empty antecedent and
every later entry of that level a non-empty one. -/
def T3 (a : Assignments) : Prop := onTrail (T3At a) a.trail

/-- Every literal of the antecedent of `v` over another variable was assigned before `v` (it
is already on the trail), at a level at most the level of `v`, and is false. -/
def T4At (a : Assignments) (v : Int) (t : List Int) : Prop :=
  ∀ r ∈ a.find v, ∀ l ∈ r.getAntecedent, l.getVariable ≠ v →
    l.getVariable ∈ t ∧ a.find l.getVariable ≠ none ∧ a.value l = false ∧
      ∀ ll ∈ a.levelOf l.getVariable, ll ≤ r.getDecisionLevel

/-- Invariant T4: for a variable with antecedent `C`, every other literal of `C` is already
assigned, at a level at most the level of the variable, and is false under the store. -/
def T4 (a : Assignments) : Prop := onTrail (T4At a) a.trail

/-- Every record of the store has a decision level between 0 and the current level. -/
def levelsBounded (a : Assignments) : Prop :=
  ∀ e ∈ a.store.entries,
    0 ≤ e.2.getDecisionLevel ∧ e.2.getDecisionLevel ≤ a.decision_level

instance onTrail.decidable (P : Int → List Int → Prop) [∀ v t, Decidable (P v t)] :
    ∀ t, Decidable (onTrail P t)
  | [] => isTrue trivial
  | v :: t =>
      match (inferInstance : Decidable (P v t)), onTrail.decidable P t with
      | isTrue h1, isTrue h2 => isTrue ⟨h1, h2⟩
      | isFalse h1, _ => isFalse fun h => h1 h.1
      | _, isFalse h2 => isFalse fun h => h2 h.2

instance (a : Assignments) : Decidable (T1 a) := by unfold T1; infer_instance

instance (a : Assignments) (v : Int) (t : List Int) : Decidable (T2At a v t) := by
  unfold T2At; infer_instance

instance (a : Assignments) (v : Int) (t : List Int) : Decidable (T3At a v t) := by
  unfold T3At; infer_instance

instance (a : Assignments) (v : Int) (t : List Int) : Decidable (T4At a v t) := by
  unfold T4At; infer_instance

instance (a : Assignments) : Decidable (T2 a) := by unfold T2; infer_instance

instance (a : Assignments) : Decidable (T3 a) := by unfold T3; infer_instance

instance (a : Assignments) : Decidable (T4 a) := by unfold T4; infer_instance

instance (a : Assignments) (c : Clause) : Decidable (falsified a c) := by
  unfold falsified; infer_instance

instance (a : Assignments) : Decidable (levelsBounded a) := by
  unfold levelsBounded; infer_instance

instance (c : Clause) : Decidable (Clause.noRepeat c) := by
  unfold Clause.noRepeat; infer_instance

instance (f : Formula) : Decidable (Formula.wellFormed f) := by
  unfold Formula.wellFormed; infer_instance

/-- Number of literals of the clause that are open at level `k`: unassigned, or assigned
at a level above `k`. -/
def openCount (a : Assignments) (k : Int) (c : Clause) : Nat :=
  (c.filter fun (l : Literal) => decide (∀ x ∈ a.levelOf l.getVariable, k < x)).length

/-- Some literal of the clause is true and was assigned at a level at most `k`. -/
def prefixSat (a : Assignments) (k : Int) (c : Clause) : Prop :=
  ∃ l ∈ c, a.value l = true ∧ ∃ x ∈ a.levelOf l.getVariable, x ≤ k

/-- The level of the entry `v` is at most its position on the trail. -/
def positionAt (a : Assignments) (v : Int) (t : List Int) : Prop :=
  ∀ x ∈ a.levelOf v, x ≤ (t.length : Int) + 1

/-- The state invariant of `CDCLSolve` between its steps, for the input formula `F0`, the
current formula `f` (input clauses followed by the learned clauses) and the store `a`. -/
structure Inv (F0 f : Formula) (a : Assignments) : Prop where
  vars : f.getVariables = F0.getVariables
  learned : ∃ learned, f.clauses = F0.clauses ++ learned
  entailed : ∀ c ∈ f.clauses, ∀ M, models M F0.clauses → Clause.holds M c
  clauseVars : ∀ c ∈ f.clauses, ∀ l ∈ c, l.getVariable ∈ F0.getVariables
  t1 : T1 a
  keys : ∀ v ∈ a.trail, v ∈ F0.getVariables
  bounded : levelsBounded a
  level : 0 ≤ a.decision_level
  t2 : T2 a
  t3 : T3 a
  t4 : T4 a
  /-- a non-empty antecedent is a clause of the formula whose literals over the variable
  are true -/
  ante : ∀ v, ∀ r ∈ a.find v, r.getAntecedent = [] ∨
    (r.getAntecedent ∈ f.clauses ∧ ∀ l ∈ r.getAntecedent, l.getVariable = v → a.value l = true)
  /-- decisions are made above level 0 -/
  decisions : ∀ v, ∀ r ∈ a.find v, r.getAntecedent = [] → 0 < r.getDecisionLevel
  /-- an implied variable above level 0 has another literal of its level in its antecedent -/
  sameLevel : ∀ v, ∀ r ∈ a.find v, 0 < r.getDecisionLevel → r.getAntecedent ≠ [] →
    ∃ l ∈ r.getAntecedent, l.getVariable ≠ v ∧
      a.levelOf l.getVariable = some r.getDecisionLevel
  /-- below the current level propagation was complete: no clause is falsified or unit
  under the entries of the levels up to `k` -/
  closed : ∀ k, 0 ≤ k → k < a.decision_level → ∀ c ∈ f.clauses,
    prefixSat a k c ∨ 2 ≤ openCount a k c
  /-- the level of an entry is at most its position on the trail -/
  position : onTrail (positionAt a) a.trail
  levelLe : a.decision_level ≤ (a.trail.length : Int)

/-- Every clause of the formula is SATISFIED or UNRESOLVED under the store: the state after
`unitPropagate` returns UNIT_UNRESOLVED. -/
def propagated (f : Formula) (a : Assignments) : Prop :=
  ∀ c ∈ f.clauses, ∀ u : Literal,
    (checkClauseStatus c a u).1 = ClauseStatus.SATISFIED ∨
      (checkClauseStatus c a u).1 = ClauseStatus.UNRESOLVED

/-- Weight of a trail entry of level `x` among `n` variables. -/
def levelWeight (n : Nat) (x : Int) : Nat := (n + 1) ^ (n - x.toNat)

/-- Sum of the weights of the entries of a list of assigned variables. -/
def sumWeights (n : Nat) (a : Assignments) (t : List Int) : Nat :=
  (t.map fun v => ((a.levelOf v).map (levelWeight n)).getD 0).sum

/-- The termination measure of `CDCLSolve`: the weights of the trail entries; it grows with
every decision, propagation and backjump, and is bounded. -/
def trailMeasure (n : Nat) (a : Assignments) : Nat := sumWeights n a a.trail

/-- No clause of the formula has a repeated literal. -/
def noRepeatedLiteral (f : Formula) : Prop := ∀ c ∈ f.clauses, c.Nodup

/-- The variant of `checkClauseStatus` whose UNIT test is only `unassigned_count == 1`: the
conjunct `false_count == clause.length() - 1` is dropped. -/
def checkClauseStatusUnitOnly (clause : Clause) (assignments : Assignments)
    (unit_literal : Literal) : ClauseStatus × Literal :=
  match checkLoop assignments clause 0 0 unit_literal with
  | Sum.inl unit_literal => (ClauseStatus.SATISFIED, unit_literal)
  | Sum.inr (unassigned_count, false_count, unit_literal) =>
      if false_count = (clause.length : Int) then
        (ClauseStatus.UNSATISFIED, unit_literal)
      else if unassigned_count = 1 then
        (ClauseStatus.UNIT, unit_literal)
      else
        (ClauseStatus.UNRESOLVED, unit_literal)

/-- The values of `current_clause` in the loop of `conflict_analysis` on the conflicting
clause `K`: `K` itself, and the resolvent that one more iteration computes from such a
value when the loop does not exit. -/
inductive WorkingClause (a : Assignments) (K : Clause) : Clause → Prop where
  | start : WorkingClause a K K
  | step (W : Clause) (k : Int) (v : Int) (r : Assignment) :
      WorkingClause a K W → countAtCurrentLevel a W 0 = Run.done k → ¬ k ≤ 1 →
      findVarToResolve a (seenVariables W) a.getTrail = Run.done v → a.find v = some r →
      WorkingClause a K (resolve W r.getAntecedent v)

/-- The program points of `CDCLSolve`, with the formula and the store there: before a call
of `unitPropagate`, at the test of the outer loop (after `unitPropagate` returned
UNIT_UNRESOLVED), and after `unitPropagate` returned a conflict. -/
inductive Point where
  | propagate (formula : Formula) (assignments : Assignments)
  | loop (formula : Formula) (assignments : Assignments)
  | conflict (formula : Formula) (assignments : Assignments) (conflicting_clause : Clause)

def Point.formula : Point → Formula
  | Point.propagate formula _ => formula
  | Point.loop formula _ => formula
  | Point.conflict formula _ _ => formula

def Point.assignments : Point → Assignments
  | Point.propagate _ assignments => assignments
  | Point.loop _ assignments => assignments
  | Point.conflict _ assignments _ => assignments

/-- The program points a run of `CDCLSolve` on the formula `F0` passes through, step by
step: the initial call of `unitPropagate` on the empty store, the two outcomes of a call of
`unitPropagate`, the decide step, and the conflict step (analysis, backtrack, append the
learned clause, assign the literal `checkClauseStatus` reports). -/
inductive Reach (dflt : Literal) (F0 : Formula) : Point → Prop where
  | init : Reach dflt F0 (Point.propagate F0 Assignments.empty)
  | unresolved (f : Formula) (a : Assignments) (fuel : Nat) (K : Clause) (b : Assignments) :
      Reach dflt F0 (Point.propagate f a) →
      unitPropagate dflt fuel a f = Run.done (UnitPropagationStatus.UNIT_UNRESOLVED, K, b) →
      Reach dflt F0 (Point.loop f b)
  | conflict (f : Formula) (a : Assignments) (fuel : Nat) (K : Clause) (b : Assignments) :
      Reach dflt F0 (Point.propagate f a) →
      unitPropagate dflt fuel a f = Run.done (UnitPropagationStatus.UNIT_CONFLICT, K, b) →
      Reach dflt F0 (Point.conflict f b K)
  | decide (f : Formula) (a : Assignments) :
      Reach dflt F0 (Point.loop f a) → allAssigned f a = false →
      Reach dflt F0 (Point.propagate f
        (a.increaseDecisionLevel.assign (pickVariable f a.increaseDecisionLevel).1
          (pickVariable f a.increaseDecisionLevel).2 []))
  | learn (f : Formula) (a : Assignments) (K : Clause) (fuel : Nat) (L : Int) (W : Clause)
      (b : Assignments) :
      Reach dflt F0 (Point.conflict f a K) → a.getDecisionLevel ≠ 0 →
      conflict_analysis fuel K a = Run.done (L, W) → backtrack a L = Run.done b →
      Reach dflt F0 (Point.propagate (addClause f W)
        (b.assign (checkClauseStatus W b dflt).2.getVariable
          (!(checkClauseStatus W b dflt).2.isNegated) W))

/-! ## Concrete instances -/

namespace Example

/-- The literal `x_v`. -/
def pos (v : Int) : Literal := ⟨v, false⟩

/-- The literal `¬x_v`. -/
def neg (v : Int) : Literal := ⟨v, true⟩

/-- The formula {(x1), (¬x1 ∨ x2), (¬x2 ∨ x3)}. -/
def chain : Formula := ⟨[[pos 1], [neg 1, pos 2], [neg 2, pos 3]], [1, 2, 3]⟩

/-- The store unit propagation reaches on `chain`. -/
def chainStore : Assignments :=
  ((Assignments.empty.assign 1 true [pos 1]).assign 2 true [neg 1, pos 2]).assign 3 true
    [neg 2, pos 3]

/-- The formula {(x1), (¬x1)}. -/
def contradiction : Formula := ⟨[[pos 1], [neg 1]], [1]⟩

/-- The store after propagating `(x1)` at level 0. -/
def unitStore : Assignments := Assignments.empty.assign 1 true [pos 1]

/-- A store at level 1: the decision x1 and the implied x4 and x5, with antecedents
(¬x1 ∨ x4) and (¬x1 ∨ ¬x4 ∨ x5). -/
def conflictStore : Assignments :=
  (((Assignments.empty.increaseDecisionLevel).assign 1 true []).assign 4 true
    [neg 1, pos 4]).assign 5 true [neg 1, neg 4, pos 5]

/-- The clause (¬x1 ∨ ¬x4 ∨ ¬x5), falsified under `conflictStore`. -/
def conflictClause : Clause := [neg 1, neg 4, neg 5]

/-- A store at level 1 that holds only the decision x1. -/
def decisionStore : Assignments := (Assignments.empty.increaseDecisionLevel).assign 1 true []

/-- The clause (¬x1 ∨ ¬x1), with a repeated literal. -/
def repeatedClause : Clause := [neg 1, neg 1]

/-- A store whose current level is 1 and whose only record was made at level 5. -/
def highLevelStore : Assignments :=
  ((Assignments.empty.setDecisionLevel 5).assign 1 true []).setDecisionLevel 1

/-- The formula {(x1 ∨ x2), (x1 ∨ ¬x2 ∨ x3), (¬x1 ∨ x4), (¬x1 ∨ ¬x4 ∨ x5), (¬x1 ∨ ¬x4 ∨ ¬x5),
(¬x3 ∨ ¬x4 ∨ x1)}: satisfiable, and solved with one learned clause. -/
def learning : Formula :=
  ⟨[[pos 1, pos 2], [pos 1, neg 2, pos 3], [neg 1, pos 4], [neg 1, neg 4, pos 5],
    [neg 1, neg 4, neg 5], [neg 3, neg 4, pos 1]], [1, 2, 3, 4, 5]⟩

/-- The store `CDCLSolve` returns on `learning`. -/
def learningStore : Assignments :=
  (((((Assignments.empty.assign 1 false [neg 1]).assign 2 true [pos 1, pos 2]).assign 3 true
    [pos 1, neg 2, pos 3]).assign 4 false [neg 3, neg 4, pos 1]).increaseDecisionLevel).assign
      5 true []

/-- The formula {(¬x1 ∨ ¬x2), (¬x1 ∨ x2), (x1 ∨ ¬x2), (x1 ∨ x2)}: unsatisfiable. -/
def square : Formula :=
  ⟨[[neg 1, neg 2], [neg 1, pos 2], [pos 1, neg 2], [pos 1, pos 2]], [1, 2]⟩

/-- The formula with 0 clauses and 0 variables. -/
def noClauses : Formula := ⟨[], []⟩

/-- A store at level 1: x1 implied at level 0 by the clause (x1), and the decision x2. -/
def twoLevelStore : Assignments :=
  ((Assignments.empty.assign 1 true [pos 1]).increaseDecisionLevel).assign 2 true []

/-- A store whose trail lists x1 twice: x1 was assigned a second time. -/
def twiceStore : Assignments :=
  (Assignments.empty.assign 1 true [pos 1]).assign 1 true [pos 1]

end Example

/-! # Theorems -/

/-! ## Clause status -/

theorem value_eq_true_find {a : Assignments} {l : Literal} (h : a.value l = true) :
    a.find l.getVariable ≠ none := by
  unfold Assignments.value at h
  intro hn
  rw [hn] at h
  simp at h

theorem counts_add (a : Assignments) (c : Clause) :
    unassignedCount a c + assignedCount a c = c.length := by
  induction c with
  | nil => rfl
  | cons l c ih =>
    by_cases h : a.find l.getVariable = none
    · simp only [unassignedCount, assignedCount, List.filter, h, decide_True, Bool.not_true,
        List.length_cons] at ih ⊢
      omega
    · simp only [unassignedCount, assignedCount, List.filter, h, decide_False, Bool.not_false,
        List.length_cons] at ih ⊢
      omega

theorem checkLoop_true (a : Assignments) :
    ∀ (c : Clause) (u f : Int) (ul : Literal), (∃ l ∈ c, a.value l = true) →
      ∃ ul1, checkLoop a c u f ul = Sum.inl ul1 := by
  intro c
  induction c with
  | nil => intro u f ul h; simp at h
  | cons l c ih =>
    intro u f ul h
    unfold checkLoop
    by_cases hn : a.find l.getVariable = none
    · simp only [hn, if_true]
      apply ih
      obtain ⟨x, hx, hv⟩ := h
      rcases List.mem_cons.1 hx with rfl | hx
      · exact absurd hn (value_eq_true_find hv)
      · exact ⟨x, hx, hv⟩
    · simp only [hn, if_false]
      by_cases hv : a.value l = true
      · simp [hv]
      · simp only [hv, if_false]
        apply ih
        obtain ⟨x, hx, hxv⟩ := h
        rcases List.mem_cons.1 hx with rfl | hx
        · exact absurd hxv hv
        · exact ⟨x, hx, hxv⟩

theorem unassignedCount_cons (a : Assignments) (l : Literal) (c : Clause) :
    unassignedCount a (l :: c) =
      if a.find l.getVariable = none then unassignedCount a c + 1 else unassignedCount a c := by
  by_cases h : a.find l.getVariable = none <;> simp [unassignedCount, List.filter, h]

theorem assignedCount_cons (a : Assignments) (l : Literal) (c : Clause) :
    assignedCount a (l :: c) =
      if a.find l.getVariable = none then assignedCount a c else assignedCount a c + 1 := by
  by_cases h : a.find l.getVariable = none <;> simp [assignedCount, List.filter, h]

theorem lastUnassigned_cons (a : Assignments) (l : Literal) (c : Clause) (u : Literal) :
    lastUnassigned a (l :: c) u =
      if a.find l.getVariable = none then lastUnassigned a c l else lastUnassigned a c u := rfl

theorem checkLoop_false (a : Assignments) :
    ∀ (c : Clause) (u f : Int) (ul : Literal), (∀ l ∈ c, a.value l = false) →
      checkLoop a c u f ul =
        Sum.inr (u + unassignedCount a c, f + assignedCount a c, lastUnassigned a c ul) := by
  intro c
  induction c with
  | nil => intro u f ul _; simp [checkLoop, unassignedCount, assignedCount, lastUnassigned]
  | cons l c ih =>
    intro u f ul h
    have hl : a.value l = false := h l (List.mem_cons_self _ _)
    have hc : ∀ x ∈ c, a.value x = false := fun x hx => h x (List.mem_cons_of_mem _ hx)
    unfold checkLoop
    rw [unassignedCount_cons, assignedCount_cons, lastUnassigned_cons]
    by_cases hn : a.find l.getVariable = none
    · simp only [hn, if_true]
      rw [ih _ _ _ hc]
      push_cast
      rw [add_assoc, add_comm (1 : Int)]
    · simp only [hn, if_false, hl]
      rw [ih _ _ _ hc]
      push_cast
      rw [add_assoc, add_comm (1 : Int)]

theorem not_value_true_or (a : Assignments) (c : Clause) :
    (∃ l ∈ c, a.value l = true) ∨ ∀ l ∈ c, a.value l = false := by
  by_cases h : ∃ l ∈ c, a.value l = true
  · exact Or.inl h
  · refine Or.inr fun l hl => ?_
    cases hv : a.value l with
    | false => rfl
    | true => exact absurd ⟨l, hl, hv⟩ h

theorem checkClauseStatus_of_true {a : Assignments} {c : Clause} (u : Literal)
    (h : ∃ l ∈ c, a.value l = true) :
    (checkClauseStatus c a u).1 = ClauseStatus.SATISFIED := by
  obtain ⟨ul, hul⟩ := checkLoop_true a c 0 0 u h
  simp [checkClauseStatus, hul]

theorem checkClauseStatus_of_false {a : Assignments} {c : Clause} (u : Literal)
    (h : ∀ l ∈ c, a.value l = false) :
    checkClauseStatus c a u =
      (if unassignedCount a c = 0 then ClauseStatus.UNSATISFIED
        else if unassignedCount a c = 1 then ClauseStatus.UNIT
        else ClauseStatus.UNRESOLVED, lastUnassigned a c u) := by
  have hadd := counts_add a c
  simp only [checkClauseStatus, checkLoop_false a c 0 0 u h, zero_add]
  by_cases h0 : unassignedCount a c = 0
  · have : (assignedCount a c : Int) = (c.length : Int) := by omega
    simp [h0, this]
  · by_cases h1 : unassignedCount a c = 1
    · have hne : ¬ ((assignedCount a c : Int) = (c.length : Int)) := by omega
      have heq : (assignedCount a c : Int) = (c.length : Int) - 1 := by omega
      simp [h1, hne, heq]
    · have hne : ¬ ((assignedCount a c : Int) = (c.length : Int)) := by omega
      have hu : ¬ ((unassignedCount a c : Int) = 1) := by omega
      simp [h0, h1, hne, hu]

theorem unassignedCount_eq_zero {a : Assignments} {c : Clause} :
    unassignedCount a c = 0 ↔ ∀ l ∈ c, a.find l.getVariable ≠ none := by
  simp [unassignedCount, List.filter_eq_nil_iff]

theorem unassignedCount_eq_one {a : Assignments} {c : Clause} :
    unassignedCount a c = 1 ↔
      ∃ pre l post, c = pre ++ l :: post ∧ a.find l.getVariable = none ∧
        ∀ x ∈ pre ++ post, a.find x.getVariable ≠ none := by
  induction c with
  | nil => simp [unassignedCount]
  | cons y c ih =>
    rw [unassignedCount_cons]
    by_cases hy : a.find y.getVariable = none
    · simp only [hy, if_true, Nat.add_left_eq_self, unassignedCount_eq_zero]
      constructor
      · intro h
        exact ⟨[], y, c, rfl, hy, by simpa using h⟩
      · rintro ⟨pre, l, post, hc, _, hall⟩
        cases pre with
        | nil =>
          simp only [List.nil_append, List.cons.injEq] at hc
          obtain ⟨-, rfl⟩ := hc
          simpa using hall
        | cons p pre =>
          simp only [List.cons_append, List.cons.injEq] at hc
          obtain ⟨rfl, -⟩ := hc
          exact absurd hy (hall y (by simp))
    · simp only [hy, if_false]
      rw [ih]
      constructor
      · rintro ⟨pre, l, post, rfl, hl, hall⟩
        refine ⟨y :: pre, l, post, rfl, hl, ?_⟩
        intro x hx
        simp only [List.cons_append, List.mem_cons] at hx
        rcases hx with rfl | hx
        · exact hy
        · exact hall x hx
      · rintro ⟨pre, l, post, hc, hl, hall⟩
        cases pre with
        | nil =>
          simp only [List.nil_append, List.cons.injEq] at hc
          obtain ⟨rfl, -⟩ := hc
          exact absurd hl hy
        | cons p pre =>
          simp only [List.cons_append, List.cons.injEq] at hc
          obtain ⟨rfl, rfl⟩ := hc
          exact ⟨pre, l, post, rfl, hl, fun x hx => hall x (by
            simp only [List.cons_append, List.mem_cons]; exact Or.inr hx)⟩

theorem lastUnassigned_all_assigned {a : Assignments} :
    ∀ (c : Clause) (u : Literal), (∀ l ∈ c, a.find l.getVariable ≠ none) →
      lastUnassigned a c u = u := by
  intro c
  induction c with
  | nil => intro u _; rfl
  | cons y c ih =>
    intro u h
    rw [lastUnassigned_cons, if_neg (h y (List.mem_cons_self _ _))]
    exact ih u fun l hl => h l (List.mem_cons_of_mem _ hl)

theorem lastUnassigned_append {a : Assignments} (pre post : Clause) (l u : Literal)
    (hl : a.find l.getVariable = none) (hpost : ∀ x ∈ post, a.find x.getVariable ≠ none) :
    lastUnassigned a (pre ++ l :: post) u = l := by
  induction pre generalizing u with
  | nil =>
    simp only [List.nil_append, lastUnassigned_cons, hl, if_true]
    exact lastUnassigned_all_assigned post l hpost
  | cons y pre ih =>
    simp only [List.cons_append, lastUnassigned_cons]
    split <;> exact ih _

/-- The literal `lastUnassigned` is `u` or an unassigned literal of the clause. -/
theorem lastUnassigned_mem {a : Assignments} :
    ∀ (c : Clause) (u : Literal), lastUnassigned a c u = u ∨
      (lastUnassigned a c u ∈ c ∧ a.find (lastUnassigned a c u).getVariable = none) := by
  intro c
  induction c with
  | nil => intro u; exact Or.inl rfl
  | cons y c ih =>
    intro u
    rw [lastUnassigned_cons]
    by_cases hy : a.find y.getVariable = none
    · rw [if_pos hy]
      rcases ih y with h | ⟨h1, h2⟩
      · rw [h]; exact Or.inr ⟨List.mem_cons_self _ _, hy⟩
      · exact Or.inr ⟨List.mem_cons_of_mem _ h1, h2⟩
    · rw [if_neg hy]
      rcases ih u with h | ⟨h1, h2⟩
      · exact Or.inl h
      · exact Or.inr ⟨List.mem_cons_of_mem _ h1, h2⟩

theorem lastUnassigned_of_pos {a : Assignments} {c : Clause} (u : Literal)
    (h : unassignedCount a c ≠ 0) :
    lastUnassigned a c u ∈ c ∧ a.find (lastUnassigned a c u).getVariable = none := by
  induction c generalizing u with
  | nil => simp [unassignedCount] at h
  | cons y c ih =>
    rw [lastUnassigned_cons]
    rw [unassignedCount_cons] at h
    by_cases hy : a.find y.getVariable = none
    · rw [if_pos hy]
      rcases lastUnassigned_mem (a := a) c y with h1 | ⟨h1, h2⟩
      · rw [h1]; exact ⟨List.mem_cons_self _ _, hy⟩
      · exact ⟨List.mem_cons_of_mem _ h1, h2⟩
    · rw [if_neg hy] at h ⊢
      obtain ⟨h1, h2⟩ := ih u h
      exact ⟨List.mem_cons_of_mem _ h1, h2⟩


theorem value_false_of_find_none {a : Assignments} {l : Literal}
    (h : a.find l.getVariable = none) : a.value l = false := by
  simp [Assignments.value, h]

theorem checkClauseStatus_classes (c : Clause) (a : Assignments) (u : Literal) :
    ((checkClauseStatus c a u).1 = ClauseStatus.SATISFIED ↔
        ∃ l ∈ c, a.find l.getVariable ≠ none ∧ a.value l = true) ∧
    ((checkClauseStatus c a u).1 = ClauseStatus.UNSATISFIED ↔
        ∀ l ∈ c, a.find l.getVariable ≠ none ∧ a.value l = false) ∧
    ((checkClauseStatus c a u).1 = ClauseStatus.UNIT ↔
        ∃ pre l post, c = pre ++ l :: post ∧ a.find l.getVariable = none ∧
          ∀ x ∈ pre ++ post, a.find x.getVariable ≠ none ∧ a.value x = false) ∧
    (∀ pre l post, c = pre ++ l :: post → a.find l.getVariable = none →
        (∀ x ∈ pre ++ post, a.find x.getVariable ≠ none ∧ a.value x = false) →
        (checkClauseStatus c a u).2 = l) ∧
    ((checkClauseStatus c a u).1 = ClauseStatus.UNRESOLVED ↔
        (∀ l ∈ c, ¬ (a.find l.getVariable ≠ none ∧ a.value l = true)) ∧
          2 ≤ unassignedCount a c) := by
  have hdec : ∀ pre l post, c = pre ++ l :: post → a.find l.getVariable = none →
      (∀ x ∈ pre ++ post, a.find x.getVariable ≠ none ∧ a.value x = false) →
      (∀ x ∈ c, a.value x = false) ∧ unassignedCount a c = 1 := by
    intro pre l post hc hl hall
    refine ⟨?_, unassignedCount_eq_one.2 ⟨pre, l, post, hc, hl, fun x hx => (hall x hx).1⟩⟩
    intro x hx
    rw [hc] at hx
    simp only [List.mem_append, List.mem_cons] at hx
    rcases hx with hx | rfl | hx
    · exact (hall x (List.mem_append_left _ hx)).2
    · exact value_false_of_find_none hl
    · exact (hall x (List.mem_append_right _ hx)).2
  rcases not_value_true_or a c with ht | hf
  · have hs := checkClauseStatus_of_true u ht
    obtain ⟨t, htc, htv⟩ := ht
    refine ⟨?_, ?_, ?_, ?_, ?_⟩
    · exact ⟨fun _ => ⟨t, htc, value_eq_true_find htv, htv⟩, fun _ => hs⟩
    · rw [hs]
      refine ⟨(fun h => by cases h), fun h => ?_⟩
      have := (h t htc).2
      rw [htv] at this
      cases this
    · rw [hs]
      refine ⟨(fun h => by cases h), ?_⟩
      rintro ⟨pre, l, post, hc, hl, hall⟩
      have := (hdec pre l post hc hl hall).1 t htc
      rw [htv] at this
      cases this
    · intro pre l post hc hl hall
      have := (hdec pre l post hc hl hall).1 t htc
      rw [htv] at this
      cases this
    · rw [hs]
      refine ⟨(fun h => by cases h), ?_⟩
      rintro ⟨h, -⟩
      exact absurd ⟨value_eq_true_find htv, htv⟩ (h t htc)
  · have hs := checkClauseStatus_of_false u hf
    refine ⟨?_, ?_, ?_, ?_, ?_⟩
    · rw [hs]
      constructor
      · intro h
        dsimp only at h
        split_ifs at h
      · rintro ⟨l, hl, -, hv⟩
        rw [hf l hl] at hv
        cases hv
    · rw [hs]
      constructor
      · intro h
        dsimp only at h
        split_ifs at h with h0
        exact fun l hl => ⟨unassignedCount_eq_zero.1 h0 l hl, hf l hl⟩
      · intro h
        have h0 : unassignedCount a c = 0 := unassignedCount_eq_zero.2 fun l hl => (h l hl).1
        simp [h0]
    · rw [hs]
      constructor
      · intro h
        dsimp only at h
        split_ifs at h with h0 h1
        obtain ⟨pre, l, post, hc, hl, hall⟩ := unassignedCount_eq_one.1 h1
        refine ⟨pre, l, post, hc, hl, fun x hx => ⟨hall x hx, hf x ?_⟩⟩
        rw [hc]
        simp only [List.mem_append, List.mem_cons] at hx ⊢
        tauto
      · rintro ⟨pre, l, post, hc, hl, hall⟩
        have h1 := (hdec pre l post hc hl hall).2
        simp [h1]
    · intro pre l post hc hl hall
      rw [hs]
      dsimp only
      rw [hc]
      exact lastUnassigned_append pre post l u hl fun x hx =>
        (hall x (List.mem_append_right _ hx)).1
    · rw [hs]
      constructor
      · intro h
        dsimp only at h
        split_ifs at h with h0 h1
        refine ⟨fun l hl hh => ?_, by omega⟩
        have := hh.2
        rw [hf l hl] at this
        cases this
      · rintro ⟨-, h2⟩
        have h0 : unassignedCount a c ≠ 0 := by omega
        have h1 : unassignedCount a c ≠ 1 := by omega
        simp [h0, h1]

/-! ## Unit propagation -/

theorem checkClauseStatus_fst_eq (c : Clause) (a : Assignments) (u v : Literal) :
    (checkClauseStatus c a u).1 = (checkClauseStatus c a v).1 := by
  rcases not_value_true_or a c with ht | hf
  · rw [checkClauseStatus_of_true u ht, checkClauseStatus_of_true v ht]
  · rw [checkClauseStatus_of_false u hf, checkClauseStatus_of_false v hf]

theorem checkClauseStatus_unit {c : Clause} {a : Assignments} {u : Literal}
    (h : (checkClauseStatus c a u).1 = ClauseStatus.UNIT) :
    (checkClauseStatus c a u).2 ∈ c ∧
      a.find (checkClauseStatus c a u).2.getVariable = none ∧
      (∀ l ∈ c, a.value l = false) ∧ unassignedCount a c = 1 := by
  rcases not_value_true_or a c with ht | hf
  · rw [checkClauseStatus_of_true u ht] at h
    cases h
  · rw [checkClauseStatus_of_false u hf] at h ⊢
    dsimp only at h ⊢
    split_ifs at h with h0 h1
    obtain ⟨hm, hn⟩ := lastUnassigned_of_pos (a := a) (c := c) u h0
    exact ⟨hm, hn, hf, h1⟩

theorem checkClauseStatus_unsatisfied {c : Clause} {a : Assignments} {u : Literal} :
    (checkClauseStatus c a u).1 = ClauseStatus.UNSATISFIED ↔
      ∀ l ∈ c, a.find l.getVariable ≠ none ∧ a.value l = false :=
  (checkClauseStatus_classes c a u).2.1

theorem propagatePass_cons (dflt : Literal) (a : Assignments) (c : Clause) (cs : List Clause)
    (ch : Bool) :
    propagatePass dflt a (c :: cs) ch =
      if (checkClauseStatus c a dflt).1 = ClauseStatus.UNIT then
        propagatePass dflt
          (a.assign (checkClauseStatus c a dflt).2.getVariable
            (!(checkClauseStatus c a dflt).2.isNegated) c) cs true
      else if (checkClauseStatus c a dflt).1 = ClauseStatus.UNSATISFIED then Pass.conflict a c
      else propagatePass dflt a cs ch := by
  rw [propagatePass]
  rcases hs : checkClauseStatus c a dflt with ⟨st, ul⟩
  cases st
  · simp
  · have h1 : (checkClauseStatus c a dflt).1 = ClauseStatus.UNIT := by rw [hs]
    have := (checkClauseStatus_unit h1).2.1
    rw [hs] at this
    simp [this]
  · simp
  · simp

/-- A pass that ends with `changed = false` from `changed = false` leaves the store as it
found it and met no UNIT and no UNSATISFIED clause. -/
theorem propagatePass_unchanged (dflt : Literal) :
    ∀ (cs : List Clause) (a a1 : Assignments) (ch : Bool),
      propagatePass dflt a cs ch = Pass.scanned a1 false →
        ch = false ∧ a1 = a ∧ ∀ c ∈ cs,
          (checkClauseStatus c a dflt).1 ≠ ClauseStatus.UNIT ∧
            (checkClauseStatus c a dflt).1 ≠ ClauseStatus.UNSATISFIED := by
  intro cs
  induction cs with
  | nil =>
    intro a a1 ch h
    simp only [propagatePass, Pass.scanned.injEq] at h
    exact ⟨h.2, h.1.symm, by simp⟩
  | cons c cs ih =>
    intro a a1 ch h
    rw [propagatePass_cons] at h
    split_ifs at h with h1 h2
    · have := (ih _ _ _ h).1
      cases this
    · obtain ⟨hch, ha, hall⟩ := ih _ _ _ h
      refine ⟨hch, ha, ?_⟩
      intro x hx
      rcases List.mem_cons.1 hx with rfl | hx
      · exact ⟨h1, h2⟩
      · exact hall x hx

/-- A pass that stops at a conflict stops at a clause that is UNSATISFIED under the store
reached by scanning the clauses before it. -/
theorem propagatePass_conflict (dflt : Literal) :
    ∀ (cs : List Clause) (a a1 : Assignments) (ch : Bool) (K : Clause),
      propagatePass dflt a cs ch = Pass.conflict a1 K →
        ∃ pre post ch1, cs = pre ++ K :: post ∧
          propagatePass dflt a pre ch = Pass.scanned a1 ch1 ∧
          (checkClauseStatus K a1 dflt).1 = ClauseStatus.UNSATISFIED := by
  intro cs
  induction cs with
  | nil =>
    intro a a1 ch K h
    simp [propagatePass] at h
  | cons c cs ih =>
    intro a a1 ch K h
    rw [propagatePass_cons] at h
    split_ifs at h with h1 h2
    · obtain ⟨pre, post, ch1, hcs, hp, hK⟩ := ih _ _ _ _ h
      refine ⟨c :: pre, post, ch1, by rw [hcs]; rfl, ?_, hK⟩
      rw [propagatePass_cons, if_pos h1]
      exact hp
    · simp only [Pass.conflict.injEq] at h
      obtain ⟨rfl, rfl⟩ := h
      exact ⟨[], cs, ch, rfl, rfl, h2⟩
    · obtain ⟨pre, post, ch1, hcs, hp, hK⟩ := ih _ _ _ _ h
      refine ⟨c :: pre, post, ch1, by rw [hcs]; rfl, ?_, hK⟩
      rw [propagatePass_cons, if_neg h1, if_neg h2]
      exact hp

theorem unitPropagate_succ (dflt : Literal) (fuel : Nat) (a : Assignments) (f : Formula) :
    unitPropagate dflt (fuel + 1) a f =
      match propagatePass dflt a f.clauses false with
      | Pass.conflict a1 K => Run.done (UnitPropagationStatus.UNIT_CONFLICT, K, a1)
      | Pass.scanned a1 ch =>
          if ch then unitPropagate dflt fuel a1 f
          else Run.done (UnitPropagationStatus.UNIT_UNRESOLVED, [], a1) := by
  rw [unitPropagate]

theorem unitPropagate_unresolved (dflt : Literal) (fuel : Nat) (a : Assignments)
    (f : Formula) (K : Clause) (a1 : Assignments)
    (h : unitPropagate dflt fuel a f =
      Run.done (UnitPropagationStatus.UNIT_UNRESOLVED, K, a1)) :
    ∀ c ∈ f.clauses, ∀ u : Literal,
      (checkClauseStatus c a1 u).1 = ClauseStatus.SATISFIED ∨
        (checkClauseStatus c a1 u).1 = ClauseStatus.UNRESOLVED := by
  induction fuel generalizing a with
  | zero => simp [unitPropagate] at h
  | succ n ih =>
    rw [unitPropagate_succ] at h
    cases hp : propagatePass dflt a f.clauses false with
    | conflict a2 K2 => simp [hp] at h
    | scanned a2 ch =>
      rw [hp] at h
      cases ch with
      | true => exact ih a2 (by simpa using h)
      | false =>
        simp only [Bool.false_eq_true, if_false, Run.done.injEq, Prod.mk.injEq, true_and] at h
        obtain ⟨-, rfl⟩ := h
        obtain ⟨-, rfl, hall⟩ := propagatePass_unchanged dflt _ _ _ _ hp
        intro c hc u
        have := hall c hc
        rw [checkClauseStatus_fst_eq c a2 u dflt]
        cases hs : (checkClauseStatus c a2 dflt).1 with
        | SATISFIED => exact Or.inl rfl
        | UNRESOLVED => exact Or.inr rfl
        | UNIT => exact absurd hs this.1
        | UNSATISFIED => exact absurd hs this.2

theorem unitPropagate_conflict (dflt : Literal) (fuel : Nat) (a : Assignments)
    (f : Formula) (K : Clause) (a1 : Assignments)
    (h : unitPropagate dflt fuel a f =
      Run.done (UnitPropagationStatus.UNIT_CONFLICT, K, a1)) :
    K ∈ f.clauses ∧
      (∀ u : Literal, (checkClauseStatus K a1 u).1 = ClauseStatus.UNSATISFIED) ∧
      (∀ l ∈ K, a1.find l.getVariable ≠ none ∧ a1.value l = false) ∧
      ∃ a0 pre post ch, f.clauses = pre ++ K :: post ∧
        propagatePass dflt a0 f.clauses false = Pass.conflict a1 K ∧
        propagatePass dflt a0 pre false = Pass.scanned a1 ch := by
  induction fuel generalizing a with
  | zero => simp [unitPropagate] at h
  | succ n ih =>
    rw [unitPropagate_succ] at h
    cases hp : propagatePass dflt a f.clauses false with
    | conflict a2 K2 =>
      simp only [hp, Run.done.injEq, Prod.mk.injEq, true_and] at h
      obtain ⟨rfl, rfl⟩ := h
      obtain ⟨pre, post, ch1, hcs, hpre, hK⟩ := propagatePass_conflict dflt _ _ _ _ _ hp
      refine ⟨by rw [hcs]; simp, fun u => ?_, checkClauseStatus_unsatisfied.1 hK,
        a, pre, post, ch1, hcs, hp, hpre⟩
      rw [checkClauseStatus_fst_eq K2 a2 u dflt]
      exact hK
    | scanned a2 ch =>
      rw [hp] at h
      cases ch with
      | true => exact ih a2 (by simpa using h)
      | false => simp at h

/-! ## The store -/

theorem find_assign_self (a : Assignments) (v : Int) (b : Bool) (c : Clause) :
    (a.assign v b c).find v = some ⟨b, c, a.decision_level⟩ := by
  simp [Assignments.assign, Assignments.find, AList.lookup_insert]

theorem find_assign_ne (a : Assignments) {v w : Int} (b : Bool) (c : Clause) (h : w ≠ v) :
    (a.assign v b c).find w = a.find w := by
  simp [Assignments.assign, Assignments.find, AList.lookup_insert_ne h]

theorem value_assign_ne (a : Assignments) {v : Int} (b : Bool) (c : Clause) {l : Literal}
    (h : l.getVariable ≠ v) : (a.assign v b c).value l = a.value l := by
  simp [Assignments.value, find_assign_ne a b c h]

theorem value_assign_self (a : Assignments) (l : Literal) (c : Clause) :
    (a.assign l.getVariable (!l.isNegated) c).value l = true := by
  simp [Assignments.value, find_assign_self]

theorem levelOf_assign_self (a : Assignments) (v : Int) (b : Bool) (c : Clause) :
    (a.assign v b c).levelOf v = some a.decision_level := by
  simp [Assignments.levelOf, find_assign_self]

theorem levelOf_assign_ne (a : Assignments) {v w : Int} (b : Bool) (c : Clause) (h : w ≠ v) :
    (a.assign v b c).levelOf w = a.levelOf w := by
  simp [Assignments.levelOf, find_assign_ne a b c h]

theorem levelOf_eq_some {a : Assignments} {v : Int} {d : Int} :
    a.levelOf v = some d ↔ ∃ r, a.find v = some r ∧ r.getDecisionLevel = d := by
  simp [Assignments.levelOf]

theorem levelOf_eq_none {a : Assignments} {v : Int} :
    a.levelOf v = none ↔ a.find v = none := by
  simp [Assignments.levelOf]

theorem find_ne_none_iff_mem_keys {a : Assignments} {v : Int} :
    a.find v ≠ none ↔ v ∈ a.store.keys := by
  rw [Assignments.find, Ne, AList.lookup_eq_none, not_not, AList.mem_keys]

theorem T1.mem_trail {a : Assignments} (h : T1 a) {v : Int} :
    v ∈ a.trail ↔ a.find v ≠ none := by
  rw [find_ne_none_iff_mem_keys]
  exact h.mem_iff

theorem T1.nodup {a : Assignments} (h : T1 a) : a.trail.Nodup :=
  h.nodup_iff.2 a.store.keys_nodup

theorem T1.length {a : Assignments} (h : T1 a) : a.trail.length = a.size :=
  h.length_eq

/-! ## Properties along the trail -/

theorem onTrail_append {P : Int → List Int → Prop} :
    ∀ {pre : List Int} {v : Int} {t : List Int}, onTrail P (pre ++ v :: t) → P v t
  | [], _, _, h => h.1
  | _ :: pre, _, _, h => @onTrail_append _ pre _ _ h.2

theorem onTrail_suffix {P : Int → List Int → Prop} :
    ∀ {pre : List Int} {t : List Int}, onTrail P (pre ++ t) → onTrail P t
  | [], _, h => h
  | _ :: pre, _, h => @onTrail_suffix _ pre _ h.2

theorem onTrail_mono {P Q : Int → List Int → Prop} :
    ∀ {t : List Int}, (∀ pre v s, t = pre ++ v :: s → P v s → Q v s) →
      onTrail P t → onTrail Q t
  | [], _, _ => trivial
  | v :: t, hPQ, h =>
      ⟨hPQ [] v t rfl h.1,
        onTrail_mono (fun pre w s ht hp => hPQ (v :: pre) w s (by rw [ht]; rfl) hp) h.2⟩

/-! ## Resolution -/

theorem Literal.lt_irrefl (a : Literal) : Literal.lt a a = false := by
  cases a with
  | mk v n => cases n <;> simp [Literal.lt]

theorem Literal.lt_trans {a b c : Literal} (h1 : Literal.lt a b = true)
    (h2 : Literal.lt b c = true) : Literal.lt a c = true := by
  cases a with
  | mk va na =>
    cases b with
    | mk vb nb =>
      cases c with
      | mk vc nc =>
        simp only [Literal.lt, Bool.or_eq_true, Bool.and_eq_true, decide_eq_true_eq,
          Bool.not_eq_true'] at h1 h2 ⊢
        rcases h1 with h1 | ⟨h1, h1a, h1b⟩ <;> rcases h2 with h2 | ⟨h2, h2a, h2b⟩
        · left; omega
        · left; omega
        · left; omega
        · rw [h1b] at h2a; cases h2a

theorem Literal.eq_of_not_lt {a b : Literal} (h1 : Literal.lt a b = false)
    (h2 : Literal.lt b a = false) : a = b := by
  cases a with
  | mk va na =>
    cases b with
    | mk vb nb =>
      simp only [Literal.lt, Bool.or_eq_false_iff, decide_eq_false_iff_not, not_lt,
        Bool.and_eq_false_imp, decide_eq_true_eq, Bool.not_eq_true'] at h1 h2
      have hv : va = vb := le_antisymm h2.1 h1.1
      subst hv
      have e1 := h1.2 rfl
      have e2 := h2.2 rfl
      cases na <;> cases nb <;> simp_all

theorem mem_setInsert {x l : Literal} : ∀ {s : List Literal},
    x ∈ setInsert l s ↔ x = l ∨ x ∈ s
  | [] => by simp [setInsert]
  | y :: s => by
    unfold setInsert
    split_ifs with h1 h2
    · simp
    · rw [List.mem_cons, mem_setInsert (s := s), List.mem_cons]
      tauto
    · have : l = y := Literal.eq_of_not_lt (by simpa using h1) (by simpa using h2)
      subst this
      simp

theorem sorted_setInsert {l : Literal} : ∀ {s : List Literal},
    s.Pairwise (fun a b => Literal.lt a b = true) →
      (setInsert l s).Pairwise (fun a b => Literal.lt a b = true)
  | [], _ => by simp [setInsert]
  | y :: s, h => by
    unfold setInsert
    rw [List.pairwise_cons] at h
    split_ifs with h1 h2
    · rw [List.pairwise_cons]
      refine ⟨?_, List.pairwise_cons.2 h⟩
      intro z hz
      rcases List.mem_cons.1 hz with rfl | hz
      · exact h1
      · exact Literal.lt_trans h1 (h.1 z hz)
    · rw [List.pairwise_cons]
      refine ⟨?_, sorted_setInsert h.2⟩
      intro z hz
      rcases mem_setInsert.1 hz with rfl | hz
      · exact h2
      · exact h.1 z hz
    · exact List.pairwise_cons.2 h

theorem nodup_of_sorted {s : List Literal}
    (h : s.Pairwise (fun a b => Literal.lt a b = true)) : s.Nodup := by
  refine h.imp ?_
  intro a b hab heq
  subst heq
  rw [Literal.lt_irrefl] at hab
  cases hab

theorem mem_foldl_setInsert (v : Int) {x : Literal} : ∀ (c acc : List Literal),
    x ∈ c.foldl (fun acc lit => if lit.getVariable ≠ v then setInsert lit acc else acc) acc ↔
      x ∈ acc ∨ (x ∈ c ∧ x.getVariable ≠ v)
  | [], acc => by simp
  | y :: c, acc => by
    rw [List.foldl_cons, mem_foldl_setInsert v c]
    by_cases hy : y.getVariable ≠ v
    · rw [if_pos hy, mem_setInsert, List.mem_cons]
      constructor
      · rintro ((rfl | h) | h)
        · exact Or.inr ⟨Or.inl rfl, hy⟩
        · exact Or.inl h
        · exact Or.inr ⟨Or.inr h.1, h.2⟩
      · rintro (h | ⟨rfl | h, h2⟩)
        · exact Or.inl (Or.inr h)
        · exact Or.inl (Or.inl rfl)
        · exact Or.inr ⟨h, h2⟩
    · rw [if_neg hy, List.mem_cons]
      constructor
      · rintro (h | h)
        · exact Or.inl h
        · exact Or.inr ⟨Or.inr h.1, h.2⟩
      · rintro (h | ⟨rfl | h, h2⟩)
        · exact Or.inl h
        · exact absurd h2 hy
        · exact Or.inr ⟨h, h2⟩

theorem sorted_foldl_setInsert (v : Int) : ∀ (c acc : List Literal),
    acc.Pairwise (fun a b => Literal.lt a b = true) →
      (c.foldl (fun acc lit => if lit.getVariable ≠ v then setInsert lit acc else acc)
        acc).Pairwise (fun a b => Literal.lt a b = true)
  | [], _, h => h
  | y :: c, acc, h => by
    rw [List.foldl_cons]
    apply sorted_foldl_setInsert v c
    split_ifs
    · exact sorted_setInsert h
    · exact h

theorem mem_resolve {c1 c2 : Clause} {v : Int} {x : Literal} :
    x ∈ resolve c1 c2 v ↔ (x ∈ c1 ∨ x ∈ c2) ∧ x.getVariable ≠ v := by
  unfold resolve
  simp only [mem_foldl_setInsert, List.not_mem_nil, false_or]
  tauto

theorem nodup_resolve (c1 c2 : Clause) (v : Int) : (resolve c1 c2 v).Nodup := by
  apply nodup_of_sorted
  unfold resolve
  exact sorted_foldl_setInsert v _ _ (sorted_foldl_setInsert v _ _ List.Pairwise.nil)

/-! ## Conflict analysis -/

theorem countAtLevel_cons (a : Assignments) (d : Int) (l : Literal) (c : Clause) :
    countAtLevel a d (l :: c) =
      if a.levelOf l.getVariable = some d then countAtLevel a d c + 1
      else countAtLevel a d c := by
  by_cases h : a.levelOf l.getVariable = some d <;> simp [countAtLevel, List.filter, h]

theorem countAtCurrentLevel_done {a : Assignments} : ∀ (c : Clause) (n : Int),
    (∀ l ∈ c, a.find l.getVariable ≠ none) →
      countAtCurrentLevel a c n = Run.done (n + countAtLevel a a.decision_level c)
  | [], n, _ => by simp [countAtCurrentLevel, countAtLevel]
  | l :: c, n, h => by
    have hl := h l (List.mem_cons_self _ _)
    have hc : ∀ x ∈ c, a.find x.getVariable ≠ none := fun x hx =>
      h x (List.mem_cons_of_mem _ hx)
    cases hf : a.find l.getVariable with
    | none => exact absurd hf hl
    | some r =>
      rw [countAtCurrentLevel, countAtLevel_cons]
      simp only [hf, Assignments.getDecisionLevel, Assignments.levelOf, Option.map_some',
        Option.some.injEq]
      split_ifs with h1
      · rw [countAtCurrentLevel_done c _ hc]
        push_cast
        rw [add_assoc, add_comm (1 : Int)]
      · rw [countAtCurrentLevel_done c _ hc]

theorem countAtCurrentLevel_assigned {a : Assignments} : ∀ (c : Clause) (n k : Int),
    countAtCurrentLevel a c n = Run.done k → ∀ l ∈ c, a.find l.getVariable ≠ none
  | [], _, _, _ => by simp
  | l :: c, n, k, h => by
    rw [countAtCurrentLevel] at h
    cases hf : a.find l.getVariable with
    | none => simp [hf] at h
    | some r =>
      simp only [hf] at h
      intro x hx
      rcases List.mem_cons.1 hx with rfl | hx
      · simp [hf]
      · split_ifs at h
        · exact countAtCurrentLevel_assigned c _ _ h x hx
        · exact countAtCurrentLevel_assigned c _ _ h x hx

theorem mem_collectLevels {a : Assignments} {c : Clause} {x : Int} :
    x ∈ collectLevels a c ↔
      ∃ l ∈ c, a.levelOf l.getVariable = some x ∧ x < a.decision_level := by
  unfold collectLevels
  rw [List.mem_filterMap]
  constructor
  · rintro ⟨l, hl, h⟩
    refine ⟨l, hl, ?_⟩
    cases hf : a.find l.getVariable with
    | none => simp [hf] at h
    | some r =>
      simp only [hf, Assignments.getDecisionLevel] at h
      split_ifs at h with h1
      simp only [Option.some.injEq] at h
      subst h
      exact ⟨by simp [Assignments.levelOf, hf], h1⟩
  · rintro ⟨l, hl, h1, h2⟩
    refine ⟨l, hl, ?_⟩
    obtain ⟨r, hr, rfl⟩ := levelOf_eq_some.1 h1
    simp [hr, Assignments.getDecisionLevel, h2]

theorem foldl_max_ge (xs : List Int) (x : Int) :
    x ≤ xs.foldl max x ∧ (∀ y ∈ xs, y ≤ xs.foldl max x) ∧
      (xs.foldl max x = x ∨ xs.foldl max x ∈ xs) := by
  induction xs generalizing x with
  | nil => simp
  | cons y ys ih =>
    rw [List.foldl_cons]
    obtain ⟨h1, h2, h3⟩ := ih (max x y)
    refine ⟨le_trans (le_max_left x y) h1, ?_, ?_⟩
    · intro z hz
      rcases List.mem_cons.1 hz with rfl | hz
      · exact le_trans (le_max_right x z) h1
      · exact h2 z hz
    · rcases h3 with h3 | h3
      · rw [h3]
        rcases max_choice x y with h | h
        · exact Or.inl h
        · exact Or.inr (by rw [h]; exact List.mem_cons_self _ _)
      · exact Or.inr (List.mem_cons_of_mem _ h3)

theorem backtrackLevel_nil : backtrackLevel [] = 0 := rfl

theorem backtrackLevel_mem {levels : List Int} (h : levels ≠ []) :
    backtrackLevel levels ∈ levels ∧ ∀ x ∈ levels, x ≤ backtrackLevel levels := by
  cases levels with
  | nil => exact absurd rfl h
  | cons x xs =>
    obtain ⟨h1, h2, h3⟩ := foldl_max_ge xs x
    refine ⟨?_, ?_⟩
    · rcases h3 with h3 | h3
      · simp only [backtrackLevel]; rw [h3]; exact List.mem_cons_self _ _
      · exact List.mem_cons_of_mem _ h3
    · intro y hy
      rcases List.mem_cons.1 hy with rfl | hy
      · exact h1
      · exact h2 y hy

theorem conflict_analysis_done {fuel : Nat} {K : Clause} {a : Assignments} {L : Int}
    {W : Clause} (hd : a.decision_level ≠ 0)
    (h : conflict_analysis fuel K a = Run.done (L, W)) :
    analysisLoop fuel K a = Run.done W ∧ L = backtrackLevel (collectLevels a W) := by
  unfold conflict_analysis at h
  rw [if_neg (by simpa [Assignments.getDecisionLevel] using hd)] at h
  cases hl : analysisLoop fuel K a with
  | thrown => simp [hl] at h
  | outOfFuel => simp [hl] at h
  | done W1 =>
    simp only [hl, Run.done.injEq, Prod.mk.injEq] at h
    obtain ⟨h1, rfl⟩ := h
    exact ⟨rfl, h1.symm⟩

theorem analysisLoop_assigned : ∀ (fuel : Nat) (K : Clause) (a : Assignments) (W : Clause),
    analysisLoop fuel K a = Run.done W →
      (∀ l ∈ W, a.find l.getVariable ≠ none) ∧ countAtLevel a a.decision_level W ≤ 1
  | 0, _, _, _, h => by simp [analysisLoop] at h
  | fuel + 1, K, a, W, h => by
    rw [analysisLoop] at h
    cases hc : countAtCurrentLevel a K 0 with
    | thrown => simp [hc] at h
    | outOfFuel => simp [hc] at h
    | done k =>
      simp only [hc] at h
      split_ifs at h with hk
      · simp only [Run.done.injEq] at h
        subst h
        have hass := countAtCurrentLevel_assigned K 0 k hc
        rw [countAtCurrentLevel_done K 0 hass] at hc
        simp only [zero_add, Run.done.injEq] at hc
        exact ⟨hass, by omega⟩
      · cases hv : findVarToResolve a (seenVariables K) a.getTrail with
        | thrown => simp [hv] at h
        | outOfFuel => simp [hv] at h
        | done v =>
          simp only [hv] at h
          cases hf : a.find v with
          | none => simp [hf] at h
          | some r =>
            simp only [hf] at h
            exact analysisLoop_assigned fuel _ a W h

/-- The backjump level computed by `conflict_analysis` is the largest level below the
current one among the literals of the learned clause, and 0 if there is none. -/
theorem conflict_analysis_level {fuel : Nat} {K : Clause} {a : Assignments} {L : Int}
    {W : Clause} (hd : 0 < a.decision_level)
    (h : conflict_analysis fuel K a = Run.done (L, W)) :
    ((∀ l ∈ W, ∀ x ∈ a.levelOf l.getVariable, ¬ x < a.decision_level) → L = 0) ∧
    ((∃ l ∈ W, ∃ x ∈ a.levelOf l.getVariable, x < a.decision_level) →
      (∃ l ∈ W, a.levelOf l.getVariable = some L) ∧
        ∀ l ∈ W, ∀ x ∈ a.levelOf l.getVariable, x < a.decision_level → x ≤ L) ∧
    L < a.decision_level := by
  obtain ⟨-, rfl⟩ := conflict_analysis_done (ne_of_gt hd) h
  refine ⟨?_, ?_, ?_⟩
  · intro hall
    have : collectLevels a W = [] := by
      rw [List.eq_nil_iff_forall_not_mem]
      intro x hx
      obtain ⟨l, hl, h1, h2⟩ := mem_collectLevels.1 hx
      exact hall l hl x h1 h2
    rw [this, backtrackLevel_nil]
  · rintro ⟨l, hl, x, hx, hxd⟩
    have hm : x ∈ collectLevels a W := mem_collectLevels.2 ⟨l, hl, hx, hxd⟩
    obtain ⟨h1, h2⟩ := backtrackLevel_mem (List.ne_nil_of_mem hm)
    obtain ⟨l1, hl1, h3, -⟩ := mem_collectLevels.1 h1
    exact ⟨⟨l1, hl1, h3⟩, fun l2 hl2 y hy hyd =>
      h2 y (mem_collectLevels.2 ⟨l2, hl2, hy, hyd⟩)⟩
  · by_cases hn : collectLevels a W = []
    · rw [hn, backtrackLevel_nil]; exact hd
    · exact (mem_collectLevels.1 (backtrackLevel_mem hn).1).choose_spec.2.2

/-! ## Termination of conflict analysis and the 1-UIP exit -/

theorem falsified_eq_of_var {a : Assignments} {l1 l2 : Literal}
    (h1 : a.find l1.getVariable ≠ none ∧ a.value l1 = false)
    (h2 : a.find l2.getVariable ≠ none ∧ a.value l2 = false)
    (hv : l1.getVariable = l2.getVariable) : l1 = l2 := by
  obtain ⟨v1, n1⟩ := l1
  obtain ⟨v2, n2⟩ := l2
  simp only at hv
  subst hv
  obtain ⟨ha, hb⟩ := h1
  obtain ⟨-, hc⟩ := h2
  cases hf : a.find v1 with
  | none => exact absurd hf ha
  | some r =>
    simp only [Assignments.value, hf] at hb hc
    cases n1 <;> cases n2 <;> simp_all

theorem one_le_countAtLevel {a : Assignments} {d : Int} {c : Clause} {l : Literal}
    (hl : l ∈ c) (hd : a.levelOf l.getVariable = some d) : 1 ≤ countAtLevel a d c := by
  unfold countAtLevel
  apply List.length_pos_of_mem (a := l)
  rw [List.mem_filter]
  exact ⟨hl, by simpa using hd⟩

theorem exists_of_one_le_countAtLevel {a : Assignments} {d : Int} {c : Clause}
    (h : 1 ≤ countAtLevel a d c) : ∃ l ∈ c, a.levelOf l.getVariable = some d := by
  unfold countAtLevel at h
  obtain ⟨l, hl⟩ := List.exists_mem_of_length_pos h
  rw [List.mem_filter] at hl
  exact ⟨l, hl.1, by simpa using hl.2⟩

theorem two_at_level {a : Assignments} {d : Int} {W : Clause} (hW : falsified a W)
    (hnd : W.Nodup) (h2 : 2 ≤ countAtLevel a d W) :
    ∃ l1 ∈ W, ∃ l2 ∈ W, l1.getVariable ≠ l2.getVariable ∧
      a.levelOf l1.getVariable = some d ∧ a.levelOf l2.getVariable = some d := by
  unfold countAtLevel at h2
  have hnd2 := hnd.filter (fun l => decide (a.levelOf l.getVariable = some d))
  match hF : W.filter (fun l => decide (a.levelOf l.getVariable = some d)), h2, hnd2 with
  | [], h2, _ => simp [hF] at h2
  | [_], h2, _ => simp [hF] at h2
  | l1 :: l2 :: rest, _, hnd2 =>
    rw [hF] at hnd2
    have m1 : l1 ∈ W.filter (fun l => decide (a.levelOf l.getVariable = some d)) := by
      rw [hF]; simp
    have m2 : l2 ∈ W.filter (fun l => decide (a.levelOf l.getVariable = some d)) := by
      rw [hF]; simp
    rw [List.mem_filter] at m1 m2
    refine ⟨l1, m1.1, l2, m2.1, ?_, by simpa using m1.2, by simpa using m2.2⟩
    intro hv
    have : l1 = l2 := falsified_eq_of_var (hW l1 m1.1) (hW l2 m2.1) hv
    rw [List.nodup_cons] at hnd2
    exact hnd2.1 (by rw [this]; simp)

theorem T2.entry2 {a : Assignments} (h : T2 a) {pre : List Int} {v : Int} {t : List Int}
    (ht : a.trail = pre ++ v :: t) :
    T2At a v t := by
  unfold T2 at h
  rw [ht] at h
  exact onTrail_append h

theorem T3.entry3 {a : Assignments} (h : T3 a) {pre : List Int} {v : Int} {t : List Int}
    (ht : a.trail = pre ++ v :: t) :
    T3At a v t := by
  unfold T3 at h
  rw [ht] at h
  exact onTrail_append h

theorem T4.entry4 {a : Assignments} (h : T4 a) {pre : List Int} {v : Int} {t : List Int}
    (ht : a.trail = pre ++ v :: t) :
    T4At a v t := by
  unfold T4 at h
  rw [ht] at h
  exact onTrail_append h

/-- Of two different variables assigned at the same level above 0, the one assigned later
has a non-empty antecedent. -/
theorem implied_of_two {a : Assignments} (h1 : T1 a) (h3 : T3 a) {x y : Int} {d : Int}
    (hd : 0 < d) (hxy : x ≠ y) (hx : a.levelOf x = some d) (hy : a.levelOf y = some d) :
    (∃ r, a.find x = some r ∧ r.getAntecedent ≠ []) ∨
      (∃ r, a.find y = some r ∧ r.getAntecedent ≠ []) := by
  obtain ⟨rx, hrx, hlx⟩ := levelOf_eq_some.1 hx
  obtain ⟨ry, hry, hly⟩ := levelOf_eq_some.1 hy
  have mx : x ∈ a.trail := h1.mem_trail.2 (by simp [hrx])
  have my : y ∈ a.trail := h1.mem_trail.2 (by simp [hry])
  obtain ⟨pre, post, ht⟩ := List.append_of_mem mx
  rw [ht] at my
  simp only [List.mem_append, List.mem_cons] at my
  rcases my with my | my | my
  · obtain ⟨p1, p2, hp⟩ := List.append_of_mem my
    have ht2 : a.trail = p1 ++ y :: (p2 ++ x :: post) := by
      rw [ht, hp]; simp
    have := h3.entry3 ht2 ry hry (by rw [hly]; exact hd)
    right
    refine ⟨ry, hry, fun he => ?_⟩
    exact this.1 he x (by simp) (by rw [hx, hly])
  · exact absurd my.symm hxy
  · have := h3.entry3 ht rx hrx (by rw [hlx]; exact hd)
    left
    refine ⟨rx, hrx, fun he => ?_⟩
    exact this.1 he y my (by rw [hy, hlx])

theorem findVarToResolve_skip {a : Assignments} {seen : List Int} :
    ∀ (pre rest : List Int),
      (∀ x ∈ pre, x ∈ seen → ∃ r, a.find x = some r ∧ r.getAntecedent = []) →
      findVarToResolve a seen (pre ++ rest) = findVarToResolve a seen rest
  | [], _, _ => rfl
  | x :: pre, rest, h => by
    have ih := findVarToResolve_skip pre rest fun y hy => h y (List.mem_cons_of_mem _ hy)
    rw [List.cons_append, findVarToResolve]
    by_cases hx : x ∈ seen
    · obtain ⟨r, hr, he⟩ := h x (List.mem_cons_self _ _) hx
      simp [hx, hr, he, ih]
    · simp [hx, ih]

theorem findVarToResolve_head {a : Assignments} {seen : List Int} {v : Int} {r : Assignment}
    (rest : List Int) (hv : v ∈ seen) (hr : a.find v = some r) (hne : r.getAntecedent ≠ []) :
    findVarToResolve a seen (v :: rest) = Run.done v := by
  rw [findVarToResolve]
  simp [hv, hr, List.length_pos.2 hne]

theorem falsified_resolve {a : Assignments} {W : Clause} {v : Int} {r : Assignment}
    {pre t : List Int} (h4 : T4 a) (ht : a.trail = pre ++ v :: t) (hr : a.find v = some r)
    (hW : falsified a W) : falsified a (resolve W r.getAntecedent v) := by
  intro l hl
  obtain ⟨hm, hne⟩ := mem_resolve.1 hl
  rcases hm with hm | hm
  · exact hW l hm
  · have := h4.entry4 ht r hr l hm hne
    exact ⟨this.2.1, this.2.2.1⟩

/-- The loop of `conflict_analysis` ends, with enough fuel, in a clause with exactly one
literal at the current level: induction along the part `t` of the trail that holds the
variables of the working clause with a non-empty antecedent. -/
theorem analysisLoop_terminates {a : Assignments} (h1 : T1 a) (h3 : T3 a) (h4 : T4 a)
    (hd : 0 < a.decision_level) :
    ∀ (t : List Int), t <:+ a.trail → ∀ (W : Clause), falsified a W → W.Nodup →
      1 ≤ countAtLevel a a.decision_level W →
      (∀ x ∈ seenVariables W, x ∉ t → ∀ r ∈ a.find x, r.getAntecedent = []) →
      ∃ fuel W1, (∀ n, fuel ≤ n → analysisLoop n W a = Run.done W1) ∧
        countAtLevel a a.decision_level W1 = 1 ∧ falsified a W1 ∧
        (W1 = W ∨ W1.Nodup) := by
  intro t
  induction t with
  | nil =>
    intro _ W hW hnd hc himp
    have hass : ∀ l ∈ W, a.find l.getVariable ≠ none := fun l hl => (hW l hl).1
    have hle : countAtLevel a a.decision_level W ≤ 1 := by
      by_contra hgt
      obtain ⟨l1, m1, l2, m2, hne, hl1, hl2⟩ := two_at_level (d := a.decision_level) hW hnd (by omega)
      rcases implied_of_two h1 h3 hd hne hl1 hl2 with ⟨r, hr, hre⟩ | ⟨r, hr, hre⟩
      · exact hre (himp _ (List.mem_map_of_mem _ m1) (List.not_mem_nil _) r hr)
      · exact hre (himp _ (List.mem_map_of_mem _ m2) (List.not_mem_nil _) r hr)
    refine ⟨1, W, ?_, by omega, hW, Or.inl rfl⟩
    intro n hn
    obtain ⟨m, rfl⟩ : ∃ m, n = m + 1 := ⟨n - 1, by omega⟩
    rw [analysisLoop, countAtCurrentLevel_done W 0 hass]
    simp only [zero_add]
    rw [if_pos (by omega)]
  | cons v t ih =>
    intro hsuf W hW hnd hc himp
    have hass : ∀ l ∈ W, a.find l.getVariable ≠ none := fun l hl => (hW l hl).1
    have hsuf2 : t <:+ a.trail := List.IsSuffix.trans (List.suffix_cons v t) hsuf
    by_cases hle : countAtLevel a a.decision_level W ≤ 1
    · refine ⟨1, W, ?_, by omega, hW, Or.inl rfl⟩
      intro n hn
      obtain ⟨m, rfl⟩ : ∃ m, n = m + 1 := ⟨n - 1, by omega⟩
      rw [analysisLoop, countAtCurrentLevel_done W 0 hass]
      simp only [zero_add]
      rw [if_pos (by omega)]
    · obtain ⟨pre, hpre⟩ := hsuf
      have hvt : v ∈ a.trail := by rw [← hpre]; simp
      have hnodup := h1.nodup
      cases hf : a.find v with
      | none => exact absurd hf (h1.mem_trail.1 hvt)
      | some r =>
        by_cases hcase : v ∈ seenVariables W ∧ r.getAntecedent ≠ []
        · -- the loop resolves on `v`
          have hfind : findVarToResolve a (seenVariables W) a.getTrail = Run.done v := by
            rw [Assignments.getTrail, ← hpre, findVarToResolve_skip pre (v :: t)]
            · exact findVarToResolve_head t hcase.1 hf hcase.2
            · intro x hx hxs
              have hxt : x ∈ a.trail := by rw [← hpre]; simp [hx]
              have hxn : x ∉ v :: t := by
                rw [← hpre] at hnodup
                exact fun hmem => (List.disjoint_of_nodup_append hnodup) hx hmem
              cases hfx : a.find x with
              | none => exact absurd hfx (h1.mem_trail.1 hxt)
              | some rx => exact ⟨rx, rfl, himp x hxs hxn rx hfx⟩
          have hW1 : falsified a (resolve W r.getAntecedent v) :=
            falsified_resolve h4 hpre.symm hf hW
          have hc1 : 1 ≤ countAtLevel a a.decision_level (resolve W r.getAntecedent v) := by
            obtain ⟨l1, m1, l2, m2, hne, hl1, hl2⟩ := two_at_level (d := a.decision_level) hW hnd (by omega)
            by_cases hv1 : l1.getVariable = v
            · exact one_le_countAtLevel (l := l2)
                (mem_resolve.2 ⟨Or.inl m2, fun h => hne (by rw [hv1, h])⟩) hl2
            · exact one_le_countAtLevel (l := l1) (mem_resolve.2 ⟨Or.inl m1, hv1⟩) hl1
          have himp1 : ∀ x ∈ seenVariables (resolve W r.getAntecedent v), x ∉ t →
              ∀ rx ∈ a.find x, rx.getAntecedent = [] := by
            intro x hx hxt rx hrx
            obtain ⟨l, hl, rfl⟩ := List.mem_map.1 hx
            obtain ⟨hm, hne⟩ := mem_resolve.1 hl
            rcases hm with hm | hm
            · refine himp _ (List.mem_map_of_mem _ hm) ?_ rx hrx
              intro hmem
              rcases List.mem_cons.1 hmem with h | h
              · exact hne h
              · exact hxt h
            · have := h4.entry4 hpre.symm r hf l hm hne
              exact absurd this.1 hxt
          obtain ⟨fuel, W1, hrun, hcount, hfal, hnd1⟩ :=
            ih hsuf2 _ hW1 (nodup_resolve _ _ _) hc1 himp1
          refine ⟨fuel + 1, W1, ?_, hcount, hfal, Or.inr ?_⟩
          · intro n hn
            obtain ⟨m, rfl⟩ : ∃ m, n = m + 1 := ⟨n - 1, by omega⟩
            rw [analysisLoop, countAtCurrentLevel_done W 0 hass]
            simp only [zero_add]
            rw [if_neg (by omega)]
            simp only [hfind, hf]
            exact hrun m (by omega)
          · rcases hnd1 with h | h
            · rw [h]; exact nodup_resolve _ _ _
            · exact h
        · -- `v` is not a candidate: the candidates lie in `t`
          apply ih hsuf2 W hW hnd hc
          intro x hx hxt rx hrx
          by_cases hxv : x = v
          · subst hxv
            rw [hf] at hrx
            simp only [Option.mem_def, Option.some.injEq] at hrx
            subst hrx
            by_contra hne
            exact hcase ⟨hx, hne⟩
          · exact himp x hx (fun hmem => by
              rcases List.mem_cons.1 hmem with h | h
              · exact hxv h
              · exact hxt h) rx hrx

theorem conflict_analysis_uip {a : Assignments} {K : Clause} (hd : 0 < a.decision_level)
    (h1 : T1 a) (h3 : T3 a) (h4 : T4 a) (hK : falsified a K)
    (hlev : ∃ l ∈ K, a.levelOf l.getVariable = some a.decision_level) (hnd : K.Nodup) :
    ∃ fuel L W, (∀ n, fuel ≤ n → conflict_analysis n K a = Run.done (L, W)) ∧
      countAtLevel a a.decision_level W = 1 ∧ falsified a W ∧ (W = K ∨ W.Nodup) := by
  obtain ⟨l, hl, hld⟩ := hlev
  obtain ⟨fuel, W, hrun, hc, hf, hn⟩ :=
    analysisLoop_terminates h1 h3 h4 hd a.trail (List.suffix_refl _) K hK hnd
      (one_le_countAtLevel hl hld)
      (fun x _ hx r hr => by
        have := h1.mem_trail.not.1 hx
        rw [not_not] at this
        rw [this] at hr
        cases hr)
  refine ⟨fuel, backtrackLevel (collectLevels a W), W, fun n hn => ?_, hc, hf, hn⟩
  unfold conflict_analysis
  rw [if_neg (by simpa [Assignments.getDecisionLevel] using ne_of_gt hd), hrun n hn]

theorem levelsBounded.levelOf {a : Assignments} (h : levelsBounded a) {v x : Int}
    (hx : a.levelOf v = some x) : 0 ≤ x ∧ x ≤ a.decision_level := by
  obtain ⟨r, hr, rfl⟩ := levelOf_eq_some.1 hx
  have : (⟨v, r⟩ : Sigma fun _ : Int => Assignment) ∈ a.store.entries :=
    AList.mem_lookup_iff.1 hr
  exact h _ this

theorem conflict_analysis_level_bounded {fuel : Nat} {K : Clause} {a : Assignments} {L : Int}
    {W : Clause} (hd : 0 < a.decision_level) (hb : levelsBounded a)
    (h : conflict_analysis fuel K a = Run.done (L, W)) :
    ((∀ l ∈ W, ∀ x ∈ a.levelOf l.getVariable, x = a.decision_level) → L = 0) ∧
    ((∃ l ∈ W, ∃ x ∈ a.levelOf l.getVariable, x ≠ a.decision_level) →
      (∃ l ∈ W, a.levelOf l.getVariable = some L ∧ L ≠ a.decision_level) ∧
        ∀ l ∈ W, ∀ x ∈ a.levelOf l.getVariable, x ≠ a.decision_level → x ≤ L) ∧
    0 ≤ L ∧ L < a.decision_level := by
  obtain ⟨h1, h2, h3⟩ := conflict_analysis_level hd h
  have hlt : ∀ {v x}, a.levelOf v = some x → (x ≠ a.decision_level ↔ x < a.decision_level) :=
    fun hx => ⟨fun hne => lt_of_le_of_ne (hb.levelOf hx).2 hne, fun hlt => ne_of_lt hlt⟩
  refine ⟨?_, ?_, ?_, h3⟩
  · intro hall
    exact h1 fun l hl x hx hlt => absurd (hall l hl x hx) (ne_of_lt hlt)
  · rintro ⟨l, hl, x, hx, hne⟩
    obtain ⟨⟨l1, hl1, hL⟩, hmax⟩ := h2 ⟨l, hl, x, hx, (hlt hx).1 hne⟩
    exact ⟨⟨l1, hl1, hL, ne_of_lt h3⟩, fun l2 hl2 y hy hyne => hmax l2 hl2 y hy ((hlt hy).1 hyne)⟩
  · by_cases hex : ∃ l ∈ W, ∃ x ∈ a.levelOf l.getVariable, x < a.decision_level
    · obtain ⟨⟨l1, -, hL⟩, -⟩ := h2 hex
      exact (hb.levelOf hL).1
    · rw [h1 fun l hl x hx hlt => hex ⟨l, hl, x, hx, hlt⟩]

/-! ## The invariant of the solver: stores that agree -/

theorem value_congr {a b : Assignments} {l : Literal}
    (h : b.find l.getVariable = a.find l.getVariable) : b.value l = a.value l := by
  simp [Assignments.value, h]

theorem levelOf_congr {a b : Assignments} {v : Int} (h : b.find v = a.find v) :
    b.levelOf v = a.levelOf v := by
  simp [Assignments.levelOf, h]

theorem T2At_agree {a b : Assignments} {v : Int} {t : List Int}
    (h : ∀ u ∈ v :: t, b.find u = a.find u) (hp : T2At a v t) : T2At b v t := by
  intro u hu lu hlu lv hlv
  rw [levelOf_congr (h u (List.mem_cons_of_mem _ hu))] at hlu
  rw [levelOf_congr (h v (List.mem_cons_self _ _))] at hlv
  exact hp u hu lu hlu lv hlv

theorem T3At_agree {a b : Assignments} {v : Int} {t : List Int}
    (h : ∀ u ∈ v :: t, b.find u = a.find u) (hp : T3At a v t) : T3At b v t := by
  intro r hr hpos
  rw [h v (List.mem_cons_self _ _)] at hr
  rw [hp r hr hpos]
  constructor
  · intro hall u hu
    rw [levelOf_congr (h u (List.mem_cons_of_mem _ hu))]
    exact hall u hu
  · intro hall u hu
    rw [← levelOf_congr (h u (List.mem_cons_of_mem _ hu))]
    exact hall u hu

theorem T4At_agree {a b : Assignments} {v : Int} {t : List Int}
    (h : ∀ u ∈ v :: t, b.find u = a.find u) (hp : T4At a v t) : T4At b v t := by
  intro r hr l hl hne
  rw [h v (List.mem_cons_self _ _)] at hr
  obtain ⟨h1, h2, h3, h4⟩ := hp r hr l hl hne
  have hl' := h l.getVariable (List.mem_cons_of_mem _ h1)
  refine ⟨h1, by rw [hl']; exact h2, by rw [value_congr hl']; exact h3, ?_⟩
  rw [levelOf_congr hl']
  exact h4

theorem onTrail_agree {P : Assignments → Int → List Int → Prop} {a b : Assignments}
    (hP : ∀ v t, (∀ u ∈ v :: t, b.find u = a.find u) → P a v t → P b v t) :
    ∀ t : List Int, (∀ u ∈ t, b.find u = a.find u) → onTrail (P a) t → onTrail (P b) t
  | [], _, _ => trivial
  | v :: t, h, hp =>
      ⟨hP v t h hp.1, onTrail_agree hP t (fun u hu => h u (List.mem_cons_of_mem _ hu)) hp.2⟩

theorem positionAt_agree {a b : Assignments} {v : Int} {t : List Int}
    (h : ∀ u ∈ v :: t, b.find u = a.find u) (hp : positionAt a v t) : positionAt b v t := by
  intro x hx
  rw [levelOf_congr (h v (List.mem_cons_self _ _))] at hx
  exact hp x hx

theorem length_filter_le_of_imp {α : Type} (p q : α → Bool) :
    ∀ l : List α, (∀ x ∈ l, p x = true → q x = true) →
      (l.filter p).length ≤ (l.filter q).length
  | [], _ => by simp
  | y :: l, h => by
    have ih := length_filter_le_of_imp p q l fun x hx => h x (List.mem_cons_of_mem _ hx)
    have hy := h y (List.mem_cons_self _ _)
    cases hp : p y with
    | false =>
      cases hq : q y with
      | false => simpa [List.filter, hp, hq] using ih
      | true => simp only [List.filter, hp, hq, List.length_cons]; omega
    | true =>
      simp only [List.filter, hp, hy hp, List.length_cons]
      omega

theorem closed_mono {a b : Assignments} {k : Int}
    (hkeep : ∀ v x, a.levelOf v = some x → x ≤ k → b.find v = a.find v)
    (hopen : ∀ v, (∀ x ∈ a.levelOf v, k < x) → ∀ y ∈ b.levelOf v, k < y) {c : Clause}
    (h : prefixSat a k c ∨ 2 ≤ openCount a k c) :
    prefixSat b k c ∨ 2 ≤ openCount b k c := by
  rcases h with ⟨l, hl, hv, x, hx, hxk⟩ | h
  · left
    have hf := hkeep _ x hx hxk
    exact ⟨l, hl, by rw [value_congr hf]; exact hv, x, by rw [levelOf_congr hf]; exact hx, hxk⟩
  · right
    refine le_trans h (length_filter_le_of_imp _ _ c ?_)
    intro l _ hl
    simp only [decide_eq_true_eq] at hl ⊢
    exact hopen _ hl

theorem two_le_length_of_mem {α : Type} {l : List α} {x y : α} (hx : x ∈ l) (hy : y ∈ l)
    (hxy : x ≠ y) : 2 ≤ l.length := by
  match l, hx, hy with
  | [], hx, _ => cases hx
  | [z], hx, hy =>
    rw [List.mem_singleton] at hx hy
    exact absurd (hx.trans hy.symm) hxy
  | _ :: _ :: _, _, _ => simp

theorem unit_others {a : Assignments} {c : Clause} {ul : Literal}
    (hone : unassignedCount a c = 1) (hul : ul ∈ c) (hun : a.find ul.getVariable = none) :
    ∀ l ∈ c, (l.getVariable ≠ ul.getVariable → a.find l.getVariable ≠ none) ∧
      (l.getVariable = ul.getVariable → l = ul) := by
  obtain ⟨pre, x, post, rfl, hx, hall⟩ := unassignedCount_eq_one.1 hone
  have hulx : ul = x := by
    simp only [List.mem_append, List.mem_cons] at hul
    rcases hul with h | h | h
    · exact absurd hun (hall ul (List.mem_append_left _ h))
    · exact h
    · exact absurd hun (hall ul (List.mem_append_right _ h))
  subst hulx
  intro l hl
  simp only [List.mem_append, List.mem_cons] at hl
  have key : l = ul ∨ a.find l.getVariable ≠ none := by
    rcases hl with h | h | h
    · exact Or.inr (hall l (List.mem_append_left _ h))
    · exact Or.inl h
    · exact Or.inr (hall l (List.mem_append_right _ h))
  constructor
  · intro hne
    rcases key with h | h
    · rw [h] at hne; exact absurd rfl hne
    · exact h
  · intro heq
    rcases key with h | h
    · exact h
    · rw [heq] at h; exact absurd hun h

theorem openCount_gt_unassigned {a : Assignments} {k : Int} {c : Clause}
    (h2 : unassignedCount a c < openCount a k c) :
    ∃ l ∈ c, ∃ x, a.levelOf l.getVariable = some x ∧ k < x := by
  by_contra hcon
  push_neg at hcon
  have : openCount a k c ≤ unassignedCount a c := by
    apply length_filter_le_of_imp
    intro l hl hopen
    simp only [decide_eq_true_eq] at hopen ⊢
    cases hlev : a.levelOf l.getVariable with
    | none => exact levelOf_eq_none.1 hlev
    | some x => exact absurd (hopen x hlev) (not_lt.2 (hcon l hl x hlev))
  omega

/-! ## The invariant of the solver: assigning a unit literal -/

theorem T1_assign {a : Assignments} (h : T1 a) {v : Int} (hv : a.find v = none) (b : Bool)
    (c : Clause) : T1 (a.assign v b c) := by
  have hk : v ∉ a.store.keys := fun hm => (find_ne_none_iff_mem_keys.2 hm) hv
  unfold T1 Assignments.assign
  simp only [AList.keys_insert, List.erase_of_not_mem hk]
  exact List.Perm.cons v h

theorem levelsBounded_assign {a : Assignments} (h : levelsBounded a) {v : Int}
    (hv : a.find v = none) (hd : 0 ≤ a.decision_level) (b : Bool) (c : Clause) :
    levelsBounded (a.assign v b c) := by
  have hk : v ∉ a.store := by
    rw [AList.mem_keys]
    exact fun hm => (find_ne_none_iff_mem_keys.2 hm) hv
  intro e he
  simp only [Assignments.assign, AList.insert_entries_of_neg hk, List.mem_cons] at he ⊢
  rcases he with rfl | he
  · exact ⟨hd, le_refl _⟩
  · exact h e he

theorem not_mem_trail_of_find_none {a : Assignments} (h : T1 a) {v : Int}
    (hv : a.find v = none) : v ∉ a.trail := fun hm => (h.mem_trail.1 hm) hv

theorem agree_assign {a : Assignments} (h : T1 a) {v : Int} (hv : a.find v = none) (b : Bool)
    (c : Clause) : ∀ u ∈ a.trail, (a.assign v b c).find u = a.find u := by
  intro u hu
  apply find_assign_ne
  rintro rfl
  exact not_mem_trail_of_find_none h hv hu

/-- Assigning the only unassigned literal of a clause of the formula, all of whose other
literals are false, keeps the invariant; above level 0 the clause must have another literal
of the current level. -/
theorem Inv.assign_unit {F0 f : Formula} {a : Assignments} (h : Inv F0 f a) {c : Clause}
    {ul : Literal} (hc : c ∈ f.clauses) (hul : ul ∈ c) (hun : a.find ul.getVariable = none)
    (hfalse : ∀ l ∈ c, a.value l = false) (hone : unassignedCount a c = 1)
    (hlev : 0 < a.decision_level →
      ∃ l ∈ c, l.getVariable ≠ ul.getVariable ∧
        a.levelOf l.getVariable = some a.decision_level) :
    Inv F0 f (a.assign ul.getVariable (!ul.isNegated) c) := by
  have hagree := agree_assign h.t1 hun (!ul.isNegated) c
  have hnt := not_mem_trail_of_find_none h.t1 hun
  have hothers := unit_others hone hul hun
  have hself := find_assign_self a ul.getVariable (!ul.isNegated) c
  have hne : ∀ {u : Int}, a.find u ≠ none → u ≠ ul.getVariable := by
    rintro u hu rfl
    exact hu hun
  have hfind : ∀ {u : Int}, a.find u ≠ none →
      (a.assign ul.getVariable (!ul.isNegated) c).find u = a.find u :=
    fun hu => find_assign_ne a _ c (hne hu)
  have hcases : ∀ u r, r ∈ (a.assign ul.getVariable (!ul.isNegated) c).find u →
      (u = ul.getVariable ∧ r = ⟨!ul.isNegated, c, a.decision_level⟩) ∨
        (u ≠ ul.getVariable ∧ r ∈ a.find u) := by
    intro u r hr
    by_cases hu : u = ul.getVariable
    · subst hu
      rw [hself] at hr
      simp only [Option.mem_def, Option.some.injEq] at hr
      exact Or.inl ⟨rfl, hr.symm⟩
    · rw [find_assign_ne a _ c hu] at hr
      exact Or.inr ⟨hu, hr⟩
  have hlevbound : ∀ {u : Int} {x : Int}, a.levelOf u = some x → x ≤ a.decision_level :=
    fun hx => (h.bounded.levelOf hx).2
  refine
    { vars := h.vars
      learned := h.learned
      entailed := h.entailed
      clauseVars := h.clauseVars
      t1 := T1_assign h.t1 hun _ _
      keys := ?_
      bounded := levelsBounded_assign h.bounded hun h.level _ _
      level := h.level
      t2 := ?_
      t3 := ?_
      t4 := ?_
      ante := ?_
      decisions := ?_
      sameLevel := ?_
      closed := ?_
      position := ?_
      levelLe := ?_ }
  · -- keys
    intro v hv
    rcases List.mem_cons.1 hv with rfl | hv
    · exact h.clauseVars c hc ul hul
    · exact h.keys v hv
  · -- t2
    refine ⟨?_, onTrail_agree (P := T2At) (fun v t => T2At_agree) _ hagree h.t2⟩
    intro u hu lu hlu lv hlv
    rw [levelOf_assign_self] at hlv
    rw [levelOf_congr (hagree u hu)] at hlu
    simp only [Option.mem_def, Option.some.injEq] at hlv
    rw [← hlv]
    exact hlevbound hlu
  · -- t3
    refine ⟨?_, onTrail_agree (P := T3At) (fun v t => T3At_agree) _ hagree h.t3⟩
    intro r hr hpos
    rw [hself] at hr
    simp only [Option.mem_def, Option.some.injEq] at hr
    subst hr
    simp only at hpos ⊢
    constructor
    · intro he
      rw [he] at hul
      cases hul
    · intro hall
      exfalso
      obtain ⟨l, hl, hlne, hll⟩ := hlev hpos
      have hlf : a.find l.getVariable ≠ none := (hothers l hl).1 hlne
      exact hall l.getVariable (h.t1.mem_trail.2 hlf)
        (by rw [levelOf_congr (hfind hlf)]; exact hll)
  · -- t4
    refine ⟨?_, onTrail_agree (P := T4At) (fun v t => T4At_agree) _ hagree h.t4⟩
    intro r hr l hl hlne
    rw [hself] at hr
    simp only [Option.mem_def, Option.some.injEq] at hr
    subst hr
    simp only at hl ⊢
    have hlf : a.find l.getVariable ≠ none := (hothers l hl).1 hlne
    refine ⟨h.t1.mem_trail.2 hlf, by rw [hfind hlf]; exact hlf, ?_, ?_⟩
    · rw [value_assign_ne a _ c hlne]
      exact hfalse l hl
    · intro ll hll
      rw [levelOf_congr (hfind hlf)] at hll
      exact hlevbound hll
  · -- ante
    intro v r hr
    rcases hcases v r hr with ⟨rfl, rfl⟩ | ⟨hv, hr⟩
    · right
      refine ⟨hc, ?_⟩
      intro l hl hlv
      have : l = ul := (hothers l hl).2 hlv
      subst this
      exact value_assign_self a l c
    · rcases h.ante v r hr with he | ⟨h1, h2⟩
      · exact Or.inl he
      · right
        refine ⟨h1, ?_⟩
        intro l hl hlv
        rw [value_assign_ne a _ c (by rw [hlv]; exact hv)]
        exact h2 l hl hlv
  · -- decisions
    intro v r hr he
    rcases hcases v r hr with ⟨rfl, rfl⟩ | ⟨_, hr⟩
    · simp only at he
      rw [he] at hul
      cases hul
    · exact h.decisions v r hr he
  · -- sameLevel
    intro v r hr hpos hne'
    rcases hcases v r hr with ⟨rfl, rfl⟩ | ⟨_, hr⟩
    · obtain ⟨l, hl, hlne, hll⟩ := hlev hpos
      have hlf : a.find l.getVariable ≠ none := (hothers l hl).1 hlne
      exact ⟨l, hl, hlne, by rw [levelOf_congr (hfind hlf)]; exact hll⟩
    · obtain ⟨l, hl, hlne, hll⟩ := h.sameLevel v r hr hpos hne'
      have hlf : a.find l.getVariable ≠ none := by
        intro hn
        rw [Assignments.levelOf, hn] at hll
        cases hll
      exact ⟨l, hl, hlne, by rw [levelOf_congr (hfind hlf)]; exact hll⟩
  · -- closed
    intro k hk0 hkd c' hc'
    refine closed_mono ?_ ?_ (h.closed k hk0 hkd c' hc')
    · intro v x hx _
      apply hfind
      intro hn
      rw [Assignments.levelOf, hn] at hx
      cases hx
    · intro v hopen y hy
      by_cases hv : v = ul.getVariable
      · subst hv
        rw [levelOf_assign_self] at hy
        simp only [Option.mem_def, Option.some.injEq] at hy
        rw [← hy]
        exact hkd
      · rw [levelOf_assign_ne a _ c hv] at hy
        exact hopen y hy
  · -- position
    refine ⟨?_, onTrail_agree (P := positionAt) (fun v t => positionAt_agree) _ hagree
      h.position⟩
    intro x hx
    rw [levelOf_assign_self] at hx
    simp only [Option.mem_def, Option.some.injEq] at hx
    rw [← hx]
    have := h.levelLe
    omega
  · -- levelLe
    have := h.levelLe
    simp only [Assignments.assign, List.length_cons]
    push_cast
    omega

/-! ## The invariant of the solver: unit propagation -/

theorem decision_level_assign (a : Assignments) (v : Int) (b : Bool) (c : Clause) :
    (a.assign v b c).decision_level = a.decision_level := rfl

theorem Inv.propagate_unit {F0 f : Formula} {a : Assignments} (h : Inv F0 f a) {c : Clause}
    (dflt : Literal) (hc : c ∈ f.clauses)
    (hs : (checkClauseStatus c a dflt).1 = ClauseStatus.UNIT) :
    Inv F0 f (a.assign (checkClauseStatus c a dflt).2.getVariable
      (!(checkClauseStatus c a dflt).2.isNegated) c) := by
  obtain ⟨hul, hun, hfalse, hone⟩ := checkClauseStatus_unit hs
  refine h.assign_unit hc hul hun hfalse hone ?_
  intro hpos
  have hcl := h.closed (a.decision_level - 1) (by omega) (by omega) c hc
  rcases hcl with ⟨l, hl, hv, -⟩ | h2
  · rw [hfalse l hl] at hv
    cases hv
  · obtain ⟨l, hl, x, hx, hlt⟩ :=
      openCount_gt_unassigned (a := a) (k := a.decision_level - 1) (c := c) (by omega)
    have hxd := (h.bounded.levelOf hx).2
    have hxeq : x = a.decision_level := by omega
    subst hxeq
    refine ⟨l, hl, ?_, hx⟩
    intro hv
    rw [Assignments.levelOf, hv, hun] at hx
    cases hx

theorem propagatePass_inv {F0 f : Formula} (dflt : Literal) :
    ∀ (cs : List Clause) (a : Assignments) (ch : Bool), (∀ c ∈ cs, c ∈ f.clauses) →
      Inv F0 f a →
      match propagatePass dflt a cs ch with
      | Pass.conflict a1 _ => Inv F0 f a1 ∧ a1.decision_level = a.decision_level
      | Pass.scanned a1 _ => Inv F0 f a1 ∧ a1.decision_level = a.decision_level
  | [], a, ch, _, h => by
    rw [propagatePass]
    exact ⟨h, rfl⟩
  | c :: cs, a, ch, hcs, h => by
    have hc := hcs c (List.mem_cons_self _ _)
    have hcs' : ∀ x ∈ cs, x ∈ f.clauses := fun x hx => hcs x (List.mem_cons_of_mem _ hx)
    rw [propagatePass_cons]
    split_ifs with h1 h2
    · have ih := propagatePass_inv dflt cs _ true hcs' (h.propagate_unit dflt hc h1)
      revert ih
      cases propagatePass dflt _ cs true with
      | conflict a1 K => exact fun ih => ih
      | scanned a1 ch1 => exact fun ih => ih
    · exact ⟨h, rfl⟩
    · exact propagatePass_inv dflt cs a ch hcs' h

theorem unitPropagate_inv {F0 f : Formula} (dflt : Literal) :
    ∀ (fuel : Nat) (a : Assignments) (st : UnitPropagationStatus) (K : Clause)
      (a1 : Assignments), Inv F0 f a → unitPropagate dflt fuel a f = Run.done (st, K, a1) →
      Inv F0 f a1 ∧ a1.decision_level = a.decision_level
  | 0, _, _, _, _, _, h => by simp [unitPropagate] at h
  | fuel + 1, a, st, K, a1, hinv, h => by
    rw [unitPropagate_succ] at h
    have hp := propagatePass_inv dflt f.clauses a false (fun c hc => hc) hinv
    cases hpass : propagatePass dflt a f.clauses false with
    | conflict a2 K2 =>
      rw [hpass] at h hp
      simp only [Run.done.injEq, Prod.mk.injEq] at h
      obtain ⟨-, -, rfl⟩ := h
      exact hp
    | scanned a2 ch =>
      rw [hpass] at h hp
      cases ch with
      | true =>
        obtain ⟨h1, h2⟩ := unitPropagate_inv dflt fuel a2 st K a1 hp.1 (by simpa using h)
        exact ⟨h1, h2.trans hp.2⟩
      | false =>
        simp only [Bool.false_eq_true, if_false, Run.done.injEq, Prod.mk.injEq] at h
        obtain ⟨-, -, rfl⟩ := h
        exact hp

theorem unitPropagate_status {dflt : Literal} {fuel : Nat} {a : Assignments} {f : Formula}
    {st : UnitPropagationStatus} {K : Clause} {a1 : Assignments}
    (h : unitPropagate dflt fuel a f = Run.done (st, K, a1)) :
    (st = UnitPropagationStatus.UNIT_UNRESOLVED → propagated f a1) ∧
      (st = UnitPropagationStatus.UNIT_CONFLICT → K ∈ f.clauses ∧ falsified a1 K) := by
  constructor
  · rintro rfl
    exact unitPropagate_unresolved dflt fuel a f K a1 h
  · rintro rfl
    have := unitPropagate_conflict dflt fuel a f K a1 h
    exact ⟨this.1, this.2.2.1⟩

/-! ## The invariant of the solver: the decide step -/

theorem find_increaseDecisionLevel (a : Assignments) (v : Int) :
    a.increaseDecisionLevel.find v = a.find v := rfl

theorem exists_unassigned {F0 f : Formula} {a : Assignments} (h : Inv F0 f a)
    (hnd : F0.getVariables.Nodup) (hall : allAssigned f a = false) :
    ∃ v ∈ f.getVariables, a.find v = none := by
  by_contra hcon
  push_neg at hcon
  have hsub1 : f.getVariables ⊆ a.store.keys := fun v hv =>
    find_ne_none_iff_mem_keys.1 (hcon v hv)
  have hsub2 : a.store.keys ⊆ f.getVariables := fun v hv => by
    rw [h.vars]
    exact h.keys v (h.t1.mem_iff.2 hv)
  have hnd' : f.getVariables.Nodup := by rw [h.vars]; exact hnd
  have h1 := (hnd'.subperm hsub1).length_le
  have h2 := (a.store.keys_nodup.subperm hsub2).length_le
  have : f.getVariables.length = a.size := le_antisymm h1 h2
  simp [allAssigned, this] at hall

theorem pickVariable_spec {F0 f : Formula} {a : Assignments} (h : Inv F0 f a)
    (hnd : F0.getVariables.Nodup) (hall : allAssigned f a = false) :
    a.find (pickVariable f a.increaseDecisionLevel).1 = none ∧
      (pickVariable f a.increaseDecisionLevel).1 ∈ F0.getVariables ∧
      (pickVariable f a.increaseDecisionLevel).2 = true := by
  unfold pickVariable
  cases hf : f.getVariables.find? (fun var => a.increaseDecisionLevel.find var = none) with
  | none =>
    exfalso
    obtain ⟨v, hv, hvn⟩ := exists_unassigned h hnd hall
    rw [List.find?_eq_none] at hf
    exact hf v hv (by simpa [find_increaseDecisionLevel] using hvn)
  | some v =>
    have h1 := List.find?_some hf
    have h2 := List.mem_of_find?_eq_some hf
    simp only [decide_eq_true_eq, find_increaseDecisionLevel] at h1
    exact ⟨h1, by rw [← h.vars]; exact h2, rfl⟩

theorem all_assigned_of_allAssigned {F0 f : Formula} {a : Assignments} (h : Inv F0 f a)
    (hall : allAssigned f a = true) :
    ∀ v, v ∈ a.store.keys ↔ v ∈ F0.getVariables := by
  have hlen : F0.getVariables.length = a.store.keys.length := by
    simpa [allAssigned, Assignments.size, h.vars] using hall
  have hsub : a.store.keys ⊆ F0.getVariables := fun v hv => h.keys v (h.t1.mem_iff.2 hv)
  have hperm : a.store.keys.Perm F0.getVariables :=
    ((a.store.keys_nodup.subperm hsub).perm_of_length_le (le_of_eq hlen))
  exact fun v => hperm.mem_iff

/-- The decide step keeps the invariant: the level is increased and an unassigned variable
of the formula is assigned with an empty antecedent, after propagation has completed. -/
theorem Inv.decide {F0 f : Formula} {a : Assignments} (h : Inv F0 f a) (hp : propagated f a)
    {v : Int} (hun : a.find v = none) (hv : v ∈ F0.getVariables) (b : Bool) :
    Inv F0 f (a.increaseDecisionLevel.assign v b []) := by
  have ht1 : T1 a.increaseDecisionLevel := h.t1
  have hagree : ∀ u ∈ a.trail, (a.increaseDecisionLevel.assign v b []).find u = a.find u :=
    agree_assign ht1 hun b []
  have hself : (a.increaseDecisionLevel.assign v b []).find v =
      some ⟨b, [], a.decision_level + 1⟩ := find_assign_self _ v b []
  have hfind : ∀ {u : Int}, a.find u ≠ none →
      (a.increaseDecisionLevel.assign v b []).find u = a.find u := by
    intro u hu
    apply find_assign_ne
    rintro rfl
    exact hu hun
  have hlevself : (a.increaseDecisionLevel.assign v b []).levelOf v =
      some (a.decision_level + 1) := levelOf_assign_self _ v b []
  have hcases : ∀ u r, r ∈ (a.increaseDecisionLevel.assign v b []).find u →
      (u = v ∧ r = ⟨b, [], a.decision_level + 1⟩) ∨ (u ≠ v ∧ r ∈ a.find u) := by
    intro u r hr
    by_cases hu : u = v
    · subst hu
      rw [hself] at hr
      simp only [Option.mem_def, Option.some.injEq] at hr
      exact Or.inl ⟨rfl, hr.symm⟩
    · rw [find_assign_ne _ _ _ hu] at hr
      exact Or.inr ⟨hu, hr⟩
  have hlevbound : ∀ {u : Int} {x : Int}, a.levelOf u = some x → x ≤ a.decision_level :=
    fun hx => (h.bounded.levelOf hx).2
  have hlevel := h.level
  refine
    { vars := h.vars
      learned := h.learned
      entailed := h.entailed
      clauseVars := h.clauseVars
      t1 := T1_assign ht1 hun _ _
      keys := ?_
      bounded := ?_
      level := ?_
      t2 := ?_
      t3 := ?_
      t4 := ?_
      ante := ?_
      decisions := ?_
      sameLevel := ?_
      closed := ?_
      position := ?_
      levelLe := ?_ }
  · intro u hu
    rcases List.mem_cons.1 hu with rfl | hu
    · exact hv
    · exact h.keys u hu
  · have hk : v ∉ a.store := by
      rw [AList.mem_keys]
      exact fun hm => (find_ne_none_iff_mem_keys.2 hm) hun
    intro e he
    simp only [Assignments.assign, Assignments.increaseDecisionLevel,
      AList.insert_entries_of_neg hk, List.mem_cons] at he ⊢
    rcases he with rfl | he
    · simp only
      omega
    · have := h.bounded e he
      omega
  · show 0 ≤ a.decision_level + 1
    omega
  · refine ⟨?_, onTrail_agree (P := T2At) (fun v t => T2At_agree) _ hagree h.t2⟩
    intro u hu lu hlu lv hlv
    rw [hlevself] at hlv
    rw [levelOf_congr (hagree u hu)] at hlu
    simp only [Option.mem_def, Option.some.injEq] at hlv
    have := hlevbound hlu
    omega
  · refine ⟨?_, onTrail_agree (P := T3At) (fun v t => T3At_agree) _ hagree h.t3⟩
    intro r hr _
    rw [hself] at hr
    simp only [Option.mem_def, Option.some.injEq] at hr
    subst hr
    simp only [true_iff]
    intro u hu hlu
    rw [levelOf_congr (hagree u hu)] at hlu
    have := hlevbound hlu
    omega
  · refine ⟨?_, onTrail_agree (P := T4At) (fun v t => T4At_agree) _ hagree h.t4⟩
    intro r hr l hl _
    rw [hself] at hr
    simp only [Option.mem_def, Option.some.injEq] at hr
    subst hr
    cases hl
  · intro u r hr
    rcases hcases u r hr with ⟨rfl, rfl⟩ | ⟨hu, hr⟩
    · exact Or.inl rfl
    · rcases h.ante u r hr with he | ⟨h1, h2⟩
      · exact Or.inl he
      · right
        refine ⟨h1, ?_⟩
        intro l hl hlv
        rw [value_assign_ne _ _ _ (by rw [hlv]; exact hu)]
        exact h2 l hl hlv
  · intro u r hr he
    rcases hcases u r hr with ⟨rfl, rfl⟩ | ⟨_, hr⟩
    · show 0 < a.decision_level + 1
      omega
    · exact h.decisions u r hr he
  · intro u r hr hpos hne
    rcases hcases u r hr with ⟨rfl, rfl⟩ | ⟨_, hr⟩
    · exact absurd rfl hne
    · obtain ⟨l, hl, hlne, hll⟩ := h.sameLevel u r hr hpos hne
      have hlf : a.find l.getVariable ≠ none := by
        intro hn
        rw [Assignments.levelOf, hn] at hll
        cases hll
      exact ⟨l, hl, hlne, by rw [levelOf_congr (hfind hlf)]; exact hll⟩
  · intro k hk0 hkd c hc
    have hkd' : k < a.decision_level + 1 := hkd
    by_cases hk : k < a.decision_level
    · refine closed_mono ?_ ?_ (h.closed k hk0 hk c hc)
      · intro u x hx _
        apply hfind
        intro hn
        rw [Assignments.levelOf, hn] at hx
        cases hx
      · intro u hopen y hy
        by_cases hu : u = v
        · subst hu
          rw [hlevself] at hy
          simp only [Option.mem_def, Option.some.injEq] at hy
          omega
        · rw [levelOf_assign_ne _ _ _ hu] at hy
          exact hopen y hy
    · have hkeq : k = a.decision_level := by omega
      subst hkeq
      rcases hp c hc ⟨0, false⟩ with hs | hs
      · left
        obtain ⟨l, hl, hlf, hlv⟩ := (checkClauseStatus_classes c a ⟨0, false⟩).1.1 hs
        cases hlev : a.levelOf l.getVariable with
        | none => exact absurd (levelOf_eq_none.1 hlev) hlf
        | some x =>
          refine ⟨l, hl, ?_, x, ?_, hlevbound hlev⟩
          · rw [value_congr (hfind hlf)]; exact hlv
          · rw [levelOf_congr (hfind hlf)]; exact hlev
      · right
        have h2 := ((checkClauseStatus_classes c a ⟨0, false⟩).2.2.2.2.1 hs).2
        refine le_trans h2 (length_filter_le_of_imp _ _ c ?_)
        intro l _ hl
        simp only [decide_eq_true_eq] at hl ⊢
        intro y hy
        by_cases hu : l.getVariable = v
        · rw [hu, hlevself] at hy
          simp only [Option.mem_def, Option.some.injEq] at hy
          omega
        · rw [levelOf_assign_ne _ _ _ hu] at hy
          have hy' : y ∈ a.levelOf l.getVariable := hy
          rw [Assignments.levelOf, hl] at hy'
          cases hy'
  · refine ⟨?_, onTrail_agree (P := positionAt) (fun v t => positionAt_agree) _ hagree
      h.position⟩
    intro x hx
    rw [hlevself] at hx
    simp only [Option.mem_def, Option.some.injEq] at hx
    have := h.levelLe
    show x ≤ (a.trail.length : Int) + 1
    omega
  · have := h.levelLe
    show a.decision_level + 1 ≤ ((v :: a.trail).length : Int)
    simp only [List.length_cons]
    push_cast
    omega

/-! ## Backtracking -/

theorem lookup_foldl_erase : ∀ (popped : List Int) (store : AList fun _ : Int => Assignment)
    (u : Int),
    (popped.foldl (fun s w => s.erase w) store).lookup u =
      if u ∈ popped then none else store.lookup u
  | [], _, _ => by simp
  | v :: popped, store, u => by
    rw [List.foldl_cons, lookup_foldl_erase popped (store.erase v) u]
    by_cases hu : u ∈ popped
    · simp [hu]
    · by_cases huv : u = v
      · subst huv
        simp [hu, AList.lookup_erase]
      · simp [hu, huv, AList.lookup_erase_ne huv]

theorem backtrackLoop_spec (L : Int) :
    ∀ (trail : List Int) (store : AList fun _ : Int => Assignment), trail.Nodup →
      (∀ u ∈ trail, store.lookup u ≠ none) →
      ∃ popped kept, trail = popped ++ kept ∧
        backtrackLoop L trail store =
          Run.done (kept, popped.foldl (fun s w => s.erase w) store) ∧
        (∀ u ∈ popped, ∀ r ∈ store.lookup u, L < r.getDecisionLevel) ∧
        (∀ u ∈ kept.head?, ∀ r ∈ store.lookup u, r.getDecisionLevel ≤ L)
  | [], store, _, _ => ⟨[], [], rfl, rfl, by simp, by simp⟩
  | v :: t, store, hnd, hall => by
    rw [List.nodup_cons] at hnd
    cases hv : store.lookup v with
    | none => exact absurd hv (hall v (List.mem_cons_self _ _))
    | some r =>
      by_cases hle : r.getDecisionLevel ≤ L
      · refine ⟨[], v :: t, rfl, ?_, by simp, ?_⟩
        · rw [backtrackLoop]
          simp [hv, hle]
        · intro u hu r' hr'
          simp only [List.head?_cons, Option.mem_def, Option.some.injEq] at hu
          subst hu
          rw [hv] at hr'
          simp only [Option.mem_def, Option.some.injEq] at hr'
          subst hr'
          exact hle
      · have hne : ∀ u ∈ t, u ≠ v := fun u hu huv => hnd.1 (huv ▸ hu)
        obtain ⟨popped, kept, ht, hrun, hpop, hkept⟩ :=
          backtrackLoop_spec L t (store.erase v) hnd.2 (fun u hu => by
            rw [AList.lookup_erase_ne (hne u hu)]
            exact hall u (List.mem_cons_of_mem _ hu))
        refine ⟨v :: popped, kept, by rw [ht]; rfl, ?_, ?_, ?_⟩
        · rw [backtrackLoop]
          simp only [hv, hle, if_false]
          exact hrun
        · intro u hu r' hr'
          rcases List.mem_cons.1 hu with rfl | hu
          · rw [hv] at hr'
            simp only [Option.mem_def, Option.some.injEq] at hr'
            subst hr'
            exact not_le.1 hle
          · have hut : u ∈ t := by rw [ht]; exact List.mem_append_left _ hu
            exact hpop u hu r' (by rw [AList.lookup_erase_ne (hne u hut)]; exact hr')
        · intro u hu r' hr'
          have hut : u ∈ t := by
            rw [ht]
            exact List.mem_append_right _ (List.mem_of_mem_head? hu)
          exact hkept u hu r' (by rw [AList.lookup_erase_ne (hne u hut)]; exact hr')

/-- With T1 and T2, `backtrack` returns: the trail keeps its older part, the popped entries
are those of a level above the target, and the records of the kept entries are unchanged. -/
theorem backtrack_spec {a : Assignments} (h1 : T1 a) (h2 : T2 a) (L : Int) :
    ∃ a2 popped, backtrack a L = Run.done a2 ∧ a2.decision_level = L ∧
      a.trail = popped ++ a2.trail ∧
      (∀ u ∈ popped, ∀ x ∈ a.levelOf u, L < x) ∧
      (∀ u ∈ popped, a2.find u = none) ∧
      (∀ u ∈ a2.trail, a2.find u = a.find u) ∧
      (∀ u ∈ a2.trail, ∀ x ∈ a.levelOf u, x ≤ L) ∧
      (∀ u, u ∉ a.trail → a2.find u = none) ∧ T1 a2 := by
  have hnd := h1.nodup
  obtain ⟨popped, kept, ht, hrun, hpop, hkept⟩ :=
    backtrackLoop_spec L a.trail a.store hnd (fun u hu => h1.mem_trail.1 hu)
  have hdisj : ∀ u ∈ kept, u ∉ popped := by
    rw [ht] at hnd
    exact fun u hu hp => (List.disjoint_of_nodup_append hnd) hp hu
  have hfind : ∀ u, (popped.foldl (fun s w => s.erase w) a.store).lookup u =
      if u ∈ popped then none else a.find u := fun u => lookup_foldl_erase popped a.store u
  refine ⟨⟨popped.foldl (fun s w => s.erase w) a.store, L, kept⟩, popped, ?_, rfl, ht, ?_, ?_,
    ?_, ?_, ?_, ?_⟩
  · unfold backtrack
    rw [hrun]
  · intro u hu x hx
    obtain ⟨r, hr, rfl⟩ := levelOf_eq_some.1 hx
    exact hpop u hu r hr
  · intro u hu
    show (popped.foldl (fun s w => s.erase w) a.store).lookup u = none
    rw [hfind, if_pos hu]
  · intro u hu
    show (popped.foldl (fun s w => s.erase w) a.store).lookup u = a.find u
    rw [hfind, if_neg (hdisj u hu)]
  · intro u hu x hx
    show x ≤ L
    cases kept with
    | nil => cases hu
    | cons w rest =>
      have hw : ∀ y ∈ a.levelOf w, y ≤ L := by
        intro y hy
        obtain ⟨r, hr, rfl⟩ := levelOf_eq_some.1 hy
        exact hkept w (by simp) r hr
      rcases List.mem_cons.1 hu with rfl | hu
      · exact hw x hx
      · cases hlw : a.levelOf w with
        | none =>
          have : w ∈ a.trail := by rw [ht]; simp
          exact absurd (levelOf_eq_none.1 hlw) (h1.mem_trail.1 this)
        | some y =>
          exact le_trans (h2.entry2 ht u hu x hx y hlw) (hw y hlw)
  · intro u hu
    show (popped.foldl (fun s w => s.erase w) a.store).lookup u = none
    rw [hfind]
    split_ifs
    · rfl
    · by_contra hne
      exact hu (h1.mem_trail.2 hne)
  · unfold T1
    show kept.Perm (popped.foldl (fun s w => s.erase w) a.store).keys
    have hnd2 : kept.Nodup := by
      rw [ht] at hnd
      exact (List.nodup_append.1 hnd).2.1
    rw [List.perm_ext_iff_of_nodup hnd2 (AList.keys_nodup _)]
    intro u
    rw [← AList.mem_keys, ← AList.lookup_isSome, hfind]
    constructor
    · intro hu
      rw [if_neg (hdisj u hu)]
      have : u ∈ a.trail := by rw [ht]; exact List.mem_append_right _ hu
      exact Option.ne_none_iff_isSome.1 (h1.mem_trail.1 this)
    · intro hu
      split_ifs at hu with hp
      · cases hu
      · have : u ∈ a.trail := h1.mem_trail.2 (Option.ne_none_iff_isSome.2 hu)
        rw [ht] at this
        rcases List.mem_append.1 this with h | h
        · exact absurd h hp
        · exact h

/-! ## The invariant of the solver: backjumping and learning -/

theorem mem_clauses_addClause {f : Formula} {W c : Clause} :
    c ∈ (f.addClause W).clauses ↔ c ∈ f.clauses ∨ c = W := by
  simp [Formula.addClause]

/-- After the analysis of a conflict at level d > 0 has produced a falsified clause `W`,
entailed by the input, with exactly one literal at level d, backtracking to a level `L`
below d that bounds the other levels of `W` and appending `W` keeps the invariant; `W` is
then unit. -/
theorem Inv.backjump {F0 f : Formula} {a : Assignments} (h : Inv F0 f a) {W : Clause}
    {L : Int} (hW : falsified a W)
    (hWent : ∀ M, models M F0.clauses → Clause.holds M W)
    (hWvars : ∀ l ∈ W, l.getVariable ∈ F0.getVariables)
    (hone : countAtLevel a a.decision_level W = 1) (hL0 : 0 ≤ L) (hLd : L < a.decision_level)
    (hLmax : ∀ l ∈ W, ∀ x ∈ a.levelOf l.getVariable, x < a.decision_level → x ≤ L)
    (hLmem : 0 < L → ∃ l ∈ W, a.levelOf l.getVariable = some L) :
    ∃ a2 popped, backtrack a L = Run.done a2 ∧ Inv F0 (f.addClause W) a2 ∧
      a2.decision_level = L ∧ a.trail = popped ++ a2.trail ∧
      (∀ u ∈ popped, ∀ x ∈ a.levelOf u, L < x) ∧
      (∀ u ∈ a2.trail, a2.find u = a.find u) ∧
      (∀ l ∈ W, a2.value l = false) ∧ unassignedCount a2 W = 1 ∧
      (0 < L → ∃ l ∈ W, a2.levelOf l.getVariable = some L) := by
  obtain ⟨a2, popped, hrun, hlev, htrail, hpop, hpopnone, hkeep, hkeepL, hnone, ht1⟩ :=
    backtrack_spec h.t1 h.t2 L
  have hsplit : ∀ u x, a.levelOf u = some x → (L < x ∧ a2.find u = none) ∨
      (x ≤ L ∧ a2.find u = a.find u) := by
    intro u x hx
    have hut : u ∈ a.trail := h.t1.mem_trail.2 (by
      intro hn
      rw [Assignments.levelOf, hn] at hx
      cases hx)
    rw [htrail] at hut
    rcases List.mem_append.1 hut with hp | hk
    · exact Or.inl ⟨hpop u hp x hx, hpopnone u hp⟩
    · exact Or.inr ⟨hkeepL u hk x hx, hkeep u hk⟩
  have hkept_of_le : ∀ u x, a.levelOf u = some x → x ≤ L → a2.find u = a.find u := by
    intro u x hx hxL
    rcases hsplit u x hx with ⟨h1, -⟩ | ⟨-, h2⟩
    · omega
    · exact h2
  have hsub : ∀ u r, r ∈ a2.find u → r ∈ a.find u ∧ u ∈ a2.trail := by
    intro u r hr
    have hut : u ∈ a2.trail := ht1.mem_trail.2 (by
      intro hn
      rw [hn] at hr
      cases hr)
    rw [hkeep u hut] at hr
    exact ⟨hr, hut⟩
  have hsublev : ∀ u x, a2.levelOf u = some x → a.levelOf u = some x ∧ x ≤ L := by
    intro u x hx
    obtain ⟨r, hr, rfl⟩ := levelOf_eq_some.1 hx
    obtain ⟨hr', hut⟩ := hsub u r hr
    have hx' : a.levelOf u = some r.getDecisionLevel := levelOf_eq_some.2 ⟨r, hr', rfl⟩
    exact ⟨hx', hkeepL u hut _ hx'⟩
  -- the literals of W
  have hWlev : ∀ l ∈ W, ∃ x, a.levelOf l.getVariable = some x := by
    intro l hl
    cases hx : a.levelOf l.getVariable with
    | none => exact absurd (levelOf_eq_none.1 hx) (hW l hl).1
    | some x => exact ⟨x, rfl⟩
  have hWun : ∀ l ∈ W, (a2.find l.getVariable = none ↔
      a.levelOf l.getVariable = some a.decision_level) := by
    intro l hl
    obtain ⟨x, hx⟩ := hWlev l hl
    have hxd := (h.bounded.levelOf hx).2
    constructor
    · intro hn
      rcases hsplit _ x hx with ⟨h1, -⟩ | ⟨-, h2⟩
      · by_cases hxeq : x = a.decision_level
        · rw [hx, hxeq]
        · have := hLmax l hl x hx (by omega)
          omega
      · rw [hn] at h2
        exact absurd h2.symm (hW l hl).1
    · intro hd
      rw [hx] at hd
      simp only [Option.some.injEq] at hd
      rcases hsplit _ x hx with ⟨-, h2⟩ | ⟨h1, -⟩
      · exact h2
      · omega
  have hfalse2 : ∀ l ∈ W, a2.value l = false := by
    intro l hl
    cases hf : a2.find l.getVariable with
    | none => exact value_false_of_find_none hf
    | some r =>
      have := (hsub _ r hf).2
      rw [value_congr (hkeep _ this)]
      exact (hW l hl).2
  have hone2 : unassignedCount a2 W = 1 := by
    rw [← hone]
    unfold unassignedCount countAtLevel
    congr 1
    apply List.filter_congr
    intro l hl
    by_cases hd : a.levelOf l.getVariable = some a.decision_level
    · simp [hd, (hWun l hl).2 hd]
    · have : ¬ a2.find l.getVariable = none := fun hn => hd ((hWun l hl).1 hn)
      simp [hd, this]
  have hLmem2 : 0 < L → ∃ l ∈ W, a2.levelOf l.getVariable = some L := by
    intro hpos
    obtain ⟨l, hl, hll⟩ := hLmem hpos
    exact ⟨l, hl, by rw [levelOf_congr (hkept_of_le _ L hll (le_refl _))]; exact hll⟩
  have hsuffix : ∀ {P : Assignments → Int → List Int → Prop},
      (∀ v t, (∀ u ∈ v :: t, a2.find u = a.find u) → P a v t → P a2 v t) →
      onTrail (P a) a.trail → onTrail (P a2) a2.trail := by
    intro P hP hon
    rw [htrail] at hon
    exact onTrail_agree hP _ hkeep (onTrail_suffix hon)
  refine ⟨a2, popped, hrun, ?_, hlev, htrail, hpop, hkeep, hfalse2, hone2, hLmem2⟩
  refine
    { vars := h.vars
      learned := ?_
      entailed := ?_
      clauseVars := ?_
      t1 := ht1
      keys := ?_
      bounded := ?_
      level := by rw [hlev]; exact hL0
      t2 := hsuffix (fun v t => T2At_agree) h.t2
      t3 := hsuffix (fun v t => T3At_agree) h.t3
      t4 := hsuffix (fun v t => T4At_agree) h.t4
      ante := ?_
      decisions := ?_
      sameLevel := ?_
      closed := ?_
      position := hsuffix (fun v t => positionAt_agree) h.position
      levelLe := ?_ }
  · obtain ⟨learned, hl⟩ := h.learned
    exact ⟨learned ++ [W], by simp [Formula.addClause, hl]⟩
  · intro c hc
    rcases mem_clauses_addClause.1 hc with hc | rfl
    · exact h.entailed c hc
    · exact hWent
  · intro c hc
    rcases mem_clauses_addClause.1 hc with hc | rfl
    · exact h.clauseVars c hc
    · exact hWvars
  · intro v hv
    exact h.keys v (by rw [htrail]; exact List.mem_append_right _ hv)
  · intro e he
    have hr : e.2 ∈ a2.find e.1 := AList.mem_lookup_iff.2 he
    obtain ⟨hr', hut⟩ := hsub _ _ hr
    have hx : a.levelOf e.1 = some e.2.getDecisionLevel := levelOf_eq_some.2 ⟨e.2, hr', rfl⟩
    exact ⟨(h.bounded.levelOf hx).1, by rw [hlev]; exact hkeepL _ hut _ hx⟩
  · intro v r hr
    obtain ⟨hr', hut⟩ := hsub v r hr
    rcases h.ante v r hr' with he | ⟨h1, h2⟩
    · exact Or.inl he
    · right
      refine ⟨mem_clauses_addClause.2 (Or.inl h1), ?_⟩
      intro l hl hlv
      have hfl : a2.find l.getVariable = a.find l.getVariable := by
        rw [hlv]; exact hkeep v hut
      rw [value_congr hfl]
      exact h2 l hl hlv
  · intro v r hr he
    exact h.decisions v r (hsub v r hr).1 he
  · intro v r hr hpos hne
    obtain ⟨hr', hut⟩ := hsub v r hr
    obtain ⟨l, hl, hlne, hll⟩ := h.sameLevel v r hr' hpos hne
    have hrL : r.getDecisionLevel ≤ L :=
      hkeepL v hut _ (levelOf_eq_some.2 ⟨r, hr', rfl⟩)
    exact ⟨l, hl, hlne, by rw [levelOf_congr (hkept_of_le _ _ hll hrL)]; exact hll⟩
  · intro k hk0 hkL c hc
    rw [hlev] at hkL
    have hopen : ∀ v, (∀ x ∈ a.levelOf v, k < x) → ∀ y ∈ a2.levelOf v, k < y :=
      fun v hv y hy => hv y (hsublev v y hy).1
    rcases mem_clauses_addClause.1 hc with hc | rfl
    · refine closed_mono ?_ hopen (h.closed k hk0 (by omega) c hc)
      intro v x hx hxk
      exact hkept_of_le v x hx (by omega)
    · right
      obtain ⟨l1, hl1, hl1d⟩ := exists_of_one_le_countAtLevel (le_of_eq hone.symm)
      obtain ⟨l2, hl2, hl2L⟩ := hLmem2 (by omega)
      have hl1n : a2.find l1.getVariable = none := (hWun l1 hl1).2 hl1d
      have hne : l1 ≠ l2 := by
        rintro rfl
        rw [Assignments.levelOf, hl1n] at hl2L
        cases hl2L
      apply two_le_length_of_mem (x := l1) (y := l2) _ _ hne
      · rw [List.mem_filter]
        refine ⟨hl1, ?_⟩
        simp only [decide_eq_true_eq]
        intro y hy
        rw [Assignments.levelOf, hl1n] at hy
        cases hy
      · rw [List.mem_filter]
        refine ⟨hl2, ?_⟩
        simp only [decide_eq_true_eq]
        intro y hy
        rw [hl2L] at hy
        simp only [Option.mem_def, Option.some.injEq] at hy
        omega
  · rw [hlev]
    by_cases hpos : 0 < L
    · obtain ⟨l, hl, hll⟩ := hLmem2 hpos
      have hut : l.getVariable ∈ a2.trail := ht1.mem_trail.2 (by
        intro hn
        rw [Assignments.levelOf, hn] at hll
        cases hll)
      obtain ⟨p, s, hps⟩ := List.append_of_mem hut
      have hpos2 : onTrail (positionAt a2) a2.trail :=
        hsuffix (fun v t => positionAt_agree) h.position
      rw [hps] at hpos2
      have := onTrail_append hpos2 L hll
      rw [hps]
      simp only [List.length_append, List.length_cons]
      push_cast
      omega
    · have : (0 : Int) ≤ (a2.trail.length : Int) := Int.natCast_nonneg _
      omega

/-! ## The invariant of the solver: conflict analysis -/

theorem findVarToResolve_done {a : Assignments} {seen : List Int} :
    ∀ (t : List Int) (v : Int), findVarToResolve a seen t = Run.done v →
      v = -1 ∨ (v ∈ seen ∧ v ∈ t ∧ ∃ r, a.find v = some r ∧ r.getAntecedent ≠ [])
  | [], v, h => by
    simp only [findVarToResolve, Run.done.injEq] at h
    exact Or.inl h.symm
  | w :: t, v, h => by
    rw [findVarToResolve] at h
    by_cases hw : w ∈ seen
    · simp only [hw, if_true] at h
      cases hf : a.find w with
      | none => simp [hf] at h
      | some r =>
        simp only [hf] at h
        by_cases hlen : r.getAntecedent.length > 0
        · simp only [hlen, if_true, Run.done.injEq] at h
          subst h
          exact Or.inr ⟨hw, List.mem_cons_self _ _, r, hf, List.length_pos.1 hlen⟩
        · simp only [hlen, if_false] at h
          rcases findVarToResolve_done t v h with h1 | ⟨h1, h2, h3⟩
          · exact Or.inl h1
          · exact Or.inr ⟨h1, List.mem_cons_of_mem _ h2, h3⟩
    · simp only [hw, if_false] at h
      rcases findVarToResolve_done t v h with h1 | ⟨h1, h2, h3⟩
      · exact Or.inl h1
      · exact Or.inr ⟨h1, List.mem_cons_of_mem _ h2, h3⟩

/-- Soundness of a resolution step: when the literals over `v` of the two clauses have
opposite polarities, the resolvent holds wherever both clauses hold. -/
theorem holds_resolve {M : Int → Bool} {W A : Clause} {v : Int} (hW : Clause.holds M W)
    (hA : Clause.holds M A)
    (hopp : ∀ l1 ∈ W, ∀ l2 ∈ A, l1.getVariable = v → l2.getVariable = v →
      l1.isNegated ≠ l2.isNegated) :
    Clause.holds M (resolve W A v) := by
  obtain ⟨l1, h1, e1⟩ := hW
  obtain ⟨l2, h2, e2⟩ := hA
  by_cases hv1 : l1.getVariable = v
  · by_cases hv2 : l2.getVariable = v
    · exfalso
      have := hopp l1 h1 l2 h2 hv1 hv2
      simp only [Literal.eval, hv1, hv2] at e1 e2
      cases hn1 : l1.isNegated <;> cases hn2 : l2.isNegated <;> simp_all
    · exact ⟨l2, mem_resolve.2 ⟨Or.inr h2, hv2⟩, e2⟩
  · exact ⟨l1, mem_resolve.2 ⟨Or.inl h1, hv1⟩, e1⟩

theorem polarity_ne_of_values {a : Assignments} {l1 l2 : Literal}
    (hv : l1.getVariable = l2.getVariable) (h1 : a.value l1 = false)
    (h2 : a.value l2 = true) : l1.isNegated ≠ l2.isNegated := by
  intro hn
  unfold Assignments.value at h1 h2
  rw [hv, hn] at h1
  rw [h1] at h2
  cases h2

theorem exists_open_of_two_le {a : Assignments} {k : Int} {c : Clause}
    (h : 2 ≤ openCount a k c) : ∃ l ∈ c, ∀ x ∈ a.levelOf l.getVariable, k < x := by
  unfold openCount at h
  have hpos : 0 < (c.filter fun (l : Literal) =>
      decide (∀ x ∈ a.levelOf l.getVariable, k < x)).length := by omega
  obtain ⟨l, hl⟩ := List.exists_mem_of_length_pos hpos
  rw [List.mem_filter] at hl
  exact ⟨l, hl.1, by simpa using hl.2⟩

/-- A clause of the formula falsified at a level d > 0 has a literal assigned at level d. -/
theorem Inv.conflict_level {F0 f : Formula} {a : Assignments} (h : Inv F0 f a)
    (hd : 0 < a.decision_level) {K : Clause} (hK : K ∈ f.clauses) (hf : falsified a K) :
    ∃ l ∈ K, a.levelOf l.getVariable = some a.decision_level := by
  rcases h.closed (a.decision_level - 1) (by omega) (by omega) K hK with
    ⟨l, hl, hv, -⟩ | h2
  · rw [(hf l hl).2] at hv
    cases hv
  · obtain ⟨l, hl, hopen⟩ := exists_open_of_two_le h2
    refine ⟨l, hl, ?_⟩
    cases hx : a.levelOf l.getVariable with
    | none => exact absurd (levelOf_eq_none.1 hx) (hf l hl).1
    | some x =>
      have h1 := hopen x hx
      have h2 := (h.bounded.levelOf hx).2
      have : x = a.decision_level := by omega
      rw [this]

theorem analysisLoop_sound {F0 f : Formula} {a : Assignments} (h : Inv F0 f a)
    (hpos : ∀ v ∈ F0.getVariables, 0 < v) (hd : 0 < a.decision_level) :
    ∀ (fuel : Nat) (W W1 : Clause), falsified a W →
      (∃ l ∈ W, a.levelOf l.getVariable = some a.decision_level) →
      (∀ M, models M F0.clauses → Clause.holds M W) →
      (∀ l ∈ W, l.getVariable ∈ F0.getVariables) →
      analysisLoop fuel W a = Run.done W1 →
      falsified a W1 ∧ countAtLevel a a.decision_level W1 = 1 ∧
        (∀ M, models M F0.clauses → Clause.holds M W1) ∧
        (∀ l ∈ W1, l.getVariable ∈ F0.getVariables) ∧ (W1 = W ∨ W1.Nodup)
  | 0, _, _, _, _, _, _, hrun => by simp [analysisLoop] at hrun
  | fuel + 1, W, W1, hW, hlev, hent, hvars, hrun => by
    rw [analysisLoop] at hrun
    have hass : ∀ l ∈ W, a.find l.getVariable ≠ none := fun l hl => (hW l hl).1
    rw [countAtCurrentLevel_done W 0 hass] at hrun
    simp only [zero_add] at hrun
    split_ifs at hrun with hk
    · simp only [Run.done.injEq] at hrun
      subst hrun
      obtain ⟨l, hl, hld⟩ := hlev
      have := one_le_countAtLevel hl hld
      exact ⟨hW, by omega, hent, hvars, Or.inl rfl⟩
    · cases hv : findVarToResolve a (seenVariables W) a.getTrail with
      | thrown => simp [hv] at hrun
      | outOfFuel => simp [hv] at hrun
      | done v =>
        simp only [hv] at hrun
        cases hf : a.find v with
        | none => simp [hf] at hrun
        | some r =>
          simp only [hf] at hrun
          have hvt : v ∈ a.trail := h.t1.mem_trail.2 (by simp [hf])
          have hvne : v ≠ -1 := by
            have := hpos v (h.keys v hvt)
            omega
          obtain ⟨hseen, -, r', hr', hne⟩ :=
            (findVarToResolve_done _ _ hv).resolve_left hvne
          rw [hf] at hr'
          simp only [Option.some.injEq] at hr'
          subst hr'
          obtain ⟨pre, t, ht⟩ := List.append_of_mem hvt
          have hante := (h.ante v r hf).resolve_left hne
          have key : ∀ {P : Prop}, (P ∧ (W1 = resolve W r.getAntecedent v ∨ W1.Nodup)) →
              P ∧ (W1 = W ∨ W1.Nodup) := by
            rintro P ⟨hp, hq⟩
            refine ⟨hp, Or.inr ?_⟩
            rcases hq with hq | hq
            · rw [hq]; exact nodup_resolve _ _ _
            · exact hq
          have hrec := analysisLoop_sound h hpos hd fuel (resolve W r.getAntecedent v) W1
            (falsified_resolve h.t4 ht hf hW)
          suffices hsuff : (∃ l ∈ resolve W r.getAntecedent v,
                a.levelOf l.getVariable = some a.decision_level) ∧
              (∀ M, models M F0.clauses → Clause.holds M (resolve W r.getAntecedent v)) ∧
              (∀ l ∈ resolve W r.getAntecedent v, l.getVariable ∈ F0.getVariables) by
            obtain ⟨h1, h2, h3, h4, h5⟩ := hrec hsuff.1 hsuff.2.1 hsuff.2.2 hrun
            exact ⟨h1, h2, h3, (key ⟨h4, h5⟩)⟩
          refine ⟨?_, ?_, ?_⟩
          · -- a literal of the current level remains
            by_cases hvd : a.levelOf v = some a.decision_level
            · have hrl : r.getDecisionLevel = a.decision_level := by
                obtain ⟨r2, hr2, hr2l⟩ := levelOf_eq_some.1 hvd
                rw [hf] at hr2
                simp only [Option.some.injEq] at hr2
                rw [hr2]; exact hr2l
              obtain ⟨l, hl, hlne, hll⟩ := h.sameLevel v r hf (by omega) hne
              exact ⟨l, mem_resolve.2 ⟨Or.inr hl, hlne⟩, by rw [hll, hrl]⟩
            · obtain ⟨l, hl, hld⟩ := hlev
              refine ⟨l, mem_resolve.2 ⟨Or.inl hl, ?_⟩, hld⟩
              intro hlv
              rw [hlv] at hld
              exact hvd hld
          · intro M hM
            refine holds_resolve (hent M hM) (h.entailed _ hante.1 M hM) ?_
            intro l1 h1 l2 h2 hv1 hv2
            exact polarity_ne_of_values (hv1.trans hv2.symm) (hW l1 h1).2 (hante.2 l2 h2 hv2)
          · intro l hl
            obtain ⟨hm, -⟩ := mem_resolve.1 hl
            rcases hm with hm | hm
            · exact hvars l hm
            · exact h.clauseVars _ hante.1 l hm

/-- The conflict step of `CDCLSolve` keeps the invariant: analysis of a falsified clause of
the formula at a level above 0, backtrack, append the learned clause and assign the literal
that `checkClauseStatus` reports. -/
theorem Inv.learn {F0 f : Formula} {a : Assignments} (h : Inv F0 f a)
    (hpos : ∀ v ∈ F0.getVariables, 0 < v) (hd : a.decision_level ≠ 0) {K : Clause}
    (hK : K ∈ f.clauses) (hf : falsified a K) (dflt : Literal) {fuel : Nat} {L : Int}
    {W : Clause} (hca : conflict_analysis fuel K a = Run.done (L, W)) :
    ∃ a2 popped, backtrack a L = Run.done a2 ∧
      Inv F0 (addClause f W)
        (a2.assign (checkClauseStatus W a2 dflt).2.getVariable
          (!(checkClauseStatus W a2 dflt).2.isNegated) W) ∧
      a2.decision_level = L ∧ 0 ≤ L ∧ L < a.decision_level ∧
      a.trail = popped ++ a2.trail ∧
      (∀ u ∈ popped, ∀ x ∈ a.levelOf u, L < x) ∧
      (∀ u ∈ a2.trail, a2.find u = a.find u) ∧
      a2.find (checkClauseStatus W a2 dflt).2.getVariable = none ∧
      (W = K ∨ W.Nodup) ∧ T1 a2 := by
  have hd' : 0 < a.decision_level := lt_of_le_of_ne h.level (Ne.symm hd)
  obtain ⟨hloop, -⟩ := conflict_analysis_done hd hca
  obtain ⟨hW, hone, hent, hvars, hnodup⟩ :=
    analysisLoop_sound h hpos hd' fuel K W hf (h.conflict_level hd' hK hf)
      (h.entailed K hK) (h.clauseVars K hK) hloop
  obtain ⟨hz, hmax, hL0, hLd⟩ := conflict_analysis_level_bounded hd' h.bounded hca
  obtain ⟨-, hmax2, -⟩ := conflict_analysis_level hd' hca
  obtain ⟨a2, popped, hback, hinv2, hlev2, htrail, hpop, hkeep, hfalse2, hone2, hLmem2⟩ :=
    h.backjump (L := L) hW hent hvars hone hL0 hLd
      (fun l hl x hx hlt => (hmax2 ⟨l, hl, x, hx, hlt⟩).2 l hl x hx hlt)
      (fun hLpos => by
        by_contra hcon
        have : ∀ l ∈ W, ∀ x ∈ a.levelOf l.getVariable, x = a.decision_level := by
          intro l hl x hx
          by_contra hne
          obtain ⟨l', hl', hll', -⟩ := (hmax ⟨l, hl, x, hx, hne⟩).1
          exact hcon ⟨l', hl', hll'⟩
        have := hz this
        omega)
  have hst := checkClauseStatus_of_false dflt hfalse2
  have hul := lastUnassigned_of_pos (a := a2) (c := W) dflt (by omega)
  have hsnd : (checkClauseStatus W a2 dflt).2 = lastUnassigned a2 W dflt := by rw [hst]
  refine ⟨a2, popped, hback, ?_, hlev2, hL0, hLd, htrail, hpop, hkeep,
    by rw [hsnd]; exact hul.2, hnodup, hinv2.t1⟩
  rw [hsnd]
  · refine hinv2.assign_unit (mem_clauses_addClause.2 (Or.inr rfl)) hul.1 hul.2 hfalse2 hone2 ?_
    intro hpos2
    rw [hlev2] at hpos2 ⊢
    obtain ⟨l, hl, hll⟩ := hLmem2 hpos2
    refine ⟨l, hl, ?_, hll⟩
    intro hv
    rw [Assignments.levelOf, hv, hul.2] at hll
    cases hll

/-! ## Soundness of the verdicts -/

theorem eval_eq_value {a : Assignments} {M : Int → Bool} {l : Literal} {r : Assignment}
    (hr : a.find l.getVariable = some r) (hM : M l.getVariable = r.getValue) :
    l.eval M = a.value l := by
  simp [Literal.eval, Assignments.value, hr, hM]

/-- At level 0 every model of the input formula agrees with the store. -/
theorem Inv.model_agrees {F0 f : Formula} {a : Assignments} (h : Inv F0 f a)
    (hd : a.decision_level = 0) {M : Int → Bool} (hM : models M F0.clauses) :
    ∀ t : List Int, t <:+ a.trail → ∀ v ∈ t, ∀ r, a.find v = some r → M v = r.getValue
  | [], _, _, hv, _, _ => by cases hv
  | w :: s, hsuf, v, hv, r, hr => by
    have ih := h.model_agrees hd hM s (List.IsSuffix.trans (List.suffix_cons w s) hsuf)
    rcases List.mem_cons.1 hv with rfl | hv
    · obtain ⟨pre, hpre⟩ := hsuf
      have hb := h.bounded.levelOf (levelOf_eq_some.2 ⟨r, hr, rfl⟩)
      have hne : r.getAntecedent ≠ [] := by
        intro he
        have := h.decisions v r hr he
        omega
      obtain ⟨hmem, htrue⟩ := (h.ante v r hr).resolve_left hne
      obtain ⟨l, hl, hle⟩ := h.entailed _ hmem M hM
      by_cases hlv : l.getVariable = v
      · have hval := htrue l hl hlv
        have hr' : a.find l.getVariable = some r := by rw [hlv]; exact hr
        simp only [Assignments.value, hr'] at hval
        simp only [Literal.eval, hlv] at hle
        cases hn : l.isNegated <;> simp_all
      · exfalso
        obtain ⟨h1, h2, h3, -⟩ := h.t4.entry4 hpre.symm r hr l hl hlv
        cases hf : a.find l.getVariable with
        | none => exact h2 hf
        | some r' =>
          have := eval_eq_value hf (ih _ h1 r' hf)
          rw [this, h3] at hle
          cases hle
    · exact ih v hv r hr

/-- A clause of the formula falsified at level 0 refutes the input formula. -/
theorem Inv.unsat_of_conflict {F0 f : Formula} {a : Assignments} (h : Inv F0 f a)
    (hd : a.decision_level = 0) {K : Clause} (hK : K ∈ f.clauses) (hf : falsified a K) :
    ¬ F0.satisfiable := by
  rintro ⟨M, hM⟩
  obtain ⟨l, hl, hle⟩ := h.entailed K hK M hM
  cases hr : a.find l.getVariable with
  | none => exact (hf l hl).1 hr
  | some r =>
    have hvt : l.getVariable ∈ a.trail := h.t1.mem_trail.2 (by simp [hr])
    have := eval_eq_value hr (h.model_agrees hd hM a.trail (List.suffix_refl _) _ hvt r hr)
    rw [this, (hf l hl).2] at hle
    cases hle

theorem Inv.initial {F0 : Formula} (hwf : F0.wellFormed) : Inv F0 F0 Assignments.empty :=
  { vars := rfl
    learned := ⟨[], by simp⟩
    entailed := fun c hc M hM => hM c hc
    clauseVars := hwf.2.2.1
    t1 := List.Perm.refl _
    keys := fun v hv => by cases hv
    bounded := fun e he => by cases he
    level := le_refl _
    t2 := trivial
    t3 := trivial
    t4 := trivial
    ante := fun v r hr => by cases hr
    decisions := fun v r hr => by cases hr
    sameLevel := fun v r hr => by cases hr
    closed := fun k hk0 hk => by
      have : Assignments.empty.decision_level = 0 := rfl
      omega
    position := trivial
    levelLe := le_refl _ }

/-- Partial correctness of the inner loop of `CDCLSolve`: the UNSAT return is right, and at
the `break` the invariant holds and propagation is complete. -/
theorem conflictLoop_sound {F0 : Formula} (hpos : ∀ v ∈ F0.getVariables, 0 < v)
    (dflt : Literal) :
    ∀ (fuel : Nat) (a : Assignments) (f : Formula), Inv F0 f a →
      ∀ r, conflictLoop dflt fuel a f = Run.done r →
        (r = none → ¬ F0.satisfiable) ∧
          ∀ a1 f1, r = some (a1, f1) → Inv F0 f1 a1 ∧ propagated f1 a1
  | 0, _, _, _, _, hrun => by simp [conflictLoop] at hrun
  | fuel + 1, a, f, hinv, r, hrun => by
    rw [conflictLoop] at hrun
    cases hup : unitPropagate dflt (fuel + 1) a f with
    | thrown => simp [hup] at hrun
    | outOfFuel => simp [hup] at hrun
    | done res =>
      obtain ⟨st, K, a1⟩ := res
      simp only [hup] at hrun
      obtain ⟨hinv1, -⟩ := unitPropagate_inv dflt _ a st K a1 hinv hup
      obtain ⟨hprop, hconf⟩ := unitPropagate_status hup
      split_ifs at hrun with hst hlev
      · simp only [Run.done.injEq] at hrun
        subst hrun
        refine ⟨(fun hn => by cases hn), ?_⟩
        intro a2 f2 he
        simp only [Option.some.injEq, Prod.mk.injEq] at he
        obtain ⟨rfl, rfl⟩ := he
        have : st = UnitPropagationStatus.UNIT_UNRESOLVED := by
          cases st
          · exact absurd rfl hst
          · rfl
        exact ⟨hinv1, hprop this⟩
      · simp only [Run.done.injEq] at hrun
        subst hrun
        have hst' : st = UnitPropagationStatus.UNIT_CONFLICT := not_not.1 hst
        obtain ⟨hK, hf⟩ := hconf hst'
        exact ⟨fun _ => hinv1.unsat_of_conflict hlev hK hf, fun a2 f2 he => by cases he⟩
      · have hst' : st = UnitPropagationStatus.UNIT_CONFLICT := not_not.1 hst
        obtain ⟨hK, hf⟩ := hconf hst'
        cases hca : conflict_analysis (fuel + 1) K a1 with
        | thrown => simp [hca] at hrun
        | outOfFuel => simp [hca] at hrun
        | done res2 =>
          obtain ⟨L, W⟩ := res2
          simp only [hca] at hrun
          obtain ⟨a2, popped, hback, hinv3, -⟩ := hinv1.learn hpos hlev hK hf dflt hca
          simp only [hback] at hrun
          exact conflictLoop_sound hpos dflt fuel _ _ hinv3 r hrun

theorem satisfy_of_propagated {F0 f : Formula} {a : Assignments} (h : Inv F0 f a)
    (hp : propagated f a) (hall : allAssigned f a = true) : a.satisfy F0 = true := by
  have hkeys := all_assigned_of_allAssigned h hall
  unfold Assignments.satisfy
  rw [List.all_eq_true]
  intro c hc
  have hcf : c ∈ f.clauses := by
    obtain ⟨learned, hl⟩ := h.learned
    rw [hl]
    exact List.mem_append_left _ hc
  rw [List.any_eq_true]
  rcases hp c hcf ⟨0, false⟩ with hs | hs
  · obtain ⟨l, hl, hlf, hlv⟩ := (checkClauseStatus_classes c a ⟨0, false⟩).1.1 hs
    exact ⟨l, hl, by simp [Option.isSome_iff_ne_none.2 hlf, hlv]⟩
  · exfalso
    have h2 := ((checkClauseStatus_classes c a ⟨0, false⟩).2.2.2.2.1 hs).2
    have : unassignedCount a c ≠ 0 := by omega
    rw [Ne, unassignedCount_eq_zero] at this
    push_neg at this
    obtain ⟨l, hl, hln⟩ := this
    have hv : l.getVariable ∈ F0.getVariables := h.clauseVars c hcf l hl
    exact (find_ne_none_iff_mem_keys.2 ((hkeys _).2 hv)) hln

/-- Partial correctness of the outer loop of `CDCLSolve`. -/
theorem decideLoop_sound {F0 : Formula} (hwf : F0.wellFormed) (dflt : Literal) :
    ∀ (fuel : Nat) (a : Assignments) (f : Formula), Inv F0 f a → propagated f a →
      ∀ e a1, decideLoop dflt fuel a f = Run.done (e, a1) →
        (e = Exit.sat → a1.satisfy F0 = true ∧
          ∀ v, v ∈ a1.store.keys ↔ v ∈ F0.getVariables) ∧
        (e ≠ Exit.sat → ¬ F0.satisfiable ∧ a1 = Assignments.empty ∧ e = Exit.unsatConflict)
  | 0, _, _, _, _, _, _, hrun => by simp [decideLoop] at hrun
  | fuel + 1, a, f, hinv, hp, e, a1, hrun => by
    rw [decideLoop] at hrun
    split_ifs at hrun with hall
    · simp only [Run.done.injEq, Prod.mk.injEq] at hrun
      obtain ⟨rfl, rfl⟩ := hrun
      exact ⟨fun _ => ⟨satisfy_of_propagated hinv hp hall,
        all_assigned_of_allAssigned hinv hall⟩, fun hne => absurd rfl hne⟩
    · have hall' : allAssigned f a = false := by simpa using hall
      obtain ⟨hun, hv, -⟩ := pickVariable_spec hinv hwf.1 hall'
      have hinv2 := hinv.decide hp hun hv (pickVariable f a.increaseDecisionLevel).2
      simp only at hrun
      cases hcl : conflictLoop dflt fuel
          (a.increaseDecisionLevel.assign (pickVariable f a.increaseDecisionLevel).1
            (pickVariable f a.increaseDecisionLevel).2 []) f with
      | thrown => simp [hcl] at hrun
      | outOfFuel => simp [hcl] at hrun
      | done res =>
        obtain ⟨hnone, hsome⟩ := conflictLoop_sound hwf.2.2.2 dflt fuel _ _ hinv2 res hcl
        cases res with
        | none =>
          simp only [hcl, Run.done.injEq, Prod.mk.injEq] at hrun
          obtain ⟨rfl, rfl⟩ := hrun
          exact ⟨(fun he => by cases he), fun _ => ⟨hnone rfl, rfl, rfl⟩⟩
        | some p =>
          obtain ⟨a3, f3⟩ := p
          simp only [hcl] at hrun
          obtain ⟨hinv3, hp3⟩ := hsome a3 f3 rfl
          exact decideLoop_sound hwf dflt fuel a3 f3 hinv3 hp3 e a1 hrun

/-- Partial correctness of `CDCLSolve`, by exit. -/
theorem CDCLRun_sound {F0 : Formula} (hwf : F0.wellFormed) (dflt : Literal) (fuel : Nat)
    (e : Exit) (a1 : Assignments) (hrun : CDCLRun dflt fuel F0 = Run.done (e, a1)) :
    (e = Exit.sat → a1.satisfy F0 = true ∧
      ∀ v, v ∈ a1.store.keys ↔ v ∈ F0.getVariables) ∧
    (e ≠ Exit.sat → ¬ F0.satisfiable ∧ a1 = Assignments.empty) := by
  unfold CDCLRun at hrun
  cases hup : unitPropagate dflt fuel Assignments.empty F0 with
  | thrown => simp [hup] at hrun
  | outOfFuel => simp [hup] at hrun
  | done res =>
    obtain ⟨st, K, a⟩ := res
    simp only [hup] at hrun
    obtain ⟨hinv, hlev⟩ := unitPropagate_inv dflt _ _ st K a (Inv.initial hwf) hup
    obtain ⟨hprop, hconf⟩ := unitPropagate_status hup
    split_ifs at hrun with hst
    · simp only [Run.done.injEq, Prod.mk.injEq] at hrun
      obtain ⟨rfl, rfl⟩ := hrun
      obtain ⟨hK, hf⟩ := hconf hst
      exact ⟨(fun he => by cases he), fun _ => ⟨hinv.unsat_of_conflict hlev hK hf, rfl⟩⟩
    · have : st = UnitPropagationStatus.UNIT_UNRESOLVED := by
        cases st
        · exact absurd rfl hst
        · rfl
      obtain ⟨h1, h2⟩ := decideLoop_sound hwf dflt fuel a F0 hinv (hprop this) e a1 hrun
      exact ⟨h1, fun hne => ⟨(h2 hne).1, (h2 hne).2.1⟩⟩

/-! ## Termination: the measure -/

theorem sumWeights_agree {n : Nat} {a b : Assignments} :
    ∀ t : List Int, (∀ u ∈ t, b.find u = a.find u) → sumWeights n b t = sumWeights n a t
  | [], _ => rfl
  | v :: t, h => by
    have ih := sumWeights_agree (n := n) t fun u hu => h u (List.mem_cons_of_mem _ hu)
    unfold sumWeights at ih ⊢
    simp only [List.map_cons, List.sum_cons, ih,
      levelOf_congr (h v (List.mem_cons_self _ _))]

theorem sumWeights_append (n : Nat) (a : Assignments) (s t : List Int) :
    sumWeights n a (s ++ t) = sumWeights n a s + sumWeights n a t := by
  simp [sumWeights]

theorem levelWeight_pos (n : Nat) (x : Int) : 0 < levelWeight n x :=
  Nat.pow_pos (Nat.succ_pos n)

theorem levelWeight_le (n : Nat) (x : Int) : levelWeight n x ≤ (n + 1) ^ n :=
  Nat.pow_le_pow_right (Nat.succ_pos n) (Nat.sub_le _ _)

theorem levelWeight_le_of_lt {n : Nat} {L x : Int} (hL : 0 ≤ L) (hx : L < x) :
    levelWeight n x ≤ (n + 1) ^ (n - (L.toNat + 1)) := by
  apply Nat.pow_le_pow_right (Nat.succ_pos n)
  have : L.toNat + 1 ≤ x.toNat := by omega
  omega

theorem sumWeights_le {n : Nat} {a : Assignments} {w : Nat} :
    ∀ t : List Int, (∀ u ∈ t, ∀ x ∈ a.levelOf u, levelWeight n x ≤ w) →
      sumWeights n a t ≤ t.length * w
  | [], _ => by simp [sumWeights]
  | v :: t, h => by
    have ih := sumWeights_le (n := n) (a := a) (w := w) t
      fun u hu => h u (List.mem_cons_of_mem _ hu)
    have hv : ((a.levelOf v).map (levelWeight n)).getD 0 ≤ w := by
      cases hx : a.levelOf v with
      | none => simp
      | some x => simpa using h v (List.mem_cons_self _ _) x hx
    unfold sumWeights at ih ⊢
    simp only [List.map_cons, List.sum_cons, List.length_cons]
    rw [Nat.succ_mul]
    omega

theorem trail_length_le {F0 f : Formula} {a : Assignments} (h : Inv F0 f a) :
    a.trail.length ≤ F0.getVariables.length :=
  (h.t1.nodup.subperm fun v hv => h.keys v hv).length_le

theorem trailMeasure_le {F0 f : Formula} {a : Assignments} (h : Inv F0 f a) :
    trailMeasure F0.getVariables.length a ≤
      F0.getVariables.length * (F0.getVariables.length + 1) ^ F0.getVariables.length := by
  refine le_trans (sumWeights_le a.trail fun u _ x _ => levelWeight_le _ x) ?_
  exact Nat.mul_le_mul_right _ (trail_length_le h)

theorem trailMeasure_assign {n : Nat} {a : Assignments} (h1 : T1 a) {v : Int}
    (hv : a.find v = none) (b : Bool) (c : Clause) :
    trailMeasure n (a.assign v b c) = levelWeight n a.decision_level + trailMeasure n a := by
  unfold trailMeasure
  show sumWeights n (a.assign v b c) (v :: a.trail) = _
  have := sumWeights_agree (n := n) a.trail (agree_assign h1 hv b c)
  unfold sumWeights at this ⊢
  simp only [List.map_cons, List.sum_cons, this, levelOf_assign_self, Option.map_some',
    Option.getD_some]

theorem size_assign {a : Assignments} {v : Int} (hv : a.find v = none) (b : Bool)
    (c : Clause) : (a.assign v b c).size = a.size + 1 := by
  have hk : v ∉ a.store.keys := fun hm => (find_ne_none_iff_mem_keys.2 hm) hv
  simp [Assignments.size, Assignments.assign, AList.keys_insert, List.erase_of_not_mem hk]

/-- One pass of propagation does not lower the measure, and a pass that reports a change
has assigned a variable. -/
theorem propagatePass_measure {F0 f : Formula} (dflt : Literal) (n : Nat) :
    ∀ (cs : List Clause) (a : Assignments) (ch : Bool), (∀ c ∈ cs, c ∈ f.clauses) →
      Inv F0 f a →
      match propagatePass dflt a cs ch with
      | Pass.conflict a1 _ => trailMeasure n a ≤ trailMeasure n a1
      | Pass.scanned a1 ch1 => trailMeasure n a ≤ trailMeasure n a1 ∧ a.size ≤ a1.size ∧
          (ch1 = true → ch = true ∨ a.size < a1.size)
  | [], a, ch, _, _ => by
    rw [propagatePass]
    exact ⟨le_refl _, le_refl _, fun h => Or.inl h⟩
  | c :: cs, a, ch, hcs, h => by
    have hc := hcs c (List.mem_cons_self _ _)
    have hcs' : ∀ x ∈ cs, x ∈ f.clauses := fun x hx => hcs x (List.mem_cons_of_mem _ hx)
    rw [propagatePass_cons]
    split_ifs with h1 h2
    · have hun := (checkClauseStatus_unit h1).2.1
      have hm := trailMeasure_assign (n := n) h.t1 hun
        (!(checkClauseStatus c a dflt).2.isNegated) c
      have hs := size_assign hun (!(checkClauseStatus c a dflt).2.isNegated) c
      have ih := propagatePass_measure dflt n cs _ true hcs' (h.propagate_unit dflt hc h1)
      revert ih
      cases propagatePass dflt _ cs true with
      | conflict a1 K =>
        intro ih
        simp only at ih ⊢
        omega
      | scanned a1 ch1 =>
        intro ih
        simp only at ih ⊢
        refine ⟨by omega, by omega, fun _ => Or.inr (by omega)⟩
    · exact le_refl _
    · exact propagatePass_measure dflt n cs a ch hcs' h

/-- Under the invariant `unitPropagate` returns with enough fuel, and the measure does not
go down. -/
theorem unitPropagate_total {F0 f : Formula} (dflt : Literal) :
    ∀ (k : Nat) (a : Assignments), Inv F0 f a → F0.getVariables.length - a.size ≤ k →
      ∃ res : UnitPropagationStatus × Clause × Assignments,
        (∀ n, k + 1 ≤ n → unitPropagate dflt n a f = Run.done res) ∧
          trailMeasure F0.getVariables.length a ≤ trailMeasure F0.getVariables.length res.2.2
  | k, a, hinv, hk => by
    have hp := propagatePass_inv dflt f.clauses a false (fun c hc => hc) hinv
    have hm := propagatePass_measure dflt F0.getVariables.length f.clauses a false
      (fun c hc => hc) hinv
    cases hpass : propagatePass dflt a f.clauses false with
    | conflict a1 K =>
      rw [hpass] at hm
      refine ⟨(UnitPropagationStatus.UNIT_CONFLICT, K, a1), ?_, hm⟩
      intro n hn
      obtain ⟨m, rfl⟩ : ∃ m, n = m + 1 := ⟨n - 1, by omega⟩
      rw [unitPropagate_succ, hpass]
    | scanned a1 ch =>
      rw [hpass] at hm hp
      cases ch with
      | false =>
        refine ⟨(UnitPropagationStatus.UNIT_UNRESOLVED, [], a1), ?_, hm.1⟩
        intro n hn
        obtain ⟨m, rfl⟩ : ∃ m, n = m + 1 := ⟨n - 1, by omega⟩
        rw [unitPropagate_succ, hpass]
        rfl
      | true =>
        have hlt : a.size < a1.size := by
          rcases hm.2.2 rfl with h | h
          · cases h
          · exact h
        have hle : a1.size ≤ F0.getVariables.length := by
          rw [← hp.1.t1.length]
          exact trail_length_le hp.1
        match k, hk with
        | 0, hk => omega
        | k + 1, hk =>
          obtain ⟨res, hres, hmres⟩ := unitPropagate_total dflt k a1 hp.1 (by omega)
          refine ⟨res, ?_, le_trans hm.1 hmres⟩
          intro n hn
          obtain ⟨m, rfl⟩ : ∃ m, n = m + 1 := ⟨n - 1, by omega⟩
          rw [unitPropagate_succ, hpass]
          simp only [if_true]
          exact hres m (by omega)

/-! ## Termination of the solver -/

theorem pow_step_lt {n e : Nat} (he : e + 1 ≤ n) (m : Nat) (hm : m ≤ n) :
    m * (n + 1) ^ (n - (e + 1)) < (n + 1) ^ (n - e) := by
  have h1 : n - e = (n - (e + 1)) + 1 := by omega
  rw [h1, pow_succ]
  have hpos : 0 < (n + 1) ^ (n - (e + 1)) := Nat.pow_pos (Nat.succ_pos n)
  calc m * (n + 1) ^ (n - (e + 1)) ≤ n * (n + 1) ^ (n - (e + 1)) :=
        Nat.mul_le_mul_right _ hm
    _ < (n + 1) * (n + 1) ^ (n - (e + 1)) := Nat.mul_lt_mul_of_pos_right (Nat.lt_succ_self n) hpos
    _ = (n + 1) ^ (n - (e + 1)) * (n + 1) := Nat.mul_comm _ _

/-- A backjump followed by the assertion of the learned literal raises the measure. -/
theorem backjump_measure {F0 f : Formula} {a a2 : Assignments} (h : Inv F0 f a)
    {popped : List Int} {L : Int} (hL0 : 0 ≤ L) (hLd : L < a.decision_level)
    (htrail : a.trail = popped ++ a2.trail)
    (hpop : ∀ u ∈ popped, ∀ x ∈ a.levelOf u, L < x)
    (hkeep : ∀ u ∈ a2.trail, a2.find u = a.find u) (hlev : a2.decision_level = L)
    (ht1 : T1 a2) {v : Int} (hun : a2.find v = none) (b : Bool) (W : Clause) :
    trailMeasure F0.getVariables.length a <
      trailMeasure F0.getVariables.length (a2.assign v b W) := by
  rw [trailMeasure_assign ht1 hun, hlev]
  have hlen := trail_length_le h
  have hd := h.levelLe
  have hpl : popped.length ≤ F0.getVariables.length := by
    rw [htrail, List.length_append] at hlen
    omega
  have hsum : sumWeights F0.getVariables.length a popped ≤
      popped.length * (F0.getVariables.length + 1) ^
        (F0.getVariables.length - (L.toNat + 1)) :=
    sumWeights_le popped fun u hu x hx => levelWeight_le_of_lt hL0 (hpop u hu x hx)
  have hstep := pow_step_lt (n := F0.getVariables.length) (e := L.toNat) (by omega)
    popped.length hpl
  have hm : trailMeasure F0.getVariables.length a =
      sumWeights F0.getVariables.length a popped +
        trailMeasure F0.getVariables.length a2 := by
    unfold trailMeasure
    rw [htrail, sumWeights_append, sumWeights_agree a2.trail hkeep]
  rw [hm]
  unfold levelWeight
  omega

theorem noRepeatedLiteral_addClause {f : Formula} {K W : Clause} (h : noRepeatedLiteral f)
    (hK : K ∈ f.clauses) (hW : W = K ∨ W.Nodup) : noRepeatedLiteral (addClause f W) := by
  intro c hc
  rcases mem_clauses_addClause.1 hc with hc | rfl
  · exact h c hc
  · rcases hW with rfl | hW
    · exact h _ hK
    · exact hW

/-- Total correctness of the inner loop of `CDCLSolve` on formulas without repeated
literals: by induction on the room left below the bound of the measure, enough fuel gives a
result. -/
theorem conflictLoop_total {F0 : Formula} (hpos : ∀ v ∈ F0.getVariables, 0 < v)
    (dflt : Literal) :
    ∀ (k : Nat) (a : Assignments) (f : Formula), Inv F0 f a → noRepeatedLiteral f →
      F0.getVariables.length * (F0.getVariables.length + 1) ^ F0.getVariables.length -
        trailMeasure F0.getVariables.length a ≤ k →
      ∃ N r, (∀ n, N ≤ n → conflictLoop dflt n a f = Run.done r) ∧
        ∀ a1 f1, r = some (a1, f1) → noRepeatedLiteral f1 ∧
          trailMeasure F0.getVariables.length a ≤ trailMeasure F0.getVariables.length a1
  | k, a, f, hinv, hnr, hk => by
    obtain ⟨⟨st, K, a1⟩, hup, hm1⟩ :=
      unitPropagate_total dflt (F0.getVariables.length - a.size) a hinv (le_refl _)
    have hup' := hup _ (le_refl _)
    obtain ⟨hinv1, -⟩ := unitPropagate_inv dflt _ a st K a1 hinv hup'
    obtain ⟨-, hconf⟩ := unitPropagate_status hup'
    simp only at hm1
    by_cases hst : st ≠ UnitPropagationStatus.UNIT_CONFLICT
    · refine ⟨F0.getVariables.length - a.size + 1, some (a1, f), ?_, ?_⟩
      · intro n hn
        obtain ⟨m, rfl⟩ : ∃ m, n = m + 1 := ⟨n - 1, by omega⟩
        rw [conflictLoop, hup _ hn]
        simp only [hst, if_true, ne_eq, not_false_eq_true]
      · intro a2 f2 he
        simp only [Option.some.injEq, Prod.mk.injEq] at he
        obtain ⟨rfl, rfl⟩ := he
        exact ⟨hnr, hm1⟩
    · have hst' : st = UnitPropagationStatus.UNIT_CONFLICT := not_not.1 hst
      obtain ⟨hK, hf⟩ := hconf hst'
      by_cases hlev : a1.decision_level = 0
      · refine ⟨F0.getVariables.length - a.size + 1, none, ?_, fun a2 f2 he => by cases he⟩
        intro n hn
        obtain ⟨m, rfl⟩ : ∃ m, n = m + 1 := ⟨n - 1, by omega⟩
        rw [conflictLoop, hup _ hn]
        simp only [hst', ne_eq, not_true_eq_false, if_false, Assignments.getDecisionLevel, hlev,
          if_true]
      · have hd' : 0 < a1.decision_level := lt_of_le_of_ne hinv1.level (Ne.symm hlev)
        obtain ⟨N2, L, W, hca, -⟩ :=
          conflict_analysis_uip hd' hinv1.t1 hinv1.t3 hinv1.t4 hf
            (hinv1.conflict_level hd' hK hf) (hnr K hK)
        obtain ⟨a2, popped, hback, hinv3, hlev2, hL0, hLd, htrail, hpop, hkeep, hun, hnd, ht1⟩ :=
          hinv1.learn hpos hlev hK hf dflt (hca N2 (le_refl _))
        have hm3 := backjump_measure hinv1 hL0 hLd htrail hpop hkeep hlev2 ht1 hun
          (!(checkClauseStatus W a2 dflt).2.isNegated) W
        have hb3 := trailMeasure_le hinv3
        have hnr3 := noRepeatedLiteral_addClause hnr hK hnd
        match k, hk with
        | 0, hk => omega
        | k + 1, hk =>
          obtain ⟨N3, r, hrun3, hpost3⟩ :=
            conflictLoop_total hpos dflt k _ _ hinv3 hnr3 (by omega)
          refine ⟨max (F0.getVariables.length - a.size + 1) (max N2 N3) + 1, r, ?_, ?_⟩
          · intro n hn
            obtain ⟨m, rfl⟩ : ∃ m, n = m + 1 := ⟨n - 1, by omega⟩
            have h1 : F0.getVariables.length - a.size + 1 ≤ m + 1 := by
              have := le_max_left (F0.getVariables.length - a.size + 1) (max N2 N3)
              omega
            have h2 : N2 ≤ m + 1 := by
              have := le_max_right (F0.getVariables.length - a.size + 1) (max N2 N3)
              have := le_max_left N2 N3
              omega
            have h3 : N3 ≤ m := by
              have := le_max_right (F0.getVariables.length - a.size + 1) (max N2 N3)
              have := le_max_right N2 N3
              omega
            rw [conflictLoop, hup _ h1]
            simp only [hst', ne_eq, not_true_eq_false, if_false, Assignments.getDecisionLevel,
              hlev, hca _ h2, hback]
            exact hrun3 m h3
          · intro a4 f4 he
            obtain ⟨h4, h5⟩ := hpost3 a4 f4 he
            exact ⟨h4, by omega⟩

/-- Total correctness of the outer loop of `CDCLSolve` on formulas without repeated
literals. -/
theorem decideLoop_total {F0 : Formula} (hwf : F0.wellFormed) (dflt : Literal) :
    ∀ (k : Nat) (a : Assignments) (f : Formula), Inv F0 f a → propagated f a →
      noRepeatedLiteral f →
      F0.getVariables.length * (F0.getVariables.length + 1) ^ F0.getVariables.length -
        trailMeasure F0.getVariables.length a ≤ k →
      ∃ N res, ∀ n, N ≤ n → decideLoop dflt n a f = Run.done res
  | k, a, f, hinv, hp, hnr, hk => by
    by_cases hall : allAssigned f a = true
    · refine ⟨1, (Exit.sat, a), ?_⟩
      intro n hn
      obtain ⟨m, rfl⟩ : ∃ m, n = m + 1 := ⟨n - 1, by omega⟩
      rw [decideLoop, if_pos hall]
    · have hall' : allAssigned f a = false := by simpa using hall
      obtain ⟨hun, hv, -⟩ := pickVariable_spec hinv hwf.1 hall'
      have hinv2 := hinv.decide hp hun hv (pickVariable f a.increaseDecisionLevel).2
      have hm2 : trailMeasure F0.getVariables.length
          (a.increaseDecisionLevel.assign (pickVariable f a.increaseDecisionLevel).1
            (pickVariable f a.increaseDecisionLevel).2 []) =
          levelWeight F0.getVariables.length (a.decision_level + 1) +
            trailMeasure F0.getVariables.length a :=
        trailMeasure_assign (a := a.increaseDecisionLevel) hinv.t1 hun _ _
      have hw := levelWeight_pos F0.getVariables.length (a.decision_level + 1)
      obtain ⟨N1, r, hrun1, hpost1⟩ :=
        conflictLoop_total hwf.2.2.2 dflt _ _ f hinv2 hnr (le_refl _)
      obtain ⟨-, hsome⟩ := conflictLoop_sound hwf.2.2.2 dflt N1 _ _ hinv2 r (hrun1 N1 (le_refl _))
      cases r with
      | none =>
        refine ⟨N1 + 1, (Exit.unsatConflict, Assignments.empty), ?_⟩
        intro n hn
        obtain ⟨m, rfl⟩ : ∃ m, n = m + 1 := ⟨n - 1, by omega⟩
        rw [decideLoop, if_neg hall]
        simp only [hrun1 m (by omega)]
      | some p =>
        obtain ⟨a3, f3⟩ := p
        obtain ⟨hinv3, hp3⟩ := hsome a3 f3 rfl
        obtain ⟨hnr3, hm3⟩ := hpost1 a3 f3 rfl
        have hb3 := trailMeasure_le hinv3
        match k, hk with
        | 0, hk => omega
        | k + 1, hk =>
          obtain ⟨N3, res, hrun3⟩ := decideLoop_total hwf dflt k a3 f3 hinv3 hp3 hnr3 (by omega)
          refine ⟨max N1 N3 + 1, res, ?_⟩
          intro n hn
          obtain ⟨m, rfl⟩ : ∃ m, n = m + 1 := ⟨n - 1, by omega⟩
          have h1 : N1 ≤ m := by
            have := le_max_left N1 N3
            omega
          have h3 : N3 ≤ m := by
            have := le_max_right N1 N3
            omega
          rw [decideLoop, if_neg hall]
          simp only [hrun1 m h1]
          exact hrun3 m h3

theorem noRepeatedLiteral_of_noRepeat {F0 : Formula} (h : ∀ c ∈ F0.clauses, c.noRepeat) :
    noRepeatedLiteral F0 := fun c hc => List.Nodup.of_map _ (h c hc)

/-- Total correctness of `CDCLSolve`: on a well-formed formula whose clauses have no repeated
literal every sufficient fuel gives the same result. -/
theorem CDCLRun_total {F0 : Formula} (hwf : F0.wellFormed) (hnr : noRepeatedLiteral F0)
    (dflt : Literal) : ∃ N res, ∀ n, N ≤ n → CDCLRun dflt n F0 = Run.done res := by
  have hinv0 := Inv.initial hwf
  obtain ⟨⟨st, K, a⟩, hup, -⟩ :=
    unitPropagate_total dflt (F0.getVariables.length - Assignments.empty.size)
      Assignments.empty hinv0 (le_refl _)
  have hup' := hup _ (le_refl _)
  obtain ⟨hinv, -⟩ := unitPropagate_inv dflt _ _ st K a hinv0 hup'
  obtain ⟨hprop, -⟩ := unitPropagate_status hup'
  by_cases hst : st = UnitPropagationStatus.UNIT_CONFLICT
  · refine ⟨F0.getVariables.length - Assignments.empty.size + 1,
      (Exit.unsatInitial, Assignments.empty), ?_⟩
    intro n hn
    unfold CDCLRun
    rw [hup n hn]
    simp only [hst, if_true]
  · have hst' : st = UnitPropagationStatus.UNIT_UNRESOLVED := by
      cases st
      · exact absurd rfl hst
      · rfl
    obtain ⟨N2, res, hrun⟩ := decideLoop_total hwf dflt _ a F0 hinv (hprop hst') hnr (le_refl _)
    refine ⟨max (F0.getVariables.length - Assignments.empty.size + 1) N2, res, ?_⟩
    intro n hn
    unfold CDCLRun
    rw [hup n (le_trans (le_max_left _ _) hn)]
    simp only [hst, if_false]
    exact hrun n (le_trans (le_max_right _ _) hn)

/-! ## The verdicts of `CDCLSolve` -/

theorem CDCLSolve_of_run {dflt : Literal} {fuel : Nat} {F0 : Formula} {e : Exit}
    {a : Assignments} (h : CDCLRun dflt fuel F0 = Run.done (e, a)) :
    CDCLSolve dflt fuel F0 = Run.done a := by
  simp [CDCLSolve, h]

theorem satisfy_iff {a : Assignments} {F0 : Formula} :
    a.satisfy F0 = true ↔
      ∀ c ∈ F0.clauses, ∃ l ∈ c, a.find l.getVariable ≠ none ∧ a.value l = true := by
  unfold Assignments.satisfy
  simp only [List.all_eq_true, List.any_eq_true, Bool.and_eq_true, Option.isSome_iff_ne_none]

theorem satisfiable_of_satisfy {a : Assignments} {F0 : Formula} (h : a.satisfy F0 = true) :
    F0.satisfiable := by
  refine ⟨fun v => ((a.find v).map Assignment.getValue).getD false, ?_⟩
  intro c hc
  obtain ⟨l, hl, hlf, hlv⟩ := satisfy_iff.1 h c hc
  refine ⟨l, hl, ?_⟩
  cases hr : a.find l.getVariable with
  | none => exact absurd hr hlf
  | some r =>
    rw [eval_eq_value hr (by simp [hr])]
    exact hlv

theorem size_eq_of_keys {a : Assignments} {vars : List Int} (hnd : vars.Nodup)
    (h : ∀ v, v ∈ a.store.keys ↔ v ∈ vars) : a.size = vars.length :=
  ((List.perm_ext_iff_of_nodup a.store.keys_nodup hnd).2 h).length_eq

/-- The shape of the result of `CDCLSolve` on a formula with at least one variable: with
enough fuel it returns a store that is non-empty iff the formula is satisfiable. -/
theorem CDCLSolve_shape {F0 : Formula} (hwf : F0.wellFormed) (hnr : noRepeatedLiteral F0)
    (hne : F0.getVariables ≠ []) (dflt : Literal) :
    ∃ N a, (∀ n, N ≤ n → CDCLSolve dflt n F0 = Run.done a) ∧
      (F0.satisfiable → a.size ≠ 0) ∧ (¬ F0.satisfiable → a.size = 0) := by
  obtain ⟨N, ⟨e, a⟩, hrun⟩ := CDCLRun_total hwf hnr dflt
  obtain ⟨hsat, hunsat⟩ := CDCLRun_sound hwf dflt N e a (hrun N (le_refl _))
  refine ⟨N, a, fun n hn => CDCLSolve_of_run (hrun n hn), ?_, ?_⟩
  · intro hs
    by_cases he : e = Exit.sat
    · rw [size_eq_of_keys hwf.1 (hsat he).2]
      exact fun h0 => hne (List.length_eq_zero.1 h0)
    · exact absurd hs (hunsat he).1
  · intro hs
    by_cases he : e = Exit.sat
    · exact absurd (satisfiable_of_satisfy (hsat he).1) hs
    · rw [(hunsat he).2]
      rfl

/-! ## The operations of the store and of the clause status, one by one -/

/-- Postcondition of `backtrack` on a store with T1 and T2: it returns, the level is the
target, the surviving records are those of the kept (older) part of the trail, unchanged
and of a level at most the target, and T1 and T2 still hold. -/
theorem backtrack_post {a : Assignments} (h1 : T1 a) (h2 : T2 a) (L : Int) :
    ∃ a2, backtrack a L = Run.done a2 ∧ a2.decision_level = L ∧
      (∀ v, ∀ r ∈ a2.find v, r.getDecisionLevel ≤ L ∧ a.find v = some r) ∧
      a2.trail <:+ a.trail ∧ T1 a2 ∧ T2 a2 := by
  obtain ⟨a2, popped, hrun, hlev, htrail, -, -, hkeep, hkeepL, -, ht1⟩ := backtrack_spec h1 h2 L
  refine ⟨a2, hrun, hlev, ?_, ⟨popped, htrail.symm⟩, ht1, ?_⟩
  · intro v r hr
    have hvt : v ∈ a2.trail := ht1.mem_trail.2 (by
      intro hn
      rw [hn] at hr
      cases hr)
    have hr' : a.find v = some r := by rw [← hkeep v hvt]; exact hr
    exact ⟨hkeepL v hvt _ (levelOf_eq_some.2 ⟨r, hr', rfl⟩), hr'⟩
  · unfold T2 at h2 ⊢
    rw [htrail] at h2
    exact onTrail_agree (P := T2At) (fun v t => T2At_agree) _ hkeep (onTrail_suffix h2)

theorem value_spec (a : Assignments) (l : Literal) :
    (a.find l.getVariable = none → a.value l = false) ∧
      ∀ r, a.find l.getVariable = some r →
        a.value l = if l.isNegated then !r.getValue else r.getValue := by
  constructor
  · intro h
    exact value_false_of_find_none h
  · intro r h
    simp [Assignments.value, h]

theorem unassign_popTrail_spec (a : Assignments) (v : Int) (t : List Int)
    (h : a.trail = v :: t) :
    ((a.unassign v).popTrail).find v = none ∧ ((a.unassign v).popTrail).trail = t ∧
      ((a.unassign v).popTrail).trail.length + 1 = a.trail.length ∧
      (∀ w, w ≠ v → ((a.unassign v).popTrail).find w = a.find w) ∧
      (a.trail.Nodup → v ∉ ((a.unassign v).popTrail).trail) := by
  have ht : ((a.unassign v).popTrail).trail = t := by
    simp [Assignments.popTrail, Assignments.unassign, h]
  refine ⟨?_, ht, by rw [ht, h]; rfl, ?_, ?_⟩
  · simp [Assignments.popTrail, Assignments.unassign, Assignments.find, AList.lookup_erase]
  · intro w hw
    simp [Assignments.popTrail, Assignments.unassign, Assignments.find,
      AList.lookup_erase_ne hw]
  · intro hnd
    rw [ht]
    rw [h, List.nodup_cons] at hnd
    exact hnd.1

theorem satisfy_spec (a : Assignments) (f : Formula) :
    (a.satisfy f = true ↔
      ∀ c ∈ f.clauses, ∃ l ∈ c, a.find l.getVariable ≠ none ∧ a.value l = true) ∧
    (f.clauses = [] → a.satisfy f = true) ∧
    ([] ∈ f.clauses → a.satisfy f = false) ∧
    (∀ c ∈ f.clauses, (∀ l ∈ c, a.find l.getVariable = none ∨ a.value l = false) →
      a.satisfy f = false) := by
  have hfalse : ∀ c ∈ f.clauses,
      (∀ l ∈ c, a.find l.getVariable = none ∨ a.value l = false) → a.satisfy f = false := by
    intro c hc hall
    cases hs : a.satisfy f with
    | false => rfl
    | true =>
      obtain ⟨l, hl, hlf, hlv⟩ := satisfy_iff.1 hs c hc
      rcases hall l hl with h | h
      · exact absurd h hlf
      · rw [h] at hlv
        cases hlv
  refine ⟨satisfy_iff, ?_, ?_, hfalse⟩
  · intro h
    rw [satisfy_iff, h]
    intro c hc
    cases hc
  · intro h
    exact hfalse [] h (fun l hl => by cases hl)

/-- The second conjunct of the UNIT test of `checkClauseStatus` is redundant: when the test
is reached no literal was true, and the two counts add up to the length of the clause. -/
theorem checkClauseStatus_eq_unitOnly (c : Clause) (a : Assignments) (u : Literal) :
    checkClauseStatus c a u = checkClauseStatusUnitOnly c a u := by
  rcases not_value_true_or a c with ht | hf
  · obtain ⟨ul, hul⟩ := checkLoop_true a c 0 0 u ht
    simp [checkClauseStatus, checkClauseStatusUnitOnly, hul]
  · have hadd := counts_add a c
    simp only [checkClauseStatus, checkClauseStatusUnitOnly, checkLoop_false a c 0 0 u hf,
      zero_add]
    by_cases h0 : (assignedCount a c : Int) = (c.length : Int)
    · simp [h0]
    · by_cases h1 : (unassignedCount a c : Int) = 1
      · have h2 : (assignedCount a c : Int) = (c.length : Int) - 1 := by omega
        simp [h0, h1, h2]
      · simp [h0, h1]

/-- When the UNIT test of `checkClauseStatus` is reached, the two counts add up to the
length of the clause. -/
theorem checkLoop_counts (c : Clause) (a : Assignments) (u : Literal) (n m : Int)
    (ul : Literal) (h : checkLoop a c 0 0 u = Sum.inr (n, m, ul)) :
    n + m = (c.length : Int) ∧ ∀ l ∈ c, a.value l = false := by
  rcases not_value_true_or a c with ht | hf
  · obtain ⟨ul1, hul⟩ := checkLoop_true a c 0 0 u ht
    rw [hul] at h
    cases h
  · rw [checkLoop_false a c 0 0 u hf] at h
    simp only [zero_add, Sum.inr.injEq, Prod.mk.injEq] at h
    obtain ⟨rfl, rfl, -⟩ := h
    have hadd := counts_add a c
    exact ⟨by omega, hf⟩

/-- The clause `resolve` returns has no literal twice and holds the literals of the two
clauses that are not over the variable. -/
theorem resolve_members (A B : Clause) (v : Int) :
    (resolve A B v).Nodup ∧
      (∀ l, l ∈ resolve A B v ↔ (l ∈ A ∨ l ∈ B) ∧ l.getVariable ≠ v) ∧
      ∀ l ∈ resolve A B v, l.getVariable ≠ v :=
  ⟨nodup_resolve A B v, fun _ => mem_resolve, fun _ hl => (mem_resolve.1 hl).2⟩

/-- The variant of `checkClauseStatus` without the second conjunct of the UNIT test returns
the same pair, and at the UNIT test the counts add up to the length of the clause and no
literal is true. -/
theorem checkClauseStatus_unit_conjunct (c : Clause) (a : Assignments) (u : Literal) :
    checkClauseStatus c a u = checkClauseStatusUnitOnly c a u ∧
      ∀ unassigned_count false_count ul,
        checkLoop a c 0 0 u = Sum.inr (unassigned_count, false_count, ul) →
          unassigned_count + false_count = (c.length : Int) ∧ ∀ l ∈ c, a.value l = false :=
  ⟨checkClauseStatus_eq_unitOnly c a u, fun n m ul h => checkLoop_counts c a u n m ul h⟩

/-! ## The working clause of conflict analysis -/

theorem WorkingClause.falsified_of {a : Assignments} {K : Clause} (h1 : T1 a) (h4 : T4 a)
    (hK : falsified a K) : ∀ {W : Clause}, WorkingClause a K W → falsified a W := by
  intro W hW
  induction hW with
  | start => exact hK
  | step W k v r _ _ _ _ hr ih =>
    have hvt : v ∈ a.trail := h1.mem_trail.2 (by simp [hr])
    obtain ⟨pre, t, ht⟩ := List.append_of_mem hvt
    exact falsified_resolve h4 ht hr ih

theorem WorkingClause.nodup_of {a : Assignments} {K : Clause} (hK : K.Nodup) :
    ∀ {W : Clause}, WorkingClause a K W → W.Nodup := by
  intro W hW
  cases hW with
  | start => exact hK
  | step W k v r _ _ _ _ _ => exact nodup_resolve _ _ _

theorem analysisLoop_working {a : Assignments} {K : Clause} :
    ∀ (fuel : Nat) (W0 W : Clause), WorkingClause a K W0 →
      analysisLoop fuel W0 a = Run.done W → WorkingClause a K W
  | 0, _, _, _, h => by simp [analysisLoop] at h
  | fuel + 1, W0, W, hW0, h => by
    rw [analysisLoop] at h
    cases hc : countAtCurrentLevel a W0 0 with
    | thrown => simp [hc] at h
    | outOfFuel => simp [hc] at h
    | done k =>
      simp only [hc] at h
      split_ifs at h with hk
      · simp only [Run.done.injEq] at h
        subst h
        exact hW0
      · cases hv : findVarToResolve a (seenVariables W0) a.getTrail with
        | thrown => simp [hv] at h
        | outOfFuel => simp [hv] at h
        | done v =>
          simp only [hv] at h
          cases hf : a.find v with
          | none => simp [hf] at h
          | some r =>
            simp only [hf] at h
            exact analysisLoop_working fuel _ W
              (WorkingClause.step W0 k v r hW0 hc hk hv hf) h

theorem noRepeat_of_falsified {a : Assignments} {W : Clause} (hW : falsified a W)
    (hnd : W.Nodup) : W.noRepeat :=
  List.Nodup.map_on (fun x hx y hy hxy => falsified_eq_of_var (hW x hx) (hW y hy) hxy) hnd

/-- Under T1 and T4 every value of the working clause of `conflict_analysis` on a falsified
clause without repeated literal is falsified and has no variable twice; so is the clause
the analysis returns. -/
theorem working_clause_spec {a : Assignments} {K : Clause} (h1 : T1 a) (h4 : T4 a)
    (hK : falsified a K) (hnd : K.Nodup) :
    (∀ W, WorkingClause a K W → falsified a W ∧ W.noRepeat) ∧
    ∀ fuel L W, a.decision_level ≠ 0 → conflict_analysis fuel K a = Run.done (L, W) →
      WorkingClause a K W ∧ falsified a W ∧
        (∀ l1 ∈ W, ∀ l2 ∈ W, l1.getVariable = l2.getVariable →
          l1.isNegated = l2.isNegated) ∧
        W.noRepeat ∧ ∀ l ∈ W, a.find l.getVariable ≠ none := by
  have hall : ∀ W, WorkingClause a K W → falsified a W ∧ W.noRepeat := fun W hW =>
    ⟨WorkingClause.falsified_of h1 h4 hK hW,
      noRepeat_of_falsified (WorkingClause.falsified_of h1 h4 hK hW)
        (WorkingClause.nodup_of hnd hW)⟩
  refine ⟨hall, ?_⟩
  intro fuel L W hd hca
  obtain ⟨hloop, -⟩ := conflict_analysis_done hd hca
  have hW := analysisLoop_working fuel K W WorkingClause.start hloop
  obtain ⟨hf, hnr⟩ := hall W hW
  refine ⟨hW, hf, ?_, hnr, fun l hl => (hf l hl).1⟩
  intro l1 h1' l2 h2' hv
  rw [falsified_eq_of_var (hf l1 h1') (hf l2 h2') hv]

/-! ## The program points of a run -/

/-- At every program point of a run the state invariant holds; at the loop test propagation
is complete, and after a conflict the conflicting clause is a falsified clause of the
formula. -/
theorem Reach.inv {dflt : Literal} {F0 : Formula} (hwf : F0.wellFormed) :
    ∀ {p : Point}, Reach dflt F0 p → Inv F0 p.formula p.assignments ∧
      (∀ f a, p = Point.loop f a → propagated f a) ∧
      (∀ f a K, p = Point.conflict f a K → K ∈ f.clauses ∧ falsified a K) := by
  intro p hp
  induction hp with
  | init =>
    exact ⟨Inv.initial hwf, (fun f a h => by cases h), (fun f a K h => by cases h)⟩
  | unresolved f a fuel K b _ hup ih =>
    obtain ⟨hinv, -⟩ := unitPropagate_inv dflt fuel a _ K b ih.1 hup
    refine ⟨hinv, ?_, (fun f a K h => by cases h)⟩
    intro f' a' h
    cases h
    exact (unitPropagate_status hup).1 rfl
  | conflict f a fuel K b _ hup ih =>
    obtain ⟨hinv, -⟩ := unitPropagate_inv dflt fuel a _ K b ih.1 hup
    refine ⟨hinv, (fun f a h => by cases h), ?_⟩
    intro f' a' K' h
    cases h
    exact (unitPropagate_status hup).2 rfl
  | decide f a _ hall ih =>
    obtain ⟨hun, hv, -⟩ := pickVariable_spec ih.1 hwf.1 hall
    exact ⟨ih.1.decide (ih.2.1 f a rfl) hun hv _, (fun f a h => by cases h),
      (fun f a K h => by cases h)⟩
  | learn f a K fuel L W b _ hd hca hback ih =>
    obtain ⟨hK, hf⟩ := ih.2.2 f a K rfl
    have ih1 : Inv F0 f a := ih.1
    obtain ⟨a2, popped, hback2, hinv, -⟩ :=
      Inv.learn ih1 hwf.2.2.2 (by simpa [Assignments.getDecisionLevel] using hd) hK hf dflt
        hca
    rw [hback] at hback2
    simp only [Run.done.injEq] at hback2
    subst hback2
    exact ⟨hinv, (fun f a h => by cases h), (fun f a K h => by cases h)⟩

/-- The learned clause is asserting: after the backjump it has exactly one unassigned
literal, the one that was at the level of the conflict, all its other literals are assigned
and false, and `checkClauseStatus` reports UNIT with that literal. -/
theorem Inv.asserting {F0 f : Formula} {a : Assignments} (h : Inv F0 f a)
    (hpos : ∀ v ∈ F0.getVariables, 0 < v) (hd : a.decision_level ≠ 0) {K : Clause}
    (hK : K ∈ f.clauses) (hf : falsified a K) (dflt : Literal) {fuel : Nat} {L : Int}
    {W : Clause} (hca : conflict_analysis fuel K a = Run.done (L, W)) :
    ∃ a2, backtrack a L = Run.done a2 ∧ a2.decision_level = L ∧
      (checkClauseStatus W a2 dflt).1 = ClauseStatus.UNIT ∧
      unassignedCount a2 W = 1 ∧
      a2.find (checkClauseStatus W a2 dflt).2.getVariable = none ∧
      a.levelOf (checkClauseStatus W a2 dflt).2.getVariable = some a.decision_level ∧
      ∃ pre post, W = pre ++ (checkClauseStatus W a2 dflt).2 :: post ∧
        ∀ x ∈ pre ++ post, a2.find x.getVariable ≠ none ∧ a2.value x = false := by
  have hd' : 0 < a.decision_level := lt_of_le_of_ne h.level (Ne.symm hd)
  obtain ⟨hloop, -⟩ := conflict_analysis_done hd hca
  obtain ⟨hW, hone, hent, hvars, -⟩ :=
    analysisLoop_sound h hpos hd' fuel K W hf (h.conflict_level hd' hK hf)
      (h.entailed K hK) (h.clauseVars K hK) hloop
  obtain ⟨hz, hmax, hL0, hLd⟩ := conflict_analysis_level_bounded hd' h.bounded hca
  obtain ⟨-, hmax2, -⟩ := conflict_analysis_level hd' hca
  have hLmax : ∀ l ∈ W, ∀ x ∈ a.levelOf l.getVariable, x < a.decision_level → x ≤ L :=
    fun l hl x hx hlt => (hmax2 ⟨l, hl, x, hx, hlt⟩).2 l hl x hx hlt
  obtain ⟨a2, popped, hback, hinv2, hlev2, htrail, hpop, hkeep, hfalse2, hone2, -⟩ :=
    h.backjump (L := L) hW hent hvars hone hL0 hLd hLmax
      (fun hLpos => by
        by_contra hcon
        have : ∀ l ∈ W, ∀ x ∈ a.levelOf l.getVariable, x = a.decision_level := by
          intro l hl x hx
          by_contra hne
          obtain ⟨l', hl', hll', -⟩ := (hmax ⟨l, hl, x, hx, hne⟩).1
          exact hcon ⟨l', hl', hll'⟩
        have := hz this
        omega)
  have hst := checkClauseStatus_of_false dflt hfalse2
  have hul := lastUnassigned_of_pos (a := a2) (c := W) dflt (by omega)
  have hsnd : (checkClauseStatus W a2 dflt).2 = lastUnassigned a2 W dflt := by rw [hst]
  have hfst : (checkClauseStatus W a2 dflt).1 = ClauseStatus.UNIT := by
    rw [hst]
    simp [hone2]
  rw [← hsnd] at hul
  refine ⟨a2, hback, hlev2, hfst, hone2, hul.2, ?_, ?_⟩
  · -- the unit literal was at the level of the conflict
    cases hx : a.levelOf (checkClauseStatus W a2 dflt).2.getVariable with
    | none => exact absurd (levelOf_eq_none.1 hx) (hW _ hul.1).1
    | some x =>
      have hxd := (h.bounded.levelOf hx).2
      have hvt : (checkClauseStatus W a2 dflt).2.getVariable ∈ a.trail :=
        h.t1.mem_trail.2 (hW _ hul.1).1
      rw [htrail] at hvt
      rcases List.mem_append.1 hvt with hp | hk
      · have h1 := hpop _ hp x hx
        by_cases hxeq : x = a.decision_level
        · rw [hxeq]
        · have := hLmax _ hul.1 x hx (by omega)
          omega
      · have := hkeep _ hk
        rw [hul.2] at this
        exact absurd this.symm (hW _ hul.1).1
  · obtain ⟨pre, x, post, hWeq, hx, hall⟩ := unassignedCount_eq_one.1 hone2
    have hxul : (checkClauseStatus W a2 dflt).2 = x := by
      have hsub : ∀ u, u ∈ W → u ∈ pre ++ x :: post := fun u hu => hWeq ▸ hu
      have hmem := hsub _ hul.1
      simp only [List.mem_append, List.mem_cons] at hmem
      rcases hmem with hm | hm | hm
      · exact absurd hul.2 (hall _ (List.mem_append_left _ hm))
      · exact hm
      · exact absurd hul.2 (hall _ (List.mem_append_right _ hm))
    refine ⟨pre, post, by rw [hxul]; exact hWeq, fun y hy => ⟨hall y hy, hfalse2 y ?_⟩⟩
    rw [hWeq]
    simp only [List.mem_append, List.mem_cons] at hy ⊢
    tauto

theorem Inv.learned_entailed {F0 f : Formula} {a : Assignments} (h : Inv F0 f a)
    (hpos : ∀ v ∈ F0.getVariables, 0 < v) (hd : a.decision_level ≠ 0) {K : Clause}
    (hK : K ∈ f.clauses) (hf : falsified a K) {fuel : Nat} {L : Int} {W : Clause}
    (hca : conflict_analysis fuel K a = Run.done (L, W)) :
    ∀ M, models M F0.clauses → Clause.holds M W := by
  have hd' : 0 < a.decision_level := lt_of_le_of_ne h.level (Ne.symm hd)
  obtain ⟨hloop, -⟩ := conflict_analysis_done hd hca
  exact (analysisLoop_sound h hpos hd' fuel K W hf (h.conflict_level hd' hK hf)
    (h.entailed K hK) (h.clauseVars K hK) hloop).2.2.1

theorem propagatePass_level (dflt : Literal) :
    ∀ (cs : List Clause) (a : Assignments) (ch : Bool),
      match propagatePass dflt a cs ch with
      | Pass.conflict a1 _ => a1.decision_level = a.decision_level
      | Pass.scanned a1 _ => a1.decision_level = a.decision_level
  | [], a, ch => by
    rw [propagatePass]
  | c :: cs, a, ch => by
    rw [propagatePass_cons]
    split_ifs with h1 h2
    · have ih := propagatePass_level dflt cs
        (a.assign (checkClauseStatus c a dflt).2.getVariable
          (!(checkClauseStatus c a dflt).2.isNegated) c) true
      revert ih
      cases propagatePass dflt _ cs true with
      | conflict a1 K => exact fun ih => ih
      | scanned a1 ch1 => exact fun ih => ih
    · rfl
    · exact propagatePass_level dflt cs a ch

theorem unitPropagate_level (dflt : Literal) :
    ∀ (fuel : Nat) (a : Assignments) (f : Formula)
      {res : UnitPropagationStatus × Clause × Assignments},
      unitPropagate dflt fuel a f = Run.done res → res.2.2.decision_level = a.decision_level
  | 0, _, _, _, h => by simp [unitPropagate] at h
  | fuel + 1, a, f, res, h => by
    rw [unitPropagate_succ] at h
    have hp := propagatePass_level dflt f.clauses a false
    cases hpass : propagatePass dflt a f.clauses false with
    | conflict a2 K2 =>
      rw [hpass] at h hp
      simp only [Run.done.injEq] at h
      subst h
      exact hp
    | scanned a2 ch =>
      rw [hpass] at h hp
      cases ch with
      | true =>
        have := unitPropagate_level dflt fuel a2 f (by simpa using h)
        exact this.trans hp
      | false =>
        simp only [Bool.false_eq_true, if_false, Run.done.injEq] at h
        subst h
        exact hp

/-- The inner loop of `CDCLSolve` moves along the program points: from a point before
propagation it ends at the loop test, or at a conflict at level 0. -/
theorem conflictLoop_reach {dflt : Literal} {F0 : Formula} :
    ∀ (fuel : Nat) (a : Assignments) (f : Formula), Reach dflt F0 (Point.propagate f a) →
      ∀ r, conflictLoop dflt fuel a f = Run.done r →
        (∀ a1 f1, r = some (a1, f1) → Reach dflt F0 (Point.loop f1 a1)) ∧
        (r = none → ∃ f1 a1 K, Reach dflt F0 (Point.conflict f1 a1 K) ∧
          a1.getDecisionLevel = 0)
  | 0, _, _, _, _, hrun => by simp [conflictLoop] at hrun
  | fuel + 1, a, f, hreach, r, hrun => by
    rw [conflictLoop] at hrun
    cases hup : unitPropagate dflt (fuel + 1) a f with
    | thrown => simp [hup] at hrun
    | outOfFuel => simp [hup] at hrun
    | done res =>
      obtain ⟨st, K, a1⟩ := res
      simp only [hup] at hrun
      cases st with
      | UNIT_UNRESOLVED =>
        simp only [ne_eq, not_false_eq_true, if_true, Run.done.injEq, reduceCtorEq] at hrun
        subst hrun
        refine ⟨?_, (fun h => by cases h)⟩
        intro a2 f2 he
        simp only [Option.some.injEq, Prod.mk.injEq] at he
        obtain ⟨rfl, rfl⟩ := he
        exact Reach.unresolved f a _ K a1 hreach hup
      | UNIT_CONFLICT =>
        have hc := Reach.conflict f a _ K a1 hreach hup
        simp only [ne_eq, not_true_eq_false, if_false] at hrun
        split_ifs at hrun with hlev
        · simp only [Run.done.injEq] at hrun
          subst hrun
          exact ⟨(fun a2 f2 he => by cases he), fun _ => ⟨f, a1, K, hc, hlev⟩⟩
        · cases hca : conflict_analysis (fuel + 1) K a1 with
          | thrown => simp [hca] at hrun
          | outOfFuel => simp [hca] at hrun
          | done res2 =>
            obtain ⟨L, W⟩ := res2
            simp only [hca] at hrun
            cases hback : backtrack a1 L with
            | thrown => simp [hback] at hrun
            | outOfFuel => simp [hback] at hrun
            | done a2 =>
              simp only [hback] at hrun
              exact conflictLoop_reach fuel _ _
                (Reach.learn f a1 K _ L W a2 hc hlev hca hback) r hrun

theorem decideLoop_reach {dflt : Literal} {F0 : Formula} :
    ∀ (fuel : Nat) (a : Assignments) (f : Formula), Reach dflt F0 (Point.loop f a) →
      ∀ e a1, decideLoop dflt fuel a f = Run.done (e, a1) →
        (e = Exit.sat → ∃ f1, Reach dflt F0 (Point.loop f1 a1) ∧ allAssigned f1 a1 = true) ∧
        (e ≠ Exit.sat → ∃ f1 a2 K, Reach dflt F0 (Point.conflict f1 a2 K) ∧
          a2.getDecisionLevel = 0)
  | 0, _, _, _, _, _, hrun => by simp [decideLoop] at hrun
  | fuel + 1, a, f, hreach, e, a1, hrun => by
    rw [decideLoop] at hrun
    split_ifs at hrun with hall
    · simp only [Run.done.injEq, Prod.mk.injEq] at hrun
      obtain ⟨rfl, rfl⟩ := hrun
      exact ⟨fun _ => ⟨f, hreach, hall⟩, fun hne => absurd rfl hne⟩
    · have hall' : allAssigned f a = false := by simpa using hall
      have hdec := Reach.decide f a hreach hall'
      simp only at hrun
      cases hcl : conflictLoop dflt fuel
          (a.increaseDecisionLevel.assign (pickVariable f a.increaseDecisionLevel).1
            (pickVariable f a.increaseDecisionLevel).2 []) f with
      | thrown => simp [hcl] at hrun
      | outOfFuel => simp [hcl] at hrun
      | done res =>
        obtain ⟨hsome, hnone⟩ := conflictLoop_reach fuel _ _ hdec res hcl
        cases res with
        | none =>
          simp only [hcl, Run.done.injEq, Prod.mk.injEq] at hrun
          obtain ⟨rfl, rfl⟩ := hrun
          exact ⟨(fun he => by cases he), fun _ => hnone rfl⟩
        | some p =>
          obtain ⟨a3, f3⟩ := p
          simp only [hcl] at hrun
          exact decideLoop_reach fuel a3 f3 (hsome a3 f3 rfl) e a1 hrun

/-- A run of `CDCLSolve` ends at a program point of the step relation: the SAT exit at a
loop test where all variables are assigned, with the returned store; an UNSAT exit at a
conflict at level 0. -/
theorem CDCLRun_reach {dflt : Literal} {F0 : Formula} {fuel : Nat} {e : Exit}
    {a1 : Assignments} (hrun : CDCLRun dflt fuel F0 = Run.done (e, a1)) :
    (e = Exit.sat → ∃ f1, Reach dflt F0 (Point.loop f1 a1) ∧ allAssigned f1 a1 = true) ∧
    (e ≠ Exit.sat → ∃ f1 a2 K, Reach dflt F0 (Point.conflict f1 a2 K) ∧
      a2.getDecisionLevel = 0) := by
  unfold CDCLRun at hrun
  cases hup : unitPropagate dflt fuel Assignments.empty F0 with
  | thrown => simp [hup] at hrun
  | outOfFuel => simp [hup] at hrun
  | done res =>
    obtain ⟨st, K, a⟩ := res
    simp only [hup] at hrun
    cases st with
    | UNIT_CONFLICT =>
      have hc := Reach.conflict F0 Assignments.empty _ K a Reach.init hup
      have hlev : a.getDecisionLevel = 0 := unitPropagate_level dflt _ _ _ hup
      simp only [if_true, Run.done.injEq, Prod.mk.injEq] at hrun
      obtain ⟨rfl, rfl⟩ := hrun
      exact ⟨(fun he => by cases he), fun _ => ⟨F0, a, K, hc, hlev⟩⟩
    | UNIT_UNRESOLVED =>
      simp only [reduceCtorEq, if_false] at hrun
      exact decideLoop_reach fuel a F0
        (Reach.unresolved F0 Assignments.empty _ K a Reach.init hup) e a1 hrun

/-- At a conflict of a run at a level above 0, the clause `conflict_analysis` returns is
asserting after the backjump (`Inv.asserting`, at a program point of the run). -/
theorem Reach.unit_after_backjump {dflt : Literal} {F0 f : Formula} {a : Assignments}
    {K : Clause} (hwf : F0.wellFormed) (hreach : Reach dflt F0 (Point.conflict f a K))
    (hd : 0 < a.getDecisionLevel) {fuel : Nat} {L : Int} {W : Clause}
    (hca : conflict_analysis fuel K a = Run.done (L, W)) :
    ∃ a2, backtrack a L = Run.done a2 ∧ W ∈ (addClause f W).clauses ∧
      a2.getDecisionLevel = L ∧
      (checkClauseStatus W a2 dflt).1 = ClauseStatus.UNIT ∧
      unassignedCount a2 W = 1 ∧
      a2.find (checkClauseStatus W a2 dflt).2.getVariable = none ∧
      a.levelOf (checkClauseStatus W a2 dflt).2.getVariable = some a.getDecisionLevel ∧
      ∃ pre post, W = pre ++ (checkClauseStatus W a2 dflt).2 :: post ∧
        ∀ x ∈ pre ++ post, a2.find x.getVariable ≠ none ∧ a2.value x = false := by
  obtain ⟨hinv, -, hconf⟩ := Reach.inv hwf hreach
  obtain ⟨hK, hf⟩ := hconf f a K rfl
  have hinv' : Inv F0 f a := hinv
  have hd' : a.decision_level ≠ 0 := by
    have : 0 < a.decision_level := hd
    omega
  obtain ⟨a2, h1, h2, h3, h4, h5, h6, h7⟩ :=
    Inv.asserting hinv' hwf.2.2.2 hd' hK hf dflt hca
  exact ⟨a2, h1, by simp [addClause, Formula.addClause], h2, h3, h4, h5, h6, h7⟩

/-- At a conflict of a run at a level other than 0, the clause `conflict_analysis` returns is
a consequence of the input formula. -/
theorem Reach.entailment {dflt : Literal} {F0 f : Formula} {a : Assignments}
    {K : Clause} (hwf : F0.wellFormed) (hreach : Reach dflt F0 (Point.conflict f a K))
    (hd : a.getDecisionLevel ≠ 0) {fuel : Nat} {L : Int} {W : Clause}
    (hca : conflict_analysis fuel K a = Run.done (L, W)) :
    ∀ M : Int → Bool, models M F0.clauses → Clause.holds M W := by
  obtain ⟨hinv, -, hconf⟩ := Reach.inv hwf hreach
  obtain ⟨hK, hf⟩ := hconf f a K rfl
  have hinv' : Inv F0 f a := hinv
  exact Inv.learned_entailed hinv' hwf.2.2.2 hd hK hf hca

/-- The trail invariants T1-T4 hold of the empty store, at every program point of a run, and
of the store a run returns at its SAT exit, which is the store of a program point. -/
theorem Reach.discipline (dflt : Literal) {F0 : Formula} (hwf : F0.wellFormed) :
    (T1 Assignments.empty ∧ T2 Assignments.empty ∧ T3 Assignments.empty ∧
      T4 Assignments.empty) ∧
    (∀ p, Reach dflt F0 p →
      T1 p.assignments ∧ T2 p.assignments ∧ T3 p.assignments ∧ T4 p.assignments) ∧
    ∀ fuel a1, CDCLRun dflt fuel F0 = Run.done (Exit.sat, a1) →
      (∃ f1, Reach dflt F0 (Point.loop f1 a1)) ∧ T1 a1 ∧ T2 a1 ∧ T3 a1 ∧ T4 a1 := by
  have hall : ∀ p, Reach dflt F0 p →
      T1 p.assignments ∧ T2 p.assignments ∧ T3 p.assignments ∧ T4 p.assignments := by
    intro p hp
    have h := (Reach.inv hwf hp).1
    exact ⟨h.t1, h.t2, h.t3, h.t4⟩
  refine ⟨hall _ Reach.init, hall, ?_⟩
  intro fuel a1 hrun
  obtain ⟨f1, hreach, -⟩ := (CDCLRun_reach hrun).1 rfl
  exact ⟨⟨f1, hreach⟩, hall _ hreach⟩

/-- The run of `CDCLSolve` on `Example.learning` reaches its conflict: no clause is unit at
the start, the decision x1 is made, and propagation derives x4 and x5 and finds
(¬x1 ∨ ¬x4 ∨ ¬x5) falsified. -/
theorem Example.reach_conflict :
    Reach (Example.pos 0) Example.learning
      (Point.conflict Example.learning Example.conflictStore Example.conflictClause) :=
  Reach.conflict Example.learning Example.decisionStore 3 Example.conflictClause
    Example.conflictStore
    (Reach.decide Example.learning Assignments.empty
      (Reach.unresolved Example.learning Assignments.empty 1 [] Assignments.empty
        Reach.init rfl) rfl) rfl

/-! ## The claims -/

/-- C6: `checkClauseStatus` returns SATISFIED iff some literal is assigned and true,
UNSATISFIED iff every literal is assigned and false, UNIT iff exactly one literal (occurrence)
is unassigned and all the others are assigned and false, in which case the `unit_literal`
output is that literal, and UNRESOLVED iff no literal is assigned and true and at least two
literals are unassigned. -/
theorem checkClauseStatus_classification (c : Clause) (a : Assignments) (u : Literal) :
    ((checkClauseStatus c a u).1 = ClauseStatus.SATISFIED ↔
        ∃ l ∈ c, a.find l.getVariable ≠ none ∧ a.value l = true) ∧
    ((checkClauseStatus c a u).1 = ClauseStatus.UNSATISFIED ↔
        ∀ l ∈ c, a.find l.getVariable ≠ none ∧ a.value l = false) ∧
    ((checkClauseStatus c a u).1 = ClauseStatus.UNIT ↔
        ∃ pre l post, c = pre ++ l :: post ∧ a.find l.getVariable = none ∧
          ∀ x ∈ pre ++ post, a.find x.getVariable ≠ none ∧ a.value x = false) ∧
    (∀ pre l post, c = pre ++ l :: post → a.find l.getVariable = none →
        (∀ x ∈ pre ++ post, a.find x.getVariable ≠ none ∧ a.value x = false) →
        (checkClauseStatus c a u).2 = l) ∧
    ((checkClauseStatus c a u).1 = ClauseStatus.UNRESOLVED ↔
        (∀ l ∈ c, ¬ (a.find l.getVariable ≠ none ∧ a.value l = true)) ∧
          2 ≤ unassignedCount a c) :=
  checkClauseStatus_classes c a u

/-- C7: when `unitPropagate` returns UNIT_UNRESOLVED, no clause of the formula is UNIT and no
clause is UNSATISFIED under the store it leaves behind: every clause is SATISFIED or
UNRESOLVED as classified by `checkClauseStatus`. -/
theorem unitPropagate_unresolved_fixpoint (dflt : Literal) (fuel : Nat) (a : Assignments)
    (f : Formula) (K : Clause) (a1 : Assignments)
    (h : unitPropagate dflt fuel a f =
      Run.done (UnitPropagationStatus.UNIT_UNRESOLVED, K, a1)) :
    ∀ c ∈ f.clauses, ∀ u : Literal,
      (checkClauseStatus c a1 u).1 = ClauseStatus.SATISFIED ∨
        (checkClauseStatus c a1 u).1 = ClauseStatus.UNRESOLVED :=
  unitPropagate_unresolved dflt fuel a f K a1 h

/-- C8: when `unitPropagate` returns (UNIT_CONFLICT, K), K is a clause of the formula, every
literal of K is assigned and false under the store at return, and K is the first clause, in
formula order, found UNSATISFIED in the pass that stopped: that pass started from some store
`a0`, scanned the clauses before K without a conflict and reached the returned store. -/
theorem unitPropagate_conflict_report (dflt : Literal) (fuel : Nat) (a : Assignments)
    (f : Formula) (K : Clause) (a1 : Assignments)
    (h : unitPropagate dflt fuel a f =
      Run.done (UnitPropagationStatus.UNIT_CONFLICT, K, a1)) :
    K ∈ f.clauses ∧
      (∀ u : Literal, (checkClauseStatus K a1 u).1 = ClauseStatus.UNSATISFIED) ∧
      (∀ l ∈ K, a1.find l.getVariable ≠ none ∧ a1.value l = false) ∧
      ∃ a0 pre post ch, f.clauses = pre ++ K :: post ∧
        propagatePass dflt a0 f.clauses false = Pass.conflict a1 K ∧
        propagatePass dflt a0 pre false = Pass.scanned a1 ch :=
  unitPropagate_conflict dflt fuel a f K a1 h

/-- C9 (amended): for every store at current level d > 0 that satisfies T1-T4 and every
clause K without a repeated literal that is falsified under the store and has at least one
literal assigned at level d, `conflict_analysis` terminates (every sufficient fuel gives the
same result) and the clause it returns contains exactly one literal whose variable is
assigned at level d. -/
theorem conflict_analysis_one_uip (a : Assignments) (K : Clause)
    (hd : 0 < a.getDecisionLevel) (h1 : T1 a) (_h2 : T2 a) (h3 : T3 a) (h4 : T4 a)
    (hK : falsified a K)
    (hlev : ∃ l ∈ K, a.levelOf l.getVariable = some a.getDecisionLevel) (hnd : K.Nodup) :
    ∃ fuel L W, (∀ n, fuel ≤ n → conflict_analysis n K a = Run.done (L, W)) ∧
      countAtLevel a a.getDecisionLevel W = 1 := by
  obtain ⟨fuel, L, W, hrun, hc, -, -⟩ := conflict_analysis_uip hd h1 h3 h4 hK hlev hnd
  exact ⟨fuel, L, W, hrun, hc⟩

/-- C9, witness: the store with the decision x1 and the implied x4, x5 and the conflict
(¬x1 ∨ ¬x4 ∨ ¬x5). -/
theorem conflict_analysis_one_uip_witness :
    (0 < Example.conflictStore.getDecisionLevel ∧ T1 Example.conflictStore ∧
      T2 Example.conflictStore ∧ T3 Example.conflictStore ∧ T4 Example.conflictStore ∧
      falsified Example.conflictStore Example.conflictClause ∧
      (∃ l ∈ Example.conflictClause, Example.conflictStore.levelOf l.getVariable =
        some Example.conflictStore.getDecisionLevel) ∧ Example.conflictClause.Nodup) ∧
    ∃ fuel L W,
      (∀ n, fuel ≤ n →
        conflict_analysis n Example.conflictClause Example.conflictStore = Run.done (L, W)) ∧
      countAtLevel Example.conflictStore Example.conflictStore.getDecisionLevel W = 1 :=
  ⟨by decide,
    conflict_analysis_one_uip Example.conflictStore Example.conflictClause (by decide)
      (by decide) (by decide) (by decide) (by decide) (by decide) (by decide) (by decide)⟩

/-- C9 as stated fails: on the store that holds only the decision x1 at level 1, which
satisfies T1-T4, the clause (¬x1 ∨ ¬x1) is falsified and has a literal at level 1, but
`conflict_analysis` finds no variable to resolve on and `at(-1)` throws: no fuel gives a
result. -/
theorem conflict_analysis_repeated_literal_throws :
    0 < Example.decisionStore.getDecisionLevel ∧ T1 Example.decisionStore ∧
      T2 Example.decisionStore ∧ T3 Example.decisionStore ∧ T4 Example.decisionStore ∧
      falsified Example.decisionStore Example.repeatedClause ∧
      (∃ l ∈ Example.repeatedClause, Example.decisionStore.levelOf l.getVariable =
        some Example.decisionStore.getDecisionLevel) ∧
      ∀ fuel result,
        conflict_analysis fuel Example.repeatedClause Example.decisionStore ≠
          Run.done result := by
  refine ⟨by decide, by decide, by decide, by decide, by decide, by decide, by decide, ?_⟩
  intro fuel result
  cases fuel with
  | zero =>
    have h : conflict_analysis 0 Example.repeatedClause Example.decisionStore =
        Run.outOfFuel := by decide
    rw [h]
    exact fun h => by cases h
  | succ n =>
    have h : conflict_analysis (n + 1) Example.repeatedClause Example.decisionStore =
        Run.thrown := by
      unfold conflict_analysis
      rw [if_neg (by decide), analysisLoop]
      rfl
    rw [h]
    exact fun h => by cases h

/-- C10 (amended): for every call of `conflict_analysis` at current level d > 0, on a store
whose records all have decision levels between 0 and d, that returns (L, W): with M the set
of the decision levels other than d of the variables of W, L = 0 when M is empty and
L = max(M) otherwise, and 0 ≤ L < d. -/
theorem conflict_analysis_backjump_level (fuel : Nat) (K : Clause) (a : Assignments) (L : Int)
    (W : Clause) (hd : 0 < a.getDecisionLevel) (hb : levelsBounded a)
    (h : conflict_analysis fuel K a = Run.done (L, W)) :
    ((∀ l ∈ W, ∀ x ∈ a.levelOf l.getVariable, x = a.getDecisionLevel) → L = 0) ∧
    ((∃ l ∈ W, ∃ x ∈ a.levelOf l.getVariable, x ≠ a.getDecisionLevel) →
      (∃ l ∈ W, a.levelOf l.getVariable = some L ∧ L ≠ a.getDecisionLevel) ∧
        ∀ l ∈ W, ∀ x ∈ a.levelOf l.getVariable, x ≠ a.getDecisionLevel → x ≤ L) ∧
    0 ≤ L ∧ L < a.getDecisionLevel :=
  conflict_analysis_level_bounded hd hb h

/-- C10, witness: the analysis of (¬x1 ∨ ¬x4 ∨ ¬x5) at level 1 returns (0, (¬x1)). -/
theorem conflict_analysis_backjump_level_witness :
    (0 < Example.conflictStore.getDecisionLevel ∧ levelsBounded Example.conflictStore ∧
      conflict_analysis 3 Example.conflictClause Example.conflictStore =
        Run.done (0, [Example.neg 1])) ∧
    (0 : Int) ≤ 0 ∧ (0 : Int) < Example.conflictStore.getDecisionLevel :=
  ⟨by decide,
    (conflict_analysis_backjump_level 3 Example.conflictClause Example.conflictStore 0
      [Example.neg 1] (by decide) (by decide) (by decide)).2.2⟩

/-- C10 as stated fails: at current level 1, on a store whose only record was made at
level 5, `conflict_analysis` of (¬x1) returns the level 0, although the set M of the levels
other than 1 of the returned clause is {5}, with maximum 5. -/
theorem conflict_analysis_level_above_current :
    0 < Example.highLevelStore.getDecisionLevel ∧
      conflict_analysis 1 [Example.neg 1] Example.highLevelStore =
        Run.done (0, [Example.neg 1]) ∧
      Example.highLevelStore.getDecisionLevel = 1 ∧
      [Example.neg 1].map (fun l => Example.highLevelStore.levelOf l.getVariable) =
        [some 5] := by
  decide

/-- C7, witness: propagation on {(x1), (¬x1 ∨ x2), (¬x2 ∨ x3)} from the empty store. -/
theorem unitPropagate_unresolved_fixpoint_witness :
    unitPropagate (Example.pos 0) 3 Assignments.empty Example.chain =
        Run.done (UnitPropagationStatus.UNIT_UNRESOLVED, [], Example.chainStore) ∧
    ∀ c ∈ Example.chain.clauses, ∀ u : Literal,
      (checkClauseStatus c Example.chainStore u).1 = ClauseStatus.SATISFIED ∨
        (checkClauseStatus c Example.chainStore u).1 = ClauseStatus.UNRESOLVED :=
  ⟨rfl, unitPropagate_unresolved_fixpoint (Example.pos 0) 3 Assignments.empty Example.chain []
    Example.chainStore rfl⟩

/-- C8, witness: propagation on {(x1), (¬x1)} from the empty store stops at (¬x1). -/
theorem unitPropagate_conflict_report_witness :
    unitPropagate (Example.pos 0) 3 Assignments.empty Example.contradiction =
        Run.done (UnitPropagationStatus.UNIT_CONFLICT, [Example.neg 1], Example.unitStore) ∧
    [Example.neg 1] ∈ Example.contradiction.clauses ∧
      ∀ l ∈ [Example.neg 1],
        Example.unitStore.find l.getVariable ≠ none ∧ Example.unitStore.value l = false :=
  ⟨rfl,
    (unitPropagate_conflict_report (Example.pos 0) 3 Assignments.empty Example.contradiction
      [Example.neg 1] Example.unitStore rfl).1,
    (unitPropagate_conflict_report (Example.pos 0) 3 Assignments.empty Example.contradiction
      [Example.neg 1] Example.unitStore rfl).2.2.1⟩

/-- C1: when `CDCLSolve` leaves through its SAT exit (the completed store returned at the
end of the main loop), the returned store satisfies every clause of the input formula:
`Assignments::satisfy` is true, each input clause has a literal that is assigned and true. -/
theorem CDCLSolve_sat_sound (dflt : Literal) (fuel : Nat) (F0 : Formula) (a : Assignments)
    (hwf : F0.wellFormed) (h : CDCLRun dflt fuel F0 = Run.done (Exit.sat, a)) :
    CDCLSolve dflt fuel F0 = Run.done a ∧ a.satisfy F0 = true ∧
      ∀ c ∈ F0.clauses, ∃ l ∈ c, a.find l.getVariable ≠ none ∧ a.value l = true :=
  ⟨CDCLSolve_of_run h, ((CDCLRun_sound hwf dflt fuel _ a h).1 rfl).1,
    satisfy_iff.1 ((CDCLRun_sound hwf dflt fuel _ a h).1 rfl).1⟩

/-- C1, witness: the formula of the learning scenario, solved with one learned clause. -/
theorem CDCLSolve_sat_sound_witness :
    (Example.learning.wellFormed ∧
      CDCLRun (Example.pos 0) 6 Example.learning =
        Run.done (Exit.sat, Example.learningStore)) ∧
    Example.learningStore.satisfy Example.learning = true :=
  ⟨⟨by decide, rfl⟩,
    (CDCLSolve_sat_sound (Example.pos 0) 6 Example.learning Example.learningStore (by decide)
      rfl).2.1⟩

/-- C2: for every input formula whose clauses have no repeated variable, when `CDCLSolve`
leaves through one of its UNSAT exits (a conflict of `unitPropagate` at decision level 0, in
the initial propagation or inside the conflict loop), no total Boolean assignment satisfies
every clause of the input formula; and when it leaves through its SAT exit some total
assignment does: the verdict agrees with truth-table enumeration. -/
theorem CDCLSolve_unsat_sound (dflt : Literal) (fuel : Nat) (F0 : Formula) (e : Exit)
    (a : Assignments) (hwf : F0.wellFormed) (_hnr : ∀ c ∈ F0.clauses, c.noRepeat)
    (h : CDCLRun dflt fuel F0 = Run.done (e, a)) :
    (e = Exit.unsatInitial ∨ e = Exit.unsatConflict →
      ¬ ∃ M : Int → Bool, ∀ c ∈ F0.clauses, ∃ l ∈ c, l.eval M = true) ∧
    (e = Exit.sat → ∃ M : Int → Bool, ∀ c ∈ F0.clauses, ∃ l ∈ c, l.eval M = true) :=
  ⟨fun he => ((CDCLRun_sound hwf dflt fuel e a h).2
      (by rcases he with rfl | rfl <;> decide)).1,
    fun he => satisfiable_of_satisfy ((CDCLRun_sound hwf dflt fuel e a h).1 he).1⟩

/-- C2, witness: the four clauses over x1 and x2 are refuted after one learned clause. -/
theorem CDCLSolve_unsat_sound_witness :
    (Example.square.wellFormed ∧ (∀ c ∈ Example.square.clauses, c.noRepeat) ∧
      CDCLRun (Example.pos 0) 6 Example.square =
        Run.done (Exit.unsatConflict, Assignments.empty)) ∧
    ¬ ∃ M : Int → Bool, ∀ c ∈ Example.square.clauses, ∃ l ∈ c, l.eval M = true :=
  ⟨⟨by decide, by decide, rfl⟩,
    (CDCLSolve_unsat_sound (Example.pos 0) 6 Example.square Exit.unsatConflict
      Assignments.empty (by decide) (by decide) rfl).1 (Or.inr rfl)⟩

/-- C3 (amended): for every input formula with at least one variable whose clauses have no
repeated variable, `CDCLSolve` returns (every sufficient fuel gives the same store) a
non-empty store when the formula is satisfiable and an empty store when it is
unsatisfiable. -/
theorem CDCLSolve_result_shape (dflt : Literal) (F0 : Formula) (hwf : F0.wellFormed)
    (hnr : ∀ c ∈ F0.clauses, c.noRepeat) (hne : F0.getVariables ≠ []) :
    ∃ N a, (∀ n, N ≤ n → CDCLSolve dflt n F0 = Run.done a) ∧
      (F0.satisfiable → a.size ≠ 0) ∧ (¬ F0.satisfiable → a.size = 0) :=
  CDCLSolve_shape hwf (noRepeatedLiteral_of_noRepeat hnr) hne dflt

/-- C3, witness: the formula of the learning scenario. -/
theorem CDCLSolve_result_shape_witness :
    (Example.learning.wellFormed ∧ (∀ c ∈ Example.learning.clauses, c.noRepeat) ∧
      Example.learning.getVariables ≠ []) ∧
    ∃ N a, (∀ n, N ≤ n → CDCLSolve (Example.pos 0) n Example.learning = Run.done a) ∧
      (Example.learning.satisfiable → a.size ≠ 0) ∧
      (¬ Example.learning.satisfiable → a.size = 0) :=
  ⟨by decide,
    CDCLSolve_result_shape (Example.pos 0) Example.learning (by decide) (by decide)
      (by decide)⟩

/-- C3 as stated fails: the formula with 0 clauses and 0 variables is satisfiable, and
`CDCLSolve` returns the empty store on it, the store it also returns for UNSAT. -/
theorem CDCLSolve_empty_formula_empty_store :
    Example.noClauses.wellFormed ∧ Example.noClauses.satisfiable ∧
      (∀ n, 1 ≤ n →
        CDCLRun (Example.pos 0) n Example.noClauses =
          Run.done (Exit.sat, Assignments.empty)) ∧
      (∀ n, 1 ≤ n → CDCLSolve (Example.pos 0) n Example.noClauses =
        Run.done Assignments.empty) ∧
      Assignments.empty.size = 0 := by
  refine ⟨by decide, ⟨fun _ => true, fun c hc => by cases hc⟩, ?_, ?_, rfl⟩
  · intro n hn
    obtain ⟨m, rfl⟩ : ∃ m, n = m + 1 := ⟨n - 1, by omega⟩
    rfl
  · intro n hn
    obtain ⟨m, rfl⟩ : ∃ m, n = m + 1 := ⟨n - 1, by omega⟩
    rfl

/-- C4: for every input formula whose variable set is the set of the variables occurring in
its clauses, when `CDCLSolve` leaves through its SAT exit the key set of the returned store
is exactly the variable set of the formula: every variable of the formula has a record (a
Boolean value) and no other variable is assigned. -/
theorem CDCLSolve_sat_total (dflt : Literal) (fuel : Nat) (F0 : Formula) (a : Assignments)
    (hwf : F0.wellFormed) (h : CDCLRun dflt fuel F0 = Run.done (Exit.sat, a)) :
    (∀ v, v ∈ a.store.keys ↔ v ∈ F0.getVariables) ∧
      (∀ v, a.find v ≠ none ↔ v ∈ F0.getVariables) :=
  ⟨((CDCLRun_sound hwf dflt fuel _ a h).1 rfl).2,
    fun v => find_ne_none_iff_mem_keys.trans (((CDCLRun_sound hwf dflt fuel _ a h).1 rfl).2 v)⟩

/-- C4, witness: the formula of the learning scenario. -/
theorem CDCLSolve_sat_total_witness :
    (Example.learning.wellFormed ∧
      CDCLRun (Example.pos 0) 6 Example.learning =
        Run.done (Exit.sat, Example.learningStore)) ∧
    ∀ v, v ∈ Example.learningStore.store.keys ↔ v ∈ Example.learning.getVariables :=
  ⟨⟨by decide, rfl⟩,
    (CDCLSolve_sat_total (Example.pos 0) 6 Example.learning Example.learningStore (by decide)
      rfl).1⟩

/-- C5: for every finite input formula (finitely many clauses, each without a repeated
variable, over its finite variable set) `CDCLSolve` terminates: there is a fuel bound from
which on every run returns the same verdict and store, rather than running out of fuel or
throwing. -/
theorem CDCLSolve_terminates (dflt : Literal) (F0 : Formula) (hwf : F0.wellFormed)
    (hnr : ∀ c ∈ F0.clauses, c.noRepeat) :
    ∃ N e a, ∀ n, N ≤ n →
      CDCLRun dflt n F0 = Run.done (e, a) ∧ CDCLSolve dflt n F0 = Run.done a := by
  obtain ⟨N, ⟨e, a⟩, hrun⟩ := CDCLRun_total hwf (noRepeatedLiteral_of_noRepeat hnr) dflt
  exact ⟨N, e, a, fun n hn => ⟨hrun n hn, CDCLSolve_of_run (hrun n hn)⟩⟩

/-- C5, witness: the unsatisfiable formula of four clauses over x1 and x2. -/
theorem CDCLSolve_terminates_witness :
    (Example.square.wellFormed ∧ ∀ c ∈ Example.square.clauses, c.noRepeat) ∧
    ∃ N e a, ∀ n, N ≤ n →
      CDCLRun (Example.pos 0) n Example.square = Run.done (e, a) ∧
        CDCLSolve (Example.pos 0) n Example.square = Run.done a :=
  ⟨by decide, CDCLSolve_terminates (Example.pos 0) Example.square (by decide) (by decide)⟩

/-- C11: in a run of `CDCLSolve`, at every conflict at a level d > 0 for which
`conflict_analysis` returns (L, W), `backtrack` to L returns a store at level L and, W being
a clause of the extended formula, `checkClauseStatus` classifies W as UNIT under that store:
exactly one literal of W is unassigned, it is the `unit_literal` handed to `assign`, its
variable was assigned at level d before the backjump, and every other literal of W is
assigned and false. -/
theorem learned_clause_asserting (dflt : Literal) (F0 f : Formula) (a : Assignments)
    (K : Clause) (fuel : Nat) (L : Int) (W : Clause) (hwf : F0.wellFormed)
    (hreach : Reach dflt F0 (Point.conflict f a K)) (hd : 0 < a.getDecisionLevel)
    (hca : conflict_analysis fuel K a = Run.done (L, W)) :
    ∃ a2, backtrack a L = Run.done a2 ∧ W ∈ (addClause f W).clauses ∧
      a2.getDecisionLevel = L ∧
      (checkClauseStatus W a2 dflt).1 = ClauseStatus.UNIT ∧
      unassignedCount a2 W = 1 ∧
      a2.find (checkClauseStatus W a2 dflt).2.getVariable = none ∧
      a.levelOf (checkClauseStatus W a2 dflt).2.getVariable = some a.getDecisionLevel ∧
      ∃ pre post, W = pre ++ (checkClauseStatus W a2 dflt).2 :: post ∧
        ∀ x ∈ pre ++ post, a2.find x.getVariable ≠ none ∧ a2.value x = false :=
  Reach.unit_after_backjump hwf hreach hd hca

theorem learned_clause_asserting_witness :
    (Example.learning.wellFormed ∧ 0 < Example.conflictStore.getDecisionLevel ∧
      conflict_analysis 3 Example.conflictClause Example.conflictStore =
        Run.done (0, [Example.neg 1])) ∧
    ∃ a2, backtrack Example.conflictStore 0 = Run.done a2 ∧
      [Example.neg 1] ∈ (addClause Example.learning [Example.neg 1]).clauses ∧
      a2.getDecisionLevel = 0 ∧
      (checkClauseStatus [Example.neg 1] a2 (Example.pos 0)).1 = ClauseStatus.UNIT ∧
      unassignedCount a2 [Example.neg 1] = 1 ∧
      a2.find (checkClauseStatus [Example.neg 1] a2 (Example.pos 0)).2.getVariable = none ∧
      Example.conflictStore.levelOf
          (checkClauseStatus [Example.neg 1] a2 (Example.pos 0)).2.getVariable =
        some Example.conflictStore.getDecisionLevel ∧
      ∃ pre post,
        [Example.neg 1] =
          pre ++ (checkClauseStatus [Example.neg 1] a2 (Example.pos 0)).2 :: post ∧
        ∀ x ∈ pre ++ post, a2.find x.getVariable ≠ none ∧ a2.value x = false :=
  ⟨⟨by decide, by decide, rfl⟩,
    learned_clause_asserting (Example.pos 0) Example.learning Example.learning
      Example.conflictStore Example.conflictClause 3 0 [Example.neg 1] (by decide)
      Example.reach_conflict (by decide) rfl⟩

/-- C12: every clause W that `conflict_analysis` returns at a conflict of a run of
`CDCLSolve` (the clause the run then appends to the formula) is a logical consequence of the
input formula: every total Boolean assignment that satisfies all input clauses satisfies
W. -/
theorem learned_clause_entailed (dflt : Literal) (F0 f : Formula) (a : Assignments)
    (K : Clause) (fuel : Nat) (L : Int) (W : Clause) (hwf : F0.wellFormed)
    (hreach : Reach dflt F0 (Point.conflict f a K)) (hd : a.getDecisionLevel ≠ 0)
    (hca : conflict_analysis fuel K a = Run.done (L, W)) :
    ∀ M : Int → Bool, models M F0.clauses → Clause.holds M W :=
  Reach.entailment hwf hreach hd hca

theorem learned_clause_entailed_witness :
    (Example.learning.wellFormed ∧ Example.conflictStore.getDecisionLevel ≠ 0 ∧
      conflict_analysis 3 Example.conflictClause Example.conflictStore =
        Run.done (0, [Example.neg 1])) ∧
    ∀ M : Int → Bool, models M Example.learning.clauses →
      Clause.holds M [Example.neg 1] :=
  ⟨⟨by decide, by decide, rfl⟩,
    learned_clause_entailed (Example.pos 0) Example.learning Example.learning
      Example.conflictStore Example.conflictClause 3 0 [Example.neg 1] (by decide)
      Example.reach_conflict (by decide) rfl⟩

/-- C13: for every store that satisfies T1 and T2 and every target level L ≥ 0, `backtrack`
returns; afterwards the current decision level is L, every record left in the store has a
decision level at most L (and is a record of the store before the call, unchanged), the
trail is the older part of the trail before the call, and T1 and T2 still hold. -/
theorem backtrack_postcondition (a : Assignments) (L : Int) (h1 : T1 a) (h2 : T2 a)
    (_hL : 0 ≤ L) :
    ∃ a2, backtrack a L = Run.done a2 ∧ a2.getDecisionLevel = L ∧
      (∀ v, ∀ r ∈ a2.find v, r.getDecisionLevel ≤ L ∧ a.find v = some r) ∧
      a2.getTrail <:+ a.getTrail ∧ T1 a2 ∧ T2 a2 :=
  backtrack_post h1 h2 L

theorem backtrack_postcondition_witness :
    (T1 Example.conflictStore ∧ T2 Example.conflictStore) ∧
    ∃ a2, backtrack Example.conflictStore 0 = Run.done a2 ∧ a2.getDecisionLevel = 0 ∧
      (∀ v, ∀ r ∈ a2.find v,
        r.getDecisionLevel ≤ 0 ∧ Example.conflictStore.find v = some r) ∧
      a2.getTrail <:+ Example.conflictStore.getTrail ∧ T1 a2 ∧ T2 a2 :=
  ⟨by decide,
    backtrack_postcondition Example.conflictStore 0 (by decide) (by decide) (by decide)⟩

/-- C14: T1, T2, T3 and T4 hold of the initial empty store and at every program point of a
run of `CDCLSolve`: the points are those reached from the empty store by `unitPropagate`,
by the decide step (`increaseDecisionLevel`, then `assign` with the empty antecedent) and by
`backtrack` followed by the assignment of the unit literal of the learned clause. The store
returned at the SAT exit is the store of such a point. -/
theorem trail_discipline (dflt : Literal) (F0 : Formula) (hwf : F0.wellFormed) :
    (T1 Assignments.empty ∧ T2 Assignments.empty ∧ T3 Assignments.empty ∧
      T4 Assignments.empty) ∧
    (∀ p, Reach dflt F0 p →
      T1 p.assignments ∧ T2 p.assignments ∧ T3 p.assignments ∧ T4 p.assignments) ∧
    ∀ fuel a1, CDCLRun dflt fuel F0 = Run.done (Exit.sat, a1) →
      (∃ f1, Reach dflt F0 (Point.loop f1 a1)) ∧ T1 a1 ∧ T2 a1 ∧ T3 a1 ∧ T4 a1 :=
  Reach.discipline dflt hwf

theorem trail_discipline_witness :
    (Example.learning.wellFormed ∧
      CDCLRun (Example.pos 0) 6 Example.learning =
        Run.done (Exit.sat, Example.learningStore)) ∧
    (∃ f1, Reach (Example.pos 0) Example.learning (Point.loop f1 Example.learningStore)) ∧
      T1 Example.learningStore ∧ T2 Example.learningStore ∧ T3 Example.learningStore ∧
      T4 Example.learningStore :=
  ⟨⟨by decide, rfl⟩,
    (trail_discipline (Example.pos 0) Example.learning (by decide)).2.2 6
      Example.learningStore rfl⟩

/-- C15: for all clauses A and B and every variable v, the clause `resolve` returns has no
repeated literal, a literal occurs in it iff it occurs in A or in B and its variable is not
v, and so no literal over v remains. -/
theorem resolve_spec (A B : Clause) (v : Int) :
    (resolve A B v).Nodup ∧
      (∀ l, l ∈ resolve A B v ↔ (l ∈ A ∨ l ∈ B) ∧ l.getVariable ≠ v) ∧
      ∀ l ∈ resolve A B v, l.getVariable ≠ v :=
  resolve_members A B v

/-- C16 (amended): for every store and every literal, `value` returns false when the
variable of the literal is not a key of the store, and otherwise the stored value, negated
iff the literal is negated. -/
theorem value_total (a : Assignments) (l : Literal) :
    (a.find l.getVariable = none → a.value l = false) ∧
      ∀ r, a.find l.getVariable = some r →
        a.value l = if l.isNegated then !r.getValue else r.getValue :=
  value_spec a l

/-- C16, counterexample: on the empty store the variable of the literal x1 is not a key,
and `value` returns the Boolean false. -/
theorem value_unassigned_returns_false :
    Assignments.empty.find (Example.pos 1).getVariable = none ∧
      Assignments.empty.value (Example.pos 1) = false := by
  decide

/-- C17 (amended): for every store whose trail ends with v, after `unassign(v)` followed by
`popTrail()` the record of v is removed, the trail is the trail before without its last
entry (shorter by one), every other record is unchanged, and v is no longer on the trail
when the trail had no repeated entry. -/
theorem unassign_then_popTrail (a : Assignments) (v : Int) (t : List Int)
    (h : a.getTrail = v :: t) :
    ((a.unassign v).popTrail).find v = none ∧ ((a.unassign v).popTrail).getTrail = t ∧
      ((a.unassign v).popTrail).getTrail.length + 1 = a.getTrail.length ∧
      (∀ w, w ≠ v → ((a.unassign v).popTrail).find w = a.find w) ∧
      (a.getTrail.Nodup → v ∉ ((a.unassign v).popTrail).getTrail) :=
  unassign_popTrail_spec a v t h

theorem unassign_then_popTrail_witness :
    Example.unitStore.getTrail = [1] ∧
    (((Example.unitStore.unassign 1).popTrail).find 1 = none ∧
      ((Example.unitStore.unassign 1).popTrail).getTrail = [] ∧
      ((Example.unitStore.unassign 1).popTrail).getTrail.length + 1 =
        Example.unitStore.getTrail.length ∧
      (∀ w, w ≠ 1 → ((Example.unitStore.unassign 1).popTrail).find w =
        Example.unitStore.find w) ∧
      (Example.unitStore.getTrail.Nodup →
        (1 : Int) ∉ ((Example.unitStore.unassign 1).popTrail).getTrail)) :=
  ⟨rfl, unassign_then_popTrail Example.unitStore 1 [] rfl⟩

/-- C17, counterexample: on the store that holds only x1, whose trail is [x1], `unassign(1)`
removes the record and leaves the trail as it was, with x1 on it; and on a store whose
trail lists x1 twice, x1 is still on the trail after `unassign(1)` and `popTrail()`. -/
theorem unassign_keeps_trail :
    (Example.unitStore.getTrail = [1] ∧ (Example.unitStore.unassign 1).find 1 = none ∧
      (Example.unitStore.unassign 1).getTrail = [1]) ∧
    (Example.twiceStore.getTrail = [1, 1] ∧
      ((Example.twiceStore.unassign 1).popTrail).getTrail = [1]) := by
  decide

/-- C18: for every store and every formula, `satisfy` is true iff every clause of the
formula has a literal whose variable is assigned and whose value under the store is true;
it is true for a formula with no clauses, false for a formula with an empty clause, and
false for a formula with a clause whose literals are all unassigned or false. -/
theorem satisfy_characterisation (a : Assignments) (f : Formula) :
    (a.satisfy f = true ↔
      ∀ c ∈ f.clauses, ∃ l ∈ c, a.find l.getVariable ≠ none ∧ a.value l = true) ∧
    (f.clauses = [] → a.satisfy f = true) ∧
    ([] ∈ f.clauses → a.satisfy f = false) ∧
    (∀ c ∈ f.clauses, (∀ l ∈ c, a.find l.getVariable = none ∨ a.value l = false) →
      a.satisfy f = false) :=
  satisfy_spec a f

/-- C19: for every clause, store and initial `unit_literal`, `checkClauseStatus` returns the
same status and the same `unit_literal` as the variant whose UNIT test is only
`unassigned_count == 1`; whenever the loop ends without the early return no literal was
true and `unassigned_count + false_count` is the length of the clause. -/
theorem checkClauseStatus_unit_test_redundant (c : Clause) (a : Assignments) (u : Literal) :
    checkClauseStatus c a u = checkClauseStatusUnitOnly c a u ∧
      ∀ unassigned_count false_count ul,
        checkLoop a c 0 0 u = Sum.inr (unassigned_count, false_count, ul) →
          unassigned_count + false_count = (c.length : Int) ∧ ∀ l ∈ c, a.value l = false :=
  checkClauseStatus_unit_conjunct c a u

/-- C20 (amended): for every store that satisfies T1-T4 at a level d > 0 and every clause K
without a repeated literal all of whose literals are assigned and false, every value of
`current_clause` in `conflict_analysis`, and the clause W it returns, has all its literals
assigned and false under the store and no variable twice; W has no complementary pair of
literals and only variables assigned in the store. -/
theorem conflict_analysis_working_clause (a : Assignments) (K : Clause)
    (hd : 0 < a.getDecisionLevel) (h1 : T1 a) (_h2 : T2 a) (_h3 : T3 a) (h4 : T4 a)
    (hK : falsified a K) (hnd : K.Nodup) :
    (∀ W, WorkingClause a K W → falsified a W ∧ W.noRepeat) ∧
    ∀ fuel L W, conflict_analysis fuel K a = Run.done (L, W) →
      WorkingClause a K W ∧ falsified a W ∧
        (∀ l1 ∈ W, ∀ l2 ∈ W, l1.getVariable = l2.getVariable →
          l1.isNegated = l2.isNegated) ∧
        W.noRepeat ∧ ∀ l ∈ W, a.find l.getVariable ≠ none :=
  ⟨(working_clause_spec h1 h4 hK hnd).1,
    fun fuel L W hca => (working_clause_spec h1 h4 hK hnd).2 fuel L W hd.ne' hca⟩

theorem conflict_analysis_working_clause_witness :
    (0 < Example.conflictStore.getDecisionLevel ∧ T1 Example.conflictStore ∧
      T2 Example.conflictStore ∧ T3 Example.conflictStore ∧ T4 Example.conflictStore ∧
      falsified Example.conflictStore Example.conflictClause ∧
      Example.conflictClause.Nodup ∧
      conflict_analysis 3 Example.conflictClause Example.conflictStore =
        Run.done (0, [Example.neg 1])) ∧
    falsified Example.conflictStore [Example.neg 1] ∧
      Clause.noRepeat [Example.neg 1] :=
  ⟨by decide,
    ((conflict_analysis_working_clause Example.conflictStore Example.conflictClause
      (by decide) (by decide) (by decide) (by decide) (by decide) (by decide)
      (by decide)).2 3 0 [Example.neg 1] rfl).2.1,
    ((conflict_analysis_working_clause Example.conflictStore Example.conflictClause
      (by decide) (by decide) (by decide) (by decide) (by decide) (by decide)
      (by decide)).2 3 0 [Example.neg 1] rfl).2.2.2.1⟩

/-- C20, counterexample: the store with x1 implied at level 0 and the decision x2 at level 1
satisfies T1-T4, the clause (¬x1 ∨ ¬x1) is falsified under it, and `conflict_analysis`
returns it unchanged: the returned clause has the variable x1 twice. -/
theorem conflict_analysis_returns_repeated_variable :
    T1 Example.twoLevelStore ∧ T2 Example.twoLevelStore ∧ T3 Example.twoLevelStore ∧
      T4 Example.twoLevelStore ∧ 0 < Example.twoLevelStore.getDecisionLevel ∧
      falsified Example.twoLevelStore Example.repeatedClause ∧
      conflict_analysis 1 Example.repeatedClause Example.twoLevelStore =
        Run.done (0, Example.repeatedClause) ∧
      ¬ Example.repeatedClause.noRepeat := by
  decide

end SATSolver
